import Mathlib

/-!
# minidocx `Zip`: archive session lifecycle and in-place deletion

A shallow embedding of `src/src/zip.cpp` (class `minidocx::Zip`): the session
state, `close`, the read-side guards, `iosmove` and `deleteFiles`, followed by
the properties proved about them.

Conventions of the embedding.

* Bytes are natural numbers; a memory buffer or a file is a `List Nat`.
* `uint64_t`/`size_t` arithmetic that can wrap is written with `add64`/`sub64`,
  `mz_uint32` stores with `u32`.  Entry indices and counters (`uint32_t`) only
  ever count up to `m_total_files`, so they are plain naturals.
* The local tables of `deleteFiles` (`entryPos`, `entryCmd`) are functions from
  the entry index, updated with `Function.update`; they are only ever accessed
  below `numEntries`.
* The C++ loops whose trip count is not syntactically bounded are run with an
  explicit step budget and return `none` when the budget is exhausted.
* The codec engine (miniz) is not part of the sources.  What `Zip` reads from
  it is modelled in the definitions marked `Modelled from the spec`.
-/

namespace minidocx

/-! ## Machine arithmetic -/

/-- Number of values of an unsigned 32-bit integer. -/
def U32 : Nat := 4294967296

/-- Number of values of an unsigned 64-bit integer. -/
def U64 : Nat := 18446744073709551616

/-- Conversion to `mz_uint32`. -/
def u32 (a : Nat) : Nat := a % U32

/-- Addition of `uint64_t` values. -/
def add64 (a b : Nat) : Nat := (a + b) % U64

/-- Subtraction of `uint64_t` values. -/
def sub64 (a b : Nat) : Nat := (a + (U64 - b % U64)) % U64

/-- Subtraction of `mz_uint32` values. -/
def sub32 (a b : Nat) : Nat := (a + (U32 - b % U32)) % U32

/-! ## Byte buffers -/

/-- The byte `'/'`. -/
def slash : Nat := 47

/-- The `n` bytes of `l` starting at `pos`. -/
def slice (l : List Nat) (pos n : Nat) : List Nat := (l.drop pos).take n

/-- Overwrite `l` from `pos` on with `data`.  Writing nothing changes nothing;
a write that starts past the end first pads the gap with zero bytes, and a
write that runs past the end extends the list. -/
def writeAt (l : List Nat) (pos : Nat) (data : List Nat) : List Nat :=
  if data = [] then l
  else (l ++ List.replicate (pos - l.length) 0).take pos ++ data ++ l.drop (pos + data.length)

/-- The call `std::memmove(buf + dst, buf + src, len)` on a memory buffer. -/
def memmove (buf : List Nat) (dst src len : Nat) : List Nat :=
  writeAt buf dst (slice buf src len)

/-- Modelled from the spec: the codec engine's 16-bit little-endian load (miniz
macro `MZ_READ_LE16`, not among the sources). -/
def MZ_READ_LE16 (p : List Nat) (ofs : Nat) : Nat :=
  p.getD ofs 0 + 256 * p.getD (ofs + 1) 0

/-- Modelled from the spec: the codec engine's 32-bit little-endian load (miniz
macro `MZ_READ_LE32`, not among the sources). -/
def MZ_READ_LE32 (p : List Nat) (ofs : Nat) : Nat :=
  p.getD ofs 0 + 256 * p.getD (ofs + 1) 0 + 65536 * p.getD (ofs + 2) 0
    + 16777216 * p.getD (ofs + 3) 0

/-- The four bytes of the 32-bit little-endian encoding of `v` (truncated to
32 bits, as the cast to `mz_uint32` does). -/
def le32 (v : Nat) : List Nat :=
  [v % 256, v / 256 % 256, v / 65536 % 256, v / 16777216 % 256]

/-- Modelled from the spec: the codec engine's 32-bit little-endian store (miniz
macro `MZ_WRITE_LE32`, not among the sources), patching four bytes of the
directory buffer in place. -/
def MZ_WRITE_LE32 (p : List Nat) (ofs v : Nat) : List Nat :=
  (((p.set ofs (v % 256)).set (ofs + 1) (v / 256 % 256)).set (ofs + 2)
    (v / 65536 % 256)).set (ofs + 3) (v / 16777216 % 256)

/-- Modelled from the spec: size of the fixed part of a directory record (miniz
constant `MZ_ZIP_CENTRAL_DIR_HEADER_SIZE`). -/
def MZ_ZIP_CENTRAL_DIR_HEADER_SIZE : Nat := 46

/-- Modelled from the spec: position of the name-length field in a directory
record (miniz constant `MZ_ZIP_CDH_FILENAME_LEN_OFS`). -/
def MZ_ZIP_CDH_FILENAME_LEN_OFS : Nat := 28

/-- Modelled from the spec: position of the local-header-offset field in a
directory record (miniz constant `MZ_ZIP_CDH_LOCAL_HEADER_OFS`). -/
def MZ_ZIP_CDH_LOCAL_HEADER_OFS : Nat := 42

/-- Modelled from the spec: capacity of the name field of the codec engine's
stat record (miniz constant `MZ_ZIP_MAX_ARCHIVE_FILENAME_SIZE`). -/
def MZ_ZIP_MAX_ARCHIVE_FILENAME_SIZE : Nat := 512

/-! ## The backing stream -/

/-- The `std::fstream file_`: the bytes of the backing file and the sticky
failure state of the stream.  Once `failed` is set every later read, write
and seek is a no-op, since the class never calls `clear()`. -/
structure FStream where
  bytes : List Nat
  failed : Bool
deriving DecidableEq, Repr

/-- The expression `ios.seekg(pos).read(buf, n)`: the bytes read, and the
stream afterwards.  Reading fewer than `n` bytes sets the failure state. -/
def FStream.read (s : FStream) (pos n : Nat) : FStream × List Nat :=
  if s.failed then (s, [])
  else if n = 0 ∨ pos + n ≤ s.bytes.length then (s, slice s.bytes pos n)
  else ({ s with failed := true }, [])

/-- The expression `ios.seekp(pos).write(buf, n)` with `data` the `n` bytes
written. -/
def FStream.write (s : FStream) (pos : Nat) (data : List Nat) : FStream :=
  if s.failed then s else { s with bytes := writeAt s.bytes pos data }

/-- Page size of `iosmove`. -/
def pageSize : Nat := 20

/-- The `for` loop of `iosmove`: `numPage` full pages are read at `gptr` and
written at `pptr`.  (After a failure `tellg` reports `-1`; since every later
operation is then a no-op the cursors no longer matter.) -/
def iosmovePages : Nat → FStream → Nat → Nat → FStream × Nat × Nat
  | 0, ios, pptr, gptr => (ios, pptr, gptr)
  | i + 1, ios, pptr, gptr =>
    let r := ios.read gptr pageSize
    iosmovePages i (r.1.write pptr r.2) (pptr + pageSize) (gptr + pageSize)

/-- The function `iosmove(ios, dst, src, len)`. -/
def iosmove (ios : FStream) (dst src len : Nat) : FStream :=
  let numPage := len / pageSize
  let p := iosmovePages numPage ios dst src
  let r := p.1.read p.2.2 (len % pageSize)
  r.1.write p.2.1 r.2

/-! ## Session state -/

/-- The enumeration `Zip::OpenMode`. -/
inductive OpenMode where
  | None
  | ReadOnly
  | Update
  | Create
  | Create64
deriving DecidableEq, Repr

/-- The exception classes of `exceptions.hpp`; `miniz` stands for the base
class `exception` raised with sender `"miniz"`. -/
inductive Error where
  | unsupported_feature
  | invalid_parameter
  | invalid_operation
  | io_error
  | miniz
deriving DecidableEq, Repr

/-- Modelled from the spec: the codec engine's growable array (miniz
`mz_zip_array`): its storage and its logical size. -/
structure mz_zip_array where
  m_p : List Nat
  m_size : Nat
deriving DecidableEq, Repr

/-- Modelled from the spec: the fields of the codec engine's archive state
(miniz `mz_zip_archive` and its `m_pState`) that `Zip` reads or writes. -/
structure mz_zip_archive where
  m_archive_size : Nat
  m_total_files : Nat
  m_zip64 : Bool
  m_central_dir : mz_zip_array
  m_central_dir_offsets : mz_zip_array
deriving DecidableEq, Repr

/-- The struct `Zip::mz_zip_archive_ex`. -/
structure mz_zip_archive_ex extends mz_zip_archive where
  m_orig_archive_size : Nat
deriving DecidableEq, Repr

/-- The data members of class `Zip`. -/
structure Zip where
  zip_ : mz_zip_archive_ex
  file_ : FStream
  filename_ : String
  openMode_ : OpenMode
deriving DecidableEq, Repr

/-! ## Directory access -/

/-- Modelled from the spec: the fields of the codec engine's stat record
(miniz `mz_zip_archive_file_stat`) that `Zip` reads in `deleteFiles` and
`listEntries`. -/
structure mz_zip_archive_file_stat where
  m_filename : List Nat
  m_local_header_ofs : Nat
  m_central_dir_ofs : Nat
deriving DecidableEq, Repr

/-- The name stored in the directory record that starts at the head of `p`,
as the C string the codec engine hands out: at most 511 bytes, ending before
the first zero byte. -/
def recordName (p : List Nat) : List Nat :=
  (slice p MZ_ZIP_CENTRAL_DIR_HEADER_SIZE
    (min (MZ_READ_LE16 p MZ_ZIP_CDH_FILENAME_LEN_OFS)
      (MZ_ZIP_MAX_ARCHIVE_FILENAME_SIZE - 1))).takeWhile (fun b => b != 0)

/-- Modelled from the spec: the codec engine's stat-entry (miniz
`mz_zip_reader_file_stat`, not among the sources).  It fails for an index that
is not below the entry count; otherwise it locates the directory record
through the offset index and decodes the name and the 32-bit local-header
offset from it.  (The 64-bit extended-information lookup that miniz performs
for a saturated 32-bit field is not modelled.) -/
def mz_zip_reader_file_stat (z : mz_zip_archive) (i : Nat) :
    Option mz_zip_archive_file_stat :=
  if i < z.m_total_files then
    let ofs := z.m_central_dir_offsets.m_p.getD i 0
    let p := z.m_central_dir.m_p.drop ofs
    some { m_filename := recordName p
           m_local_header_ofs := MZ_READ_LE32 p MZ_ZIP_CDH_LOCAL_HEADER_OFS
           m_central_dir_ofs := ofs }
  else none

/-! ## The codec engine and the environment -/

/-- Modelled from the spec: the operations of the codec engine (miniz, not among
the sources) that `Zip` calls without looking inside, as an interface.  Each
operation works on the codec state and, where it performs I/O, on the bound
stream; the initialisers report success together with the state they leave. -/
structure Codec where
  mz_zip_reader_init : mz_zip_archive → FStream → Nat → Bool → Bool × mz_zip_archive
  mz_zip_writer_init_from_reader : mz_zip_archive → FStream → Bool × mz_zip_archive
  mz_zip_writer_init_v2 : mz_zip_archive → FStream → Bool → Bool × mz_zip_archive
  mz_zip_reader_end : mz_zip_archive → mz_zip_archive
  mz_zip_writer_finalize_archive : mz_zip_archive × FStream → mz_zip_archive × FStream
  mz_zip_writer_end : mz_zip_archive → mz_zip_archive
  mz_zip_reader_locate_file_v2 : mz_zip_archive → List Nat → Option Nat
  mz_zip_reader_extract_to_callback : mz_zip_archive → FStream → Nat → Option (List Nat)
  m_is_directory : mz_zip_archive → Nat → Bool
  m_uncomp_size : mz_zip_archive → Nat → Nat
  m_time : mz_zip_archive → Nat → Nat

/-- The flags of a `std::ios::openmode` value that `open` combines. -/
structure IosMode where
  binary : Bool
  «in» : Bool
  out : Bool
  ate : Bool
deriving DecidableEq, Repr

/-- The file system seen by `file_.open`: the content of the file a successful
open yields, or `none` when the stream cannot be opened. -/
abbrev FileSystem := String → IosMode → Option (List Nat)

/-- The function `fs::resize_file(filename, size)` on the content of the file:
truncation, or extension with zero bytes. -/
def resize_file (bytes : List Nat) (size : Nat) : List Nat :=
  bytes.take size ++ List.replicate (size - bytes.length) 0

/-- The state of a freshly constructed `Zip`. -/
def Zip.init : Zip :=
  { zip_ := { m_archive_size := 0, m_total_files := 0, m_zip64 := false
              m_central_dir := ⟨[], 0⟩, m_central_dir_offsets := ⟨[], 0⟩
              m_orig_archive_size := 0 }
    file_ := ⟨[], false⟩
    filename_ := ""
    openMode_ := OpenMode.None }

/-! ## close -/

/-- The `switch` of `Zip::close`: the codec calls made for each mode, or `none`
for the `None`/`default` case, where `close` returns at once. -/
def closeCodec (cx : Codec) (s : Zip) : Option (mz_zip_archive × FStream) :=
  match s.openMode_ with
  | OpenMode.ReadOnly => some (cx.mz_zip_reader_end s.zip_.tomz_zip_archive, s.file_)
  | OpenMode.Update | OpenMode.Create | OpenMode.Create64 =>
    let r := cx.mz_zip_writer_finalize_archive (s.zip_.tomz_zip_archive, s.file_)
    some (cx.mz_zip_writer_end r.1, r.2)
  | OpenMode.None => none

/-- The call `fs::resize_file(filename_, zip_->m_archive_size)` that `close`
makes, as the size it passes, or `none` when the guard
`m_archive_size < m_orig_archive_size` skips the call. -/
def closeResize (archiveSize origArchiveSize : Nat) : Option Nat :=
  if archiveSize < origArchiveSize then some archiveSize else none

/-- The method `Zip::close`.  After `file_.close()` the field `file_` holds what
is left in the backing file. -/
def Zip.close (cx : Codec) (s : Zip) : Zip :=
  match closeCodec cx s with
  | none => s
  | some (z, file) =>
    { zip_ := { z with m_orig_archive_size := 0 }
      file_ :=
        match closeResize z.m_archive_size s.zip_.m_orig_archive_size with
        | some size => { file with bytes := resize_file file.bytes size }
        | none => file
      filename_ := ""
      openMode_ := OpenMode.None }

/-! ## open -/

/-- The first `switch` of `Zip::open`: the stream mode chosen for each lifecycle
mode, or `none` for `None`/`default`, where `open` throws. -/
def iosModeOf : OpenMode → Option IosMode
  | OpenMode.Create | OpenMode.Create64 =>
    some { binary := true, «in» := false, out := true, ate := false }
  | OpenMode.Update => some { binary := true, «in» := true, out := true, ate := true }
  | OpenMode.ReadOnly => some { binary := true, «in» := true, out := false, ate := true }
  | OpenMode.None => none

/-- The second `switch` of `Zip::open`: initialisation of the codec engine on the
freshly opened stream.  The result is the codec state left behind, whether the
initialisation succeeded, and the value of `size`. -/
def openCodec (cx : Codec) (z : mz_zip_archive) (file : FStream) :
    OpenMode → Bool × mz_zip_archive × Nat
  | OpenMode.ReadOnly =>
    let r := cx.mz_zip_reader_init z file file.bytes.length false
    (r.1, r.2, file.bytes.length)
  | OpenMode.Update =>
    let r := cx.mz_zip_reader_init z file file.bytes.length true
    if r.1 then
      let w := cx.mz_zip_writer_init_from_reader r.2 file
      (w.1, w.2, file.bytes.length)
    else (false, r.2, file.bytes.length)
  | OpenMode.Create64 =>
    let r := cx.mz_zip_writer_init_v2 z file true
    (r.1, r.2, 0)
  | OpenMode.Create =>
    let r := cx.mz_zip_writer_init_v2 z file false
    (r.1, r.2, 0)
  | OpenMode.None => (true, z, 0)

/-- The method `Zip::open`: the exception raised, if any, and the state of the
session afterwards.  With the `ate` flag `tellg` reports the length of the file. -/
def Zip.open (cx : Codec) (fsys : FileSystem) (s : Zip) (filename : String)
    (openMode : OpenMode) : Except Error Unit × Zip :=
  let s1 := Zip.close cx s
  match iosModeOf openMode with
  | none => (.error Error.invalid_parameter, s1)
  | some mode =>
    match fsys filename mode with
    | none => (.error Error.io_error, { s1 with file_ := { s1.file_ with failed := true } })
    | some bytes =>
      let file : FStream := { bytes := bytes, failed := false }
      let r := openCodec cx s1.zip_.tomz_zip_archive file openMode
      if r.1 then
        (.ok (), { zip_ := { r.2.1 with m_orig_archive_size := r.2.2 }
                   file_ := file
                   filename_ := filename
                   openMode_ := openMode })
      else
        (.error Error.miniz,
          { s1 with zip_ := { r.2.1 with m_orig_archive_size := s1.zip_.m_orig_archive_size }
                    file_ := file })

/-! ## Read-side operations -/

/-- The guard `openMode_ != ReadOnly && openMode_ != Update` that opens every
read-side operation. -/
def notReadable (m : OpenMode) : Bool :=
  m != OpenMode.ReadOnly && m != OpenMode.Update

/-- The method `Zip::isZip64`. -/
def Zip.isZip64 (s : Zip) : Except Error Bool :=
  if notReadable s.openMode_ then .error Error.invalid_operation
  else .ok s.zip_.m_zip64

/-- The method `Zip::countEntries`. -/
def Zip.countEntries (s : Zip) : Except Error Nat :=
  if notReadable s.openMode_ then .error Error.invalid_operation
  else .ok s.zip_.m_total_files

/-- The loop of `listEntries` over the first `k` entries: the names read, or
`none` when a stat call fails. -/
def listLoop (z : mz_zip_archive) : Nat → Option (List (List Nat))
  | 0 => some []
  | k + 1 =>
    match listLoop z k with
    | none => none
    | some names =>
      match mz_zip_reader_file_stat z k with
      | none => none
      | some stat => some (names ++ [stat.m_filename])

/-- The method `Zip::listEntries`. -/
def Zip.listEntries (s : Zip) : Except Error (List (List Nat)) :=
  if notReadable s.openMode_ then .error Error.invalid_operation
  else
    match listLoop s.zip_.tomz_zip_archive s.zip_.m_total_files with
    | none => .error Error.miniz
    | some names => .ok names

/-- The method `Zip::hasEntry`; `norm` is as in `deleteFiles`. -/
def Zip.hasEntry {P : Type} (cx : Codec) (norm : P → List Nat) (s : Zip) (name : P) :
    Except Error Bool :=
  if notReadable s.openMode_ then .error Error.invalid_operation
  else
    let entryName := norm name
    if entryName.isEmpty then .error Error.invalid_parameter
    else .ok (cx.mz_zip_reader_locate_file_v2 s.zip_.tomz_zip_archive entryName).isSome

/-- The method `Zip::entrySize`. -/
def Zip.entrySize {P : Type} (cx : Codec) (norm : P → List Nat) (s : Zip) (name : P) :
    Except Error Nat :=
  if notReadable s.openMode_ then .error Error.invalid_operation
  else
    let entryName := norm name
    if entryName.isEmpty then .error Error.invalid_parameter
    else
      match cx.mz_zip_reader_locate_file_v2 s.zip_.tomz_zip_archive entryName with
      | none => .error Error.miniz
      | some entryIndex =>
        match mz_zip_reader_file_stat s.zip_.tomz_zip_archive entryIndex with
        | none => .error Error.miniz
        | some _ =>
          .ok (if cx.m_is_directory s.zip_.tomz_zip_archive entryIndex then 0
               else cx.m_uncomp_size s.zip_.tomz_zip_archive entryIndex)

/-- The helper `isFilename`: `has_filename()` of a normalized relative path, read
off its generic string (the last component is non-empty). -/
def isFilename (name : List Nat) : Bool :=
  match name.getLast? with
  | none => false
  | some b => b != slash

/-- The method `Zip::extractFileToStream`: the modification time returned and
the bytes written to `dst`. -/
def Zip.extractFileToStream {P : Type} (cx : Codec) (norm : P → List Nat) (s : Zip)
    (name : P) : Except Error (Nat × List Nat) :=
  if notReadable s.openMode_ then .error Error.invalid_operation
  else
    let filename := norm name
    if filename.isEmpty || !isFilename filename then .error Error.invalid_parameter
    else
      match cx.mz_zip_reader_locate_file_v2 s.zip_.tomz_zip_archive filename with
      | none => .error Error.miniz
      | some fileIndex =>
        match cx.mz_zip_reader_extract_to_callback s.zip_.tomz_zip_archive s.file_
            fileIndex with
        | none => .error Error.miniz
        | some data =>
          match mz_zip_reader_file_stat s.zip_.tomz_zip_archive fileIndex with
          | none => .error Error.miniz
          | some _ => .ok (cx.m_time s.zip_.tomz_zip_archive fileIndex, data)

/-! ## Generic loops -/

/-- A `while (cond) body` loop run for at most `fuel - 1` iterations. -/
def whileLoop {σ : Type} (cond : σ → Bool) (body : σ → σ) : Nat → σ → Option σ
  | 0, _ => none
  | fuel + 1, s => if cond s then whileLoop cond body fuel (body s) else some s

/-- A `do body while (cond)` loop; the body reports `true` when it leaves
through `break`.  At most `fuel` iterations are run. -/
def doWhile {σ : Type} (body : σ → Option (σ × Bool)) (cond : σ → Bool) :
    Nat → σ → Option σ
  | 0, _ => none
  | fuel + 1, s =>
    match body s with
    | none => none
    | some (s1, true) => some s1
    | some (s1, false) => if cond s1 then doWhile body cond fuel s1 else some s1

/-! ## deleteFiles -/

/-- The struct `EntryPosition`. -/
structure EntryPosition where
  lf_ofs_ : Nat
  lf_len_ : Nat
  cd_ofs_ : Nat
  cd_len_ : Nat
deriving DecidableEq, Repr

/-- The enumeration `EntryCommand`. -/
inductive EntryCommand where
  | Keep
  | Delete
  | Move
deriving DecidableEq, Repr

/-- The predicate passed to `std::find_if` in `deleteFiles`: the entry name
starts with the selected name and either ends there or continues with `'/'`. -/
def nameMatches (entryName selectedName : List Nat) : Bool :=
  selectedName.isPrefixOf entryName &&
    (entryName.length == selectedName.length
      || entryName.getD selectedName.length 0 == slash)

/-- The test `it != selectedNames.end()` on the result of `std::find_if`. -/
def isSelected (selectedNames : List (List Nat)) (entryName : List Nat) : Bool :=
  selectedNames.any (nameMatches entryName)

/-- Insertion of `x` into a list ordered by `key`, before the first element
whose key is not smaller. -/
def insertByKey (key : Nat → Nat) (x : Nat) : List Nat → List Nat
  | [] => [x]
  | y :: ys => if key y < key x then y :: insertByKey key x ys else x :: y :: ys

/-- The call to `std::sort` on `indices` with the comparator
`entryPos[pos1].lf_ofs_ < entryPos[pos2].lf_ofs_`, as a stable insertion sort.
For pairwise distinct keys the result of `std::sort` is determined; for equal
keys the standard leaves their order open and this model keeps them in index
order. -/
def sortByKey (key : Nat → Nat) : List Nat → List Nat
  | [] => []
  | x :: xs => insertByKey key x (sortByKey key xs)

/-- The snapshot loop: the name table and the `lf_ofs_`/`cd_ofs_` fields of
`entryPos` for the first `k` entries, or `none` when a stat call fails. -/
def snapshot (z : mz_zip_archive) :
    Nat → Option (List (List Nat) × (Nat → EntryPosition))
  | 0 => some ([], fun _ => ⟨0, 0, 0, 0⟩)
  | k + 1 =>
    match snapshot z k with
    | none => none
    | some (entryNames, entryPos) =>
      match mz_zip_reader_file_stat z k with
      | none => none
      | some entryStat =>
        some (entryNames ++ [entryStat.m_filename],
          Function.update entryPos k
            { entryPos k with lf_ofs_ := entryStat.m_local_header_ofs
                              cd_ofs_ := entryStat.m_central_dir_ofs })

/-- The classification loop: `entryCmd` and `numDel` after the first `k`
entries in physical order. -/
def classify (entryNames selectedNames : List (List Nat)) (indices : List Nat) :
    Nat → (Nat → EntryCommand) × Nat
  | 0 => (fun _ => EntryCommand.Keep, 0)
  | i + 1 =>
    let acc := classify entryNames selectedNames indices i
    let e := indices.getD i 0
    if isSelected selectedNames (entryNames.getD e []) then
      (Function.update acc.1 e EntryCommand.Delete, acc.2 + 1)
    else
      (Function.update acc.1 e
        (if acc.2 ≠ 0 then EntryCommand.Move else EntryCommand.Keep), acc.2)

/-- The loop deriving `lf_len_` and `cd_len_` from consecutive offsets, after
its first `k` iterations. -/
def deriveLoop (indices : List Nat) (entryPos : Nat → EntryPosition) :
    Nat → (Nat → EntryPosition)
  | 0 => entryPos
  | i + 1 =>
    let ep := deriveLoop indices entryPos i
    let a := indices.getD i 0
    let ep1 := Function.update ep a
      { ep a with lf_len_ := sub64 (ep (indices.getD (i + 1) 0)).lf_ofs_ (ep a).lf_ofs_ }
    Function.update ep1 i
      { ep1 i with cd_len_ := sub64 (ep1 (i + 1)).cd_ofs_ (ep1 i).cd_ofs_ }

/-- The length derivation of `deleteFiles`: the loop and the two assignments for
the last entry. -/
def deriveLengths (numEntries archiveSize cdirSize : Nat) (indices : List Nat)
    (entryPos : Nat → EntryPosition) : Nat → EntryPosition :=
  let maxIndex := numEntries - 1
  let ep := deriveLoop indices entryPos maxIndex
  let a := indices.getD maxIndex 0
  let ep1 := Function.update ep a
    { ep a with lf_len_ := sub64 archiveSize (ep a).lf_ofs_ }
  Function.update ep1 maxIndex
    { ep1 maxIndex with cd_len_ := sub64 cdirSize (ep1 maxIndex).cd_ofs_ }

/-- The local variables of the two compaction loops together with the data
they update. -/
structure LoopState where
  index : Nat
  wrPos : Nat
  rdPos : Nat
  delLen : Nat
  movLen : Nat
  entryPos : Nat → EntryPosition
  cdir : List Nat
  cdirOfs : mz_zip_array
  file : FStream

/-- The loop `while (index < numEntries && entryCmd[indices[index]] == Keep)
wrPos += entryPos[indices[index++]].lf_len_`. -/
def lfKeepRun (numEntries : Nat) (indices : List Nat) (entryCmd : Nat → EntryCommand)
    (st : LoopState) : Option LoopState :=
  whileLoop
    (fun st => decide (st.index < numEntries)
      && (entryCmd (indices.getD st.index 0) == EntryCommand.Keep))
    (fun st => { st with
      wrPos := add64 st.wrPos (st.entryPos (indices.getD st.index 0)).lf_len_
      index := st.index + 1 })
    (numEntries + 1) st

/-- The loop `while (index < numEntries && entryCmd[indices[index]] == Delete)
rdPos += entryPos[indices[index++]].lf_len_`. -/
def lfDeleteRun (numEntries : Nat) (indices : List Nat) (entryCmd : Nat → EntryCommand)
    (st : LoopState) : Option LoopState :=
  whileLoop
    (fun st => decide (st.index < numEntries)
      && (entryCmd (indices.getD st.index 0) == EntryCommand.Delete))
    (fun st => { st with
      rdPos := add64 st.rdPos (st.entryPos (indices.getD st.index 0)).lf_len_
      index := st.index + 1 })
    (numEntries + 1) st

/-- One iteration of the loop over a run of `Move` entries: accumulate the
length, shift the entry's offset and patch it into its directory record. -/
def lfMoveStep (indices : List Nat) (st : LoopState) : LoopState :=
  let e := indices.getD st.index 0
  let movLen := add64 st.movLen (st.entryPos e).lf_len_
  let entryPos := Function.update st.entryPos e
    { st.entryPos e with lf_ofs_ := sub64 (st.entryPos e).lf_ofs_ st.delLen }
  { st with
    movLen := movLen
    entryPos := entryPos
    cdir := MZ_WRITE_LE32 st.cdir ((entryPos e).cd_ofs_ + MZ_ZIP_CDH_LOCAL_HEADER_OFS)
      (entryPos e).lf_ofs_
    index := st.index + 1 }

/-- The loop `while (index < numEntries && entryCmd[indices[index]] == Move)`. -/
def lfMoveRun (numEntries : Nat) (indices : List Nat) (entryCmd : Nat → EntryCommand)
    (st : LoopState) : Option LoopState :=
  whileLoop
    (fun st => decide (st.index < numEntries)
      && (entryCmd (indices.getD st.index 0) == EntryCommand.Move))
    (lfMoveStep indices) (numEntries + 1) st

/-- The body of the first `do ... while` loop of `deleteFiles`. -/
def lfBody (numEntries : Nat) (indices : List Nat) (entryCmd : Nat → EntryCommand)
    (st : LoopState) : Option (LoopState × Bool) :=
  match lfDeleteRun numEntries indices entryCmd st with
  | none => none
  | some st1 =>
    match lfMoveRun numEntries indices entryCmd
        { st1 with delLen := sub64 st1.rdPos st1.wrPos } with
    | none => none
    | some st2 =>
      if st2.movLen = 0 then some (st2, true)
      else some ({ st2 with
        file := iosmove st2.file st2.wrPos st2.rdPos st2.movLen
        wrPos := add64 st2.wrPos st2.movLen
        rdPos := add64 st2.rdPos st2.movLen
        movLen := 0 }, false)

/-- The local-data compaction of `deleteFiles`: from the declaration of `index`
to the end of the first `do ... while` loop. -/
def compactLocal (numEntries : Nat) (indices : List Nat) (entryCmd : Nat → EntryCommand)
    (entryPos : Nat → EntryPosition) (cdir : List Nat) (cdirOfs : mz_zip_array)
    (file : FStream) : Option LoopState :=
  match lfKeepRun numEntries indices entryCmd
      { index := 0, wrPos := 0, rdPos := 0, delLen := 0, movLen := 0
        entryPos := entryPos, cdir := cdir, cdirOfs := cdirOfs, file := file } with
  | none => none
  | some st1 =>
    doWhile (lfBody numEntries indices entryCmd)
      (fun st => decide (st.index < numEntries)) (numEntries + 1)
      { st1 with rdPos := st1.wrPos }

/-- The loop `while (index < numEntries && entryCmd[index] == Delete)
rdPos += entryPos[index++].cd_len_`. -/
def cdDeleteRun (numEntries : Nat) (entryCmd : Nat → EntryCommand)
    (st : LoopState) : Option LoopState :=
  whileLoop
    (fun st => decide (st.index < numEntries)
      && (entryCmd st.index == EntryCommand.Delete))
    (fun st => { st with
      rdPos := add64 st.rdPos (st.entryPos st.index).cd_len_
      index := st.index + 1 })
    (numEntries + 1) st

/-- One iteration of the loop over a run of surviving directory records:
accumulate the length, shift the record's offset and append it to the offset
index. -/
def cdMoveStep (st : LoopState) : LoopState :=
  let movLen := add64 st.movLen (st.entryPos st.index).cd_len_
  let entryPos := Function.update st.entryPos st.index
    { st.entryPos st.index with
      cd_ofs_ := sub64 (st.entryPos st.index).cd_ofs_ st.delLen }
  { st with
    movLen := movLen
    entryPos := entryPos
    cdirOfs := { m_p := st.cdirOfs.m_p.set st.cdirOfs.m_size (u32 (entryPos st.index).cd_ofs_)
                 m_size := st.cdirOfs.m_size + 1 }
    index := st.index + 1 }

/-- The loop `while (index < numEntries && entryCmd[index] != Delete)`. -/
def cdMoveRun (numEntries : Nat) (entryCmd : Nat → EntryCommand)
    (st : LoopState) : Option LoopState :=
  whileLoop
    (fun st => decide (st.index < numEntries)
      && (entryCmd st.index != EntryCommand.Delete))
    cdMoveStep (numEntries + 1) st

/-- The body of the second `do ... while` loop of `deleteFiles`. -/
def cdBody (numEntries : Nat) (entryCmd : Nat → EntryCommand)
    (st : LoopState) : Option (LoopState × Bool) :=
  match cdDeleteRun numEntries entryCmd st with
  | none => none
  | some st1 =>
    match cdMoveRun numEntries entryCmd
        { st1 with delLen := sub64 st1.rdPos st1.wrPos } with
    | none => none
    | some st2 =>
      if st2.movLen = 0 then some (st2, true)
      else some ({ st2 with
        cdir := if st2.delLen ≠ 0 then memmove st2.cdir st2.wrPos st2.rdPos st2.movLen
                else st2.cdir
        wrPos := add64 st2.wrPos st2.movLen
        rdPos := add64 st2.rdPos st2.movLen
        movLen := 0 }, false)

/-- The directory compaction of `deleteFiles`: from `cdirOfsPtr->m_size = 0` to
the end of the second `do ... while` loop.  (`movLen` is not reset in between.) -/
def compactDir (numEntries : Nat) (entryCmd : Nat → EntryCommand)
    (st : LoopState) : Option LoopState :=
  doWhile (cdBody numEntries entryCmd)
    (fun st => decide (st.index < numEntries)) (numEntries + 1)
    { st with
      cdirOfs := { st.cdirOfs with m_size := 0 }
      index := 0, wrPos := 0, rdPos := 0, delLen := 0 }

/-- The part of `deleteFiles` after the `numDel` test: length derivation, the
two compaction passes and the updates of the recorded sizes and entry count. -/
def compact (s : Zip) (numEntries : Nat) (indices : List Nat)
    (entryCmd : Nat → EntryCommand) (numDel : Nat)
    (entryPos : Nat → EntryPosition) : Option Zip :=
  let z := s.zip_
  let ep := deriveLengths numEntries z.m_archive_size z.m_central_dir.m_size indices entryPos
  match compactLocal numEntries indices entryCmd ep z.m_central_dir.m_p
      z.m_central_dir_offsets s.file_ with
  | none => none
  | some st1 =>
    match compactDir numEntries entryCmd st1 with
    | none => none
    | some st2 =>
      some { s with
        file_ := st2.file
        zip_ := { z with
          m_archive_size := sub64 z.m_archive_size st1.delLen
          m_total_files := sub32 z.m_total_files numDel
          m_central_dir_offsets := st2.cdirOfs
          m_central_dir :=
            { m_p := st2.cdir, m_size := sub64 z.m_central_dir.m_size st2.delLen } } }

/-- The method `Zip::deleteFiles`.  The parameter `norm` stands for the
standard-library expression `p.lexically_normal().relative_path()` followed
by `generic_string()`; a path is empty exactly when that string is.  The
result is `none` only if a loop of the model ran out of steps. -/
def Zip.deleteFiles {P : Type} (norm : P → List Nat) (s : Zip) (names : List P) :
    Option (Except Error Unit × Zip) :=
  if s.openMode_ ≠ OpenMode.Update then some (.error Error.invalid_operation, s)
  else if names.length = 0 then some (.error Error.invalid_parameter, s)
  else if names.any (fun p => (norm p).isEmpty) then
    some (.error Error.invalid_parameter, s)
  else
    let selectedNames := names.map norm
    let numEntries := s.zip_.m_total_files
    if numEntries = 0 then some (.ok (), s)
    else
      match snapshot s.zip_.tomz_zip_archive numEntries with
      | none => some (.error Error.miniz, s)
      | some (entryNames, entryPos) =>
        let indices := sortByKey (fun i => (entryPos i).lf_ofs_) (List.range numEntries)
        let c := classify entryNames selectedNames indices numEntries
        if c.2 = 0 then some (.ok (), s)
        else
          match compact s numEntries indices c.1 c.2 entryPos with
          | none => none
          | some s1 => some (.ok (), s1)


/-! ## The working buffer of `iosmove` -/

/-- The size of the buffer that `iosmove` allocates with
`std::make_unique<char[]>(numPage ? pageSize : len)`. -/
def iosmoveBufSize (len : Nat) : Nat :=
  if len / pageSize ≠ 0 then pageSize else len

/-- The `for` loop of `iosmove` as in `iosmovePages`, recording in `sizes` the
count passed with the buffer to each `read` and `write`, in program order. -/
def iosmovePagesLog : Nat → FStream → Nat → Nat → List Nat → (FStream × Nat × Nat) × List Nat
  | 0, ios, pptr, gptr, sizes => ((ios, pptr, gptr), sizes)
  | i + 1, ios, pptr, gptr, sizes =>
    let r := ios.read gptr pageSize
    iosmovePagesLog i (r.1.write pptr r.2) (pptr + pageSize) (gptr + pageSize)
      (sizes ++ [pageSize, pageSize])

/-- The function `iosmove` as in `iosmove`, together with the counts passed with
the buffer to `read` and `write`, in program order. -/
def iosmoveLog (ios : FStream) (dst src len : Nat) : FStream × List Nat :=
  let numPage := len / pageSize
  let p := iosmovePagesLog numPage ios dst src []
  let r := p.1.1.read p.1.2.2 (len % pageSize)
  (r.1.write p.1.2.1 r.2, p.2 ++ [len % pageSize, len % pageSize])

/-! ## Insertion -/

/-- Modelled from the spec: the two insertion operations of the codec engine
(miniz `mz_zip_writer_add_read_buf_callback` and `mz_zip_writer_add_mem`, not
among the sources), as an interface.  Each takes the codec state with the bound
stream and the entry name (the first also the source bytes, their number and
the modification time) and reports success together with the state and stream
it leaves. -/
structure CodecWriter where
  mz_zip_writer_add_read_buf_callback :
    mz_zip_archive × FStream → List Nat → List Nat → Nat → Nat →
      Bool × mz_zip_archive × FStream
  mz_zip_writer_add_mem : mz_zip_archive × FStream → List Nat → Bool × mz_zip_archive × FStream

/-- The source `std::istream& src` of `addFileFromStream`: its content and
whether seeking to its end and asking for the position succeed. -/
structure IStream where
  bytes : List Nat
  good : Bool
deriving DecidableEq, Repr

/-- The guard `openMode_ != Create && openMode_ != Create64 && openMode_ != Update`
that opens both insertion operations. -/
def notWritable (m : OpenMode) : Bool :=
  m != OpenMode.Create && m != OpenMode.Create64 && m != OpenMode.Update

/-- The state of the session after a codec call that left the codec state `z`
and the stream `file`. -/
def Zip.withCodec (s : Zip) (z : mz_zip_archive) (file : FStream) : Zip :=
  { s with zip_ := { z with m_orig_archive_size := s.zip_.m_orig_archive_size }
           file_ := file }

/-- The method `Zip::addFileFromStream`; `norm` is as in `deleteFiles` and
`modifiedTime` is the time already converted with `to_time_t`. -/
def Zip.addFileFromStream {P : Type} (cw : CodecWriter) (norm : P → List Nat) (s : Zip)
    (name : P) (src : IStream) (modifiedTime : Nat) : Except Error Unit × Zip :=
  if notWritable s.openMode_ then (.error Error.invalid_operation, s)
  else
    let filename := norm name
    if filename.isEmpty || !isFilename filename then (.error Error.invalid_parameter, s)
    else
      let maxSize := if src.good then src.bytes.length else 0
      if maxSize = 0 then (.error Error.io_error, s)
      else
        let r := cw.mz_zip_writer_add_read_buf_callback (s.zip_.tomz_zip_archive, s.file_)
          filename src.bytes maxSize modifiedTime
        if r.1 then (.ok (), s.withCodec r.2.1 r.2.2)
        else (.error Error.miniz, s.withCodec r.2.1 r.2.2)

/-- The method `Zip::addFolder`. -/
def Zip.addFolder {P : Type} (cw : CodecWriter) (norm : P → List Nat) (s : Zip) (name : P) :
    Except Error Unit × Zip :=
  if notWritable s.openMode_ then (.error Error.invalid_operation, s)
  else
    let dirname := norm name
    if dirname.isEmpty || isFilename dirname then (.error Error.invalid_parameter, s)
    else
      let r := cw.mz_zip_writer_add_mem (s.zip_.tomz_zip_archive, s.file_) dirname
      if r.1 then (.ok (), s.withCodec r.2.1 r.2.2)
      else (.error Error.miniz, s.withCodec r.2.1 r.2.2)
/-! ## Vocabulary of the statements -/

/-- Offset of the directory record of entry `i`, read from the offset index. -/
def dirOfs (z : mz_zip_archive) (i : Nat) : Nat := z.m_central_dir_offsets.m_p.getD i 0

/-- The directory buffer from the record of entry `i` on. -/
def dirRecord (z : mz_zip_archive) (i : Nat) : List Nat :=
  z.m_central_dir.m_p.drop (dirOfs z i)

/-- Name of entry `i` as the directory reports it. -/
def dirName (z : mz_zip_archive) (i : Nat) : List Nat := recordName (dirRecord z i)

/-- Local-header offset stored in the directory record of entry `i`. -/
def dirLfOfs (z : mz_zip_archive) (i : Nat) : Nat :=
  MZ_READ_LE32 (dirRecord z i) MZ_ZIP_CDH_LOCAL_HEADER_OFS

/-- The `entryPos` table right after the snapshot loop. -/
def snapshotPos (z : mz_zip_archive) (k : Nat) : Nat → EntryPosition :=
  fun i => if i < k then ⟨dirLfOfs z i, 0, dirOfs z i, 0⟩ else ⟨0, 0, 0, 0⟩

/-- Sum of `f j` over `j < k`. -/
def sumTo (f : Nat → Nat) : Nat → Nat
  | 0 => 0
  | k + 1 => sumTo f k + f k

/-- Whether the entry at physical position `j` is matched by the selection. -/
def selAt (entryNames selectedNames : List (List Nat)) (indices : List Nat) (j : Nat) : Bool :=
  isSelected selectedNames (entryNames.getD (indices.getD j 0) [])

/-- Number of selected entries among the first `k` in physical order. -/
def delCount (entryNames selectedNames : List (List Nat)) (indices : List Nat) (k : Nat) : Nat :=
  sumTo (fun j => if selAt entryNames selectedNames indices j then 1 else 0) k

/-- The tag the classification gives to the entry at physical position `j`. -/
def physCmd (entryNames selectedNames : List (List Nat)) (indices : List Nat) (j : Nat) :
    EntryCommand :=
  if selAt entryNames selectedNames indices j then EntryCommand.Delete
  else if delCount entryNames selectedNames indices j ≠ 0 then EntryCommand.Move
  else EntryCommand.Keep

def bytesOf (s : String) : List Nat := s.toList.map Char.toNat

/-- The invariant of class `Zip` that ties the mode to the other session
fields: a session whose mode is `None` has an empty file name and a zero
recorded original size. -/
def ClosedInv (s : Zip) : Prop :=
  s.openMode_ = OpenMode.None → s.filename_ = "" ∧ s.zip_.m_orig_archive_size = 0

instance (s : Zip) : Decidable (ClosedInv s) := by
  unfold ClosedInv; infer_instance

/-- Total length of the surviving entries among the first `k`. -/
def keptLen (del : Nat → Bool) (len : Nat → Nat) (k : Nat) : Nat :=
  sumTo (fun j => if del j then 0 else len j) k

/-- Total length of the deleted entries among the first `k`. -/
def goneLen (del : Nat → Bool) (len : Nat → Nat) (k : Nat) : Nat :=
  sumTo (fun j => if del j then len j else 0) k

/-- Number of surviving entries among the first `k`. -/
def keptCount (del : Nat → Bool) (k : Nat) : Nat :=
  sumTo (fun j => if del j then 0 else 1) k

/-- The new offsets of the surviving entries among the first `k`, in order. -/
def keptOfs (del : Nat → Bool) (len : Nat → Nat) : Nat → List Nat
  | 0 => []
  | k + 1 => if del k then keptOfs del len k else keptOfs del len k ++ [keptLen del len k]

/-- The state of the directory compaction at the head of its outer loop,
relative to the state `st0` in which the compaction was entered: `del` marks
the deleted entries and `c` gives the record lengths. -/
structure CdInv (n : Nat) (del : Nat → Bool) (c : Nat → Nat) (st0 st : LoopState) : Prop where
  idx : st.index ≤ n
  mov : st.movLen = 0
  rd : st.rdPos = sumTo c st.index
  wr : st.wrPos = keptLen del c st.index
  dl : st.delLen = goneLen del c st.index
  file : st.file = st0.file
  len : st.cdir.length = st0.cdir.length
  kept : ∀ j, j < st.index → del j = false → ∀ i, i < c j →
    st.cdir[keptLen del c j + i]? = st0.cdir[sumTo c j + i]?
  rest : ∀ q, sumTo c st.index ≤ q → st.cdir[q]? = st0.cdir[q]?
  osz : st.cdirOfs.m_size = keptCount del st.index
  olen : st.cdirOfs.m_p.length = st0.cdirOfs.m_p.length
  ofs : ∀ r, r < keptCount del st.index →
    st.cdirOfs.m_p[r]? = (keptOfs del c st.index)[r]?
  epc : ∀ j, j < n → (st.entryPos j).cd_len_ = c j
  epo : ∀ j, st.index ≤ j → j < n → (st.entryPos j).cd_ofs_ = sumTo c j
  eplf : ∀ j, (st.entryPos j).lf_ofs_ = (st0.entryPos j).lf_ofs_
    ∧ (st.entryPos j).lf_len_ = (st0.entryPos j).lf_len_

/-- The state of the directory compaction inside a run of surviving records that
started in state `s1`. -/
structure CdMoveInv (n : Nat) (del : Nat → Bool) (c : Nat → Nat) (s1 s : LoopState) :
    Prop where
  lo : s1.index ≤ s.index
  hi : s.index ≤ n
  wr : s.wrPos = s1.wrPos
  rd : s.rdPos = s1.rdPos
  dl : s.delLen = s1.delLen
  cdir : s.cdir = s1.cdir
  file : s.file = s1.file
  mov : s.movLen + sumTo c s1.index = sumTo c s.index
  run : ∀ j, s1.index ≤ j → j < s.index → del j = false
  osz : s.cdirOfs.m_size = keptCount del s.index
  olen : s.cdirOfs.m_p.length = s1.cdirOfs.m_p.length
  ofs : ∀ r, r < keptCount del s.index →
    s.cdirOfs.m_p[r]? = (keptOfs del c s.index)[r]?
  epc : ∀ j, j < n → (s.entryPos j).cd_len_ = c j
  epo : ∀ j, s.index ≤ j → j < n → (s.entryPos j).cd_ofs_ = sumTo c j
  eplf : ∀ j, (s.entryPos j).lf_ofs_ = (s1.entryPos j).lf_ofs_
    ∧ (s.entryPos j).lf_len_ = (s1.entryPos j).lf_len_

/-- What the local-data compaction leaves untouched, relative to the state `st0`
in which it was entered: the directory buffer outside the offset fields of the
`n` records, the directory columns of `entryPos`, and the offset index. -/
structure LfWeak (n : Nat) (st0 st : LoopState) : Prop where
  idx : st.index ≤ n
  len : st.cdir.length = st0.cdir.length
  out : ∀ q, (∀ e, e < n → ¬ ((st0.entryPos e).cd_ofs_ + MZ_ZIP_CDH_LOCAL_HEADER_OFS ≤ q ∧
      q < (st0.entryPos e).cd_ofs_ + MZ_ZIP_CDH_LOCAL_HEADER_OFS + 4)) →
    st.cdir[q]? = st0.cdir[q]?
  ep : ∀ j, (st.entryPos j).cd_len_ = (st0.entryPos j).cd_len_ ∧
    (st.entryPos j).cd_ofs_ = (st0.entryPos j).cd_ofs_
  ofs : st.cdirOfs = st0.cdirOfs

/-- The table `entryPos` as `deleteFiles` holds it when it enters `compact`:
offsets from the snapshot of the directory. -/
def entryPos0 (z : mz_zip_archive) : Nat → EntryPosition :=
  snapshotPos z z.m_total_files

/-- The physical order of the entries: the entry indices sorted by local-header
offset, as `deleteFiles` computes them. -/
def physOrder (z : mz_zip_archive) : List Nat :=
  sortByKey (fun i => (entryPos0 z i).lf_ofs_) (List.range z.m_total_files)

/-- The classification `deleteFiles` computes for the selection `sel`. -/
def entryCmdOf (z : mz_zip_archive) (sel : List (List Nat)) : (Nat → EntryCommand) × Nat :=
  classify ((List.range z.m_total_files).map (dirName z)) sel (physOrder z) z.m_total_files

/-- Whether the selection `sel` matches entry `e` of the directory. -/
def selectedEntry (z : mz_zip_archive) (sel : List (List Nat)) (e : Nat) : Bool :=
  isSelected sel (dirName z e)

/-- The bytes a directory record must at least span: the fixed header and the
name as far as the codec engine reads it. -/
def recordSpan (z : mz_zip_archive) (i : Nat) : Nat :=
  MZ_ZIP_CENTRAL_DIR_HEADER_SIZE +
    min (MZ_READ_LE16 (dirRecord z i) MZ_ZIP_CDH_FILENAME_LEN_OFS)
      (MZ_ZIP_MAX_ARCHIVE_FILENAME_SIZE - 1)

/-- Length of the directory record of entry `i`: up to the next record, or to
the end of the directory for the last one. -/
def cdLen (z : mz_zip_archive) (i : Nat) : Nat :=
  (if i + 1 < z.m_total_files then dirOfs z (i + 1) else z.m_central_dir.m_size) - dirOfs z i

/-- Well-formedness of the directory the codec engine holds in memory: the
offset index has room for all entries, the directory is smaller than 4 GiB and
lies inside its buffer, and the records follow one another from offset 0, each
spanning at least its header and name. -/
structure DirOK (z : mz_zip_archive) : Prop where
  capacity : z.m_total_files ≤ z.m_central_dir_offsets.m_p.length
  count_lt : z.m_total_files < U32
  size_le : z.m_central_dir.m_size ≤ z.m_central_dir.m_p.length
  size_lt : z.m_central_dir.m_size < U32
  first : 0 < z.m_total_files → dirOfs z 0 = 0
  step : ∀ i, i < z.m_total_files - 1 → dirOfs z i + recordSpan z i ≤ dirOfs z (i + 1)
  last : 0 < z.m_total_files →
    dirOfs z (z.m_total_files - 1) + recordSpan z (z.m_total_files - 1)
      ≤ z.m_central_dir.m_size

/-- The assumptions under which the local-data compaction is analysed, about the
state `st0` in which it is entered: `indices` lists distinct entries below `n`;
in that order the local-data regions follow one another (each offset is the
first offset plus the lengths before it), all but possibly the last are
non-empty and everything stays below 2^64; the entries tagged `Keep` form an
initial segment; and the offset fields of the directory records lie inside the
buffer and do not overlap. -/
structure LfHyp (n : Nat) (indices : List Nat) (cmd : Nat → EntryCommand)
    (st0 : LoopState) : Prop where
  idx : ∀ j, j < n → indices.getD j 0 < n
  inj : ∀ i j, i < n → j < n → i ≠ j → indices.getD i 0 ≠ indices.getD j 0
  tile : ∀ j, j < n → (st0.entryPos (indices.getD j 0)).lf_ofs_
    = (st0.entryPos (indices.getD 0 0)).lf_ofs_
      + sumTo (fun t => (st0.entryPos (indices.getD t 0)).lf_len_) j
  bound : (st0.entryPos (indices.getD 0 0)).lf_ofs_
    + sumTo (fun t => (st0.entryPos (indices.getD t 0)).lf_len_) n < U64
  pos : ∀ j, j + 1 < n → 0 < (st0.entryPos (indices.getD j 0)).lf_len_
  keep : ∀ j, j < n → cmd (indices.getD j 0) = EntryCommand.Keep →
    ∀ i, i < j → cmd (indices.getD i 0) = EntryCommand.Keep
  win : ∀ e, e < n → (st0.entryPos e).cd_ofs_ + 46 ≤ st0.cdir.length
  disj : ∀ e e', e < n → e' < n → e ≠ e' →
    (st0.entryPos e).cd_ofs_ + 46 ≤ (st0.entryPos e').cd_ofs_ ∨
    (st0.entryPos e').cd_ofs_ + 46 ≤ (st0.entryPos e).cd_ofs_

/-- Length of the local data at physical position `j`, from the table of `st0`. -/
def lfLenAt (indices : List Nat) (st0 : LoopState) (j : Nat) : Nat :=
  (st0.entryPos (indices.getD j 0)).lf_len_

/-- Local-header offset at physical position `j`, from the table of `st0`. -/
def lfOfsAt (indices : List Nat) (st0 : LoopState) (j : Nat) : Nat :=
  (st0.entryPos (indices.getD j 0)).lf_ofs_

/-- Whether the entry at physical position `j` is tagged `Delete`. -/
def lfDelAt (indices : List Nat) (cmd : Nat → EntryCommand) (j : Nat) : Bool :=
  cmd (indices.getD j 0) == EntryCommand.Delete

/-- What the file looks like when the local-data compaction has dealt with the
first `k` physical positions: the stream has not failed, its length is
unchanged, the surviving regions sit at their new places and everything from
the read cursor on is untouched. -/
structure LfFile (indices : List Nat) (cmd : Nat → EntryCommand) (st0 : LoopState)
    (file : FStream) (k : Nat) : Prop where
  ok : file.failed = false
  len : file.bytes.length = st0.file.bytes.length
  kept : ∀ j, j < k → lfDelAt indices cmd j = false → ∀ i, i < lfLenAt indices st0 j →
    file.bytes[keptLen (lfDelAt indices cmd) (lfLenAt indices st0) j + i]?
      = st0.file.bytes[sumTo (lfLenAt indices st0) j + i]?
  rest : ∀ q, sumTo (lfLenAt indices st0) k ≤ q → file.bytes[q]? = st0.file.bytes[q]?

/-- The state of the local-data compaction at the head of its outer loop,
relative to the state `st0` in which it was entered. -/
structure LfInv (n : Nat) (indices : List Nat) (cmd : Nat → EntryCommand)
    (st0 st : LoopState) : Prop where
  idx : st.index ≤ n
  nokeep : ∀ j, st.index ≤ j → j < n → cmd (indices.getD j 0) ≠ EntryCommand.Keep
  mov : st.movLen = 0
  rd : st.rdPos = sumTo (lfLenAt indices st0) st.index
  wr : st.wrPos = keptLen (lfDelAt indices cmd) (lfLenAt indices st0) st.index
  dl : st.delLen = goneLen (lfDelAt indices cmd) (lfLenAt indices st0) st.index
  len : st.cdir.length = st0.cdir.length
  epl : ∀ x, (st.entryPos x).lf_len_ = (st0.entryPos x).lf_len_ ∧
    (st.entryPos x).cd_ofs_ = (st0.entryPos x).cd_ofs_
  epo : ∀ j, st.index ≤ j → j < n →
    (st.entryPos (indices.getD j 0)).lf_ofs_ = lfOfsAt indices st0 j
  patch : ∀ j, j < n → ∀ i, i < 4 →
    st.cdir[(st0.entryPos (indices.getD j 0)).cd_ofs_ + 42 + i]? =
      if j < st.index ∧ cmd (indices.getD j 0) = EntryCommand.Move then
        (le32 (lfOfsAt indices st0 j
          - goneLen (lfDelAt indices cmd) (lfLenAt indices st0) j))[i]?
      else st0.cdir[(st0.entryPos (indices.getD j 0)).cd_ofs_ + 42 + i]?
  fok : st0.file.failed = false → sumTo (lfLenAt indices st0) n ≤ st0.file.bytes.length →
    LfFile indices cmd st0 st.file st.index

/-- The state of the local-data compaction inside a run of `Move` entries that
started in state `s1`. -/
structure LfMoveInv (n : Nat) (indices : List Nat) (cmd : Nat → EntryCommand)
    (st0 s1 s : LoopState) : Prop where
  lo : s1.index ≤ s.index
  hi : s.index ≤ n
  wr : s.wrPos = s1.wrPos
  rd : s.rdPos = s1.rdPos
  dl : s.delLen = s1.delLen
  file : s.file = s1.file
  mov : s.movLen + sumTo (lfLenAt indices st0) s1.index = sumTo (lfLenAt indices st0) s.index
  run : ∀ j, s1.index ≤ j → j < s.index → cmd (indices.getD j 0) = EntryCommand.Move
  len : s.cdir.length = st0.cdir.length
  epl : ∀ x, (s.entryPos x).lf_len_ = (st0.entryPos x).lf_len_ ∧
    (s.entryPos x).cd_ofs_ = (st0.entryPos x).cd_ofs_
  epo : ∀ j, s.index ≤ j → j < n →
    (s.entryPos (indices.getD j 0)).lf_ofs_ = lfOfsAt indices st0 j
  patch : ∀ j, j < n → ∀ i, i < 4 →
    s.cdir[(st0.entryPos (indices.getD j 0)).cd_ofs_ + 42 + i]? =
      if s1.index ≤ j ∧ j < s.index then
        (le32 (lfOfsAt indices st0 j
          - goneLen (lfDelAt indices cmd) (lfLenAt indices st0) j))[i]?
      else s1.cdir[(st0.entryPos (indices.getD j 0)).cd_ofs_ + 42 + i]?

/-- Local-header offset of the entry at physical position `k`. -/
def physOfs (z : mz_zip_archive) (k : Nat) : Nat :=
  dirLfOfs z ((physOrder z).getD k 0)

/-- Local-data length of the entry at physical position `k`: up to the next
entry's offset, or to the recorded archive size for the last one. -/
def physLen (z : mz_zip_archive) (k : Nat) : Nat :=
  (if k + 1 < z.m_total_files then physOfs z (k + 1) else z.m_archive_size) - physOfs z k

/-- Whether the selection `sel` matches the entry at physical position `k`. -/
def physSel (z : mz_zip_archive) (sel : List (List Nat)) (k : Nat) : Bool :=
  selectedEntry z sel ((physOrder z).getD k 0)

/-- Well-formedness of the local-data area as the directory describes it: the
entries have pairwise distinct local-header offsets, none beyond the recorded
archive size, which fits 64 bits. -/
structure LocalOK (z : mz_zip_archive) : Prop where
  distinct : ∀ i, i < z.m_total_files → ∀ j, j < z.m_total_files → i ≠ j →
    dirLfOfs z i ≠ dirLfOfs z j
  inside : ∀ i, i < z.m_total_files → dirLfOfs z i ≤ z.m_archive_size
  size_lt : z.m_archive_size < U64

/-- The state in which `deleteFiles` enters the local-data compaction. -/
def lfStart (s : Zip) : LoopState :=
  { index := 0, wrPos := 0, rdPos := 0, delLen := 0, movLen := 0
    entryPos := deriveLengths s.zip_.m_total_files s.zip_.m_archive_size
      s.zip_.m_central_dir.m_size (physOrder s.zip_.tomz_zip_archive)
      (entryPos0 s.zip_.tomz_zip_archive)
    cdir := s.zip_.m_central_dir.m_p
    cdirOfs := s.zip_.m_central_dir_offsets
    file := s.file_ }


/-- The states in which a `while (cond) body` loop enters its body, in order,
for at most `fuel - 1` iterations. -/
def whileVisits {σ : Type} (cond : σ → Bool) (body : σ → σ) : Nat → σ → List σ
  | 0, _ => []
  | fuel + 1, s => if cond s then s :: whileVisits cond body fuel (body s) else []
/-! ## Sample data -/

/-- A directory record with the given name and local-header offset and all other
fields zero. -/
def cdRecord (name : List Nat) (lfOfs : Nat) : List Nat :=
  List.replicate 28 0 ++ [name.length % 256, name.length / 256] ++ List.replicate 12 0
    ++ le32 lfOfs ++ name

/-- The directory of the sample archive: `x.txt`, `dir/y.txt`, `dir/z.txt`. -/
def demoDir : List Nat :=
  cdRecord (bytesOf "x.txt") 0 ++ cdRecord (bytesOf "dir/y.txt") 3
    ++ cdRecord (bytesOf "dir/z.txt") 8

/-- A sample session in `Update` mode: three entries whose local data occupy the
first 15 bytes of the file (3, 5 and 7 bytes), followed by three further bytes. -/
def demo : Zip :=
  { zip_ := { m_archive_size := 15, m_total_files := 3, m_zip64 := false
              m_central_dir := ⟨demoDir, 161⟩
              m_central_dir_offsets := ⟨[0, 51, 106], 3⟩
              m_orig_archive_size := 200 }
    file_ := ⟨[1, 1, 1, 2, 2, 2, 2, 2, 3, 3, 3, 3, 3, 3, 3, 9, 9, 9], false⟩
    filename_ := "a.zip"
    openMode_ := OpenMode.Update }

/-- A sample codec: lookup by exact name, empty payloads, and a finaliser that
appends the directory to the file. -/
def demoCodec : Codec :=
  { mz_zip_reader_init := fun z _ size _ => (true, { z with m_archive_size := size })
    mz_zip_writer_init_from_reader := fun z _ => (true, z)
    mz_zip_writer_init_v2 := fun z _ _ => (true, { z with m_archive_size := 0, m_total_files := 0 })
    mz_zip_reader_end := fun z => z
    mz_zip_writer_finalize_archive := fun r =>
      ({ r.1 with m_archive_size := r.1.m_archive_size + r.1.m_central_dir.m_size },
        r.2.write r.1.m_archive_size (r.1.m_central_dir.m_p.take r.1.m_central_dir.m_size))
    mz_zip_writer_end := fun z => z
    mz_zip_reader_locate_file_v2 := fun z name =>
      (List.range z.m_total_files).find? (fun i => dirName z i == name)
    mz_zip_reader_extract_to_callback := fun _ _ _ => some []
    m_is_directory := fun _ _ => false
    m_uncomp_size := fun _ _ => 0
    m_time := fun _ _ => 0 }


/-- A second sample session in `Update` mode whose directory lists the entries
in the reverse of their physical order: `b` (local data at offset 4, 6 bytes)
and then `a` (local data at offset 0, 4 bytes), followed by one further byte. -/
def demo2 : Zip :=
  { zip_ := { m_archive_size := 10, m_total_files := 2, m_zip64 := false
              m_central_dir := ⟨cdRecord (bytesOf "b") 4 ++ cdRecord (bytesOf "a") 0, 94⟩
              m_central_dir_offsets := ⟨[0, 47], 2⟩
              m_orig_archive_size := 120 }
    file_ := ⟨[1, 1, 1, 1, 2, 2, 2, 2, 2, 2, 9], false⟩
    filename_ := "b.zip"
    openMode_ := OpenMode.Update }

/-- A third sample session in `Update` mode in which two directory records,
`b` and `c`, name the same local-header offset 4: the directory lists `a`
(offset 0), `b`, `c` and `d` (offset 10) and records 16 bytes of local data. -/
def demo3 : Zip :=
  { zip_ := { m_archive_size := 16, m_total_files := 4, m_zip64 := false
              m_central_dir := ⟨cdRecord (bytesOf "a") 0 ++ cdRecord (bytesOf "b") 4
                ++ cdRecord (bytesOf "c") 4 ++ cdRecord (bytesOf "d") 10, 188⟩
              m_central_dir_offsets := ⟨[0, 47, 94, 141], 4⟩
              m_orig_archive_size := 220 }
    file_ := ⟨[1, 1, 1, 1, 2, 2, 2, 2, 2, 2, 3, 3, 3, 3, 3, 3], false⟩
    filename_ := "c.zip"
    openMode_ := OpenMode.Update }

/-- A sample insertion interface: every insertion succeeds and only counts the
entry. -/
def demoWriter : CodecWriter :=
  { mz_zip_writer_add_read_buf_callback := fun r _ _ _ _ =>
      (true, { r.1 with m_total_files := r.1.m_total_files + 1 }, r.2)
    mz_zip_writer_add_mem := fun r _ =>
      (true, { r.1 with m_total_files := r.1.m_total_files + 1 }, r.2) }

/-- A fourth sample session in `Update` mode whose local data do not start at
the head of the file: two leading bytes, then `a` (offset 2, 3 bytes) and `b`
(offset 5, 4 bytes). -/
def demo4 : Zip :=
  { zip_ := { m_archive_size := 9, m_total_files := 2, m_zip64 := false
              m_central_dir := ⟨cdRecord (bytesOf "a") 2 ++ cdRecord (bytesOf "b") 5, 94⟩
              m_central_dir_offsets := ⟨[0, 47], 2⟩
              m_orig_archive_size := 125 }
    file_ := ⟨[90, 91, 10, 11, 12, 20, 21, 22, 23], false⟩
    filename_ := "d.zip"
    openMode_ := OpenMode.Update }
/-! ## Auxiliary lemmas -/

theorem whileLoop_spec {σ : Type} (cond : σ → Bool) (body : σ → σ) (Inv : σ → Prop)
    (m : σ → Nat)
    (hstep : ∀ s, Inv s → cond s = true → Inv (body s) ∧ m (body s) < m s) :
    ∀ fuel s, Inv s → m s < fuel →
      ∃ r, whileLoop cond body fuel s = some r ∧ Inv r ∧ cond r = false := by
  intro fuel
  induction fuel with
  | zero => intro s _ h; omega
  | succ fuel ih =>
    intro s hs hm
    unfold whileLoop
    by_cases hc : cond s = true
    · rw [if_pos hc]
      obtain ⟨h1, h2⟩ := hstep s hs hc
      exact ih _ h1 (by omega)
    · rw [if_neg hc]
      exact ⟨s, rfl, hs, by simpa using hc⟩

theorem doWhile_spec {σ : Type} (body : σ → Option (σ × Bool)) (cond : σ → Bool)
    (Inv Post : σ → Prop) (m : σ → Nat)
    (hbody : ∀ s, Inv s → ∃ s1 b, body s = some (s1, b) ∧
      ((b = true ∨ cond s1 = false) → Post s1) ∧
      (b = false → cond s1 = true → Inv s1 ∧ m s1 < m s)) :
    ∀ fuel s, Inv s → m s < fuel → ∃ r, doWhile body cond fuel s = some r ∧ Post r := by
  intro fuel
  induction fuel with
  | zero => intro s _ h; omega
  | succ fuel ih =>
    intro s hs hm
    obtain ⟨s1, b, hb, hpost, hcont⟩ := hbody s hs
    unfold doWhile
    rw [hb]
    cases b with
    | true => exact ⟨s1, rfl, hpost (Or.inl rfl)⟩
    | false =>
      by_cases hc : cond s1 = true
      · simp only [hc, if_true]
        obtain ⟨h1, h2⟩ := hcont rfl hc
        exact ih s1 h1 (by omega)
      · simp only [hc]
        exact ⟨s1, rfl, hpost (Or.inr (by simpa using hc))⟩

theorem stat_eq (z : mz_zip_archive) (i : Nat) (h : i < z.m_total_files) :
    mz_zip_reader_file_stat z i = some
      { m_filename := dirName z i, m_local_header_ofs := dirLfOfs z i,
        m_central_dir_ofs := dirOfs z i } := by
  simp [mz_zip_reader_file_stat, h, dirName, dirLfOfs, dirRecord, dirOfs]

theorem snapshot_eq (z : mz_zip_archive) :
    ∀ k, k ≤ z.m_total_files →
      snapshot z k = some ((List.range k).map (dirName z), snapshotPos z k) := by
  intro k
  induction k with
  | zero =>
    intro _
    simp only [snapshot, List.range_zero, List.map_nil, Option.some.injEq, Prod.mk.injEq, true_and]
    funext i
    simp [snapshotPos]
  | succ k ih =>
    intro hk
    rw [snapshot, ih (by omega), stat_eq z k (by omega)]
    simp only [List.range_succ, List.map_append, List.map_cons, List.map_nil,
      Option.some.injEq, Prod.mk.injEq, true_and]
    funext i
    by_cases hi : i = k
    · subst hi; simp [snapshotPos]
    · rw [Function.update_noteq hi]
      simp only [snapshotPos]
      by_cases h1 : i < k
      · simp [h1, Nat.lt_succ_of_lt h1]
      · have : ¬ i < k + 1 := by omega
        simp [h1, this]

theorem listLoop_eq (z : mz_zip_archive) :
    ∀ k, k ≤ z.m_total_files → listLoop z k = some ((List.range k).map (dirName z)) := by
  intro k
  induction k with
  | zero => intro _; simp [listLoop]
  | succ k ih =>
    intro hk
    rw [listLoop, ih (by omega), stat_eq z k (by omega)]
    simp [List.range_succ]

theorem insertByKey_perm (key : Nat → Nat) (x : Nat) (l : List Nat) :
    List.Perm (insertByKey key x l) (x :: l) := by
  induction l with
  | nil => simp [insertByKey]
  | cons y ys ih =>
    unfold insertByKey
    split
    · exact (List.Perm.cons y ih).trans (List.Perm.swap x y ys)
    · exact List.Perm.refl _

theorem sortByKey_perm (key : Nat → Nat) (l : List Nat) :
    List.Perm (sortByKey key l) l := by
  induction l with
  | nil => simp [sortByKey]
  | cons x xs ih =>
    unfold sortByKey
    exact (insertByKey_perm key x _).trans (List.Perm.cons x ih)

theorem insertByKey_sorted (key : Nat → Nat) (x : Nat) (l : List Nat)
    (h : List.Pairwise (fun a b => key a ≤ key b) l) :
    List.Pairwise (fun a b => key a ≤ key b) (insertByKey key x l) := by
  induction l with
  | nil => simp [insertByKey]
  | cons y ys ih =>
    unfold insertByKey
    rw [List.pairwise_cons] at h
    split
    · rename_i hlt
      rw [List.pairwise_cons]
      refine ⟨?_, ih h.2⟩
      intro a ha
      rcases List.mem_cons.1 ((insertByKey_perm key x ys).subset ha) with h1 | h1
      · subst h1; omega
      · exact h.1 a h1
    · rename_i hlt
      rw [List.pairwise_cons]
      refine ⟨?_, List.pairwise_cons.2 h⟩
      intro a ha
      rcases List.mem_cons.1 ha with h1 | h1
      · subst h1; omega
      · have := h.1 a h1; omega

theorem sortByKey_sorted (key : Nat → Nat) (l : List Nat) :
    List.Pairwise (fun a b => key a ≤ key b) (sortByKey key l) := by
  induction l with
  | nil => simp [sortByKey]
  | cons x xs ih => exact insertByKey_sorted key x _ ih

theorem nodup_getD_ne (l : List Nat) (h : l.Nodup) {i j : Nat} (hi : i < l.length)
    (hj : j < l.length) (hij : i ≠ j) : l.getD i 0 ≠ l.getD j 0 := by
  intro heq
  apply hij
  have h1 : l.getD i 0 = l[i] := by simp [List.getD, List.getElem?_eq_getElem hi]
  have h2 : l.getD j 0 = l[j] := by simp [List.getD, List.getElem?_eq_getElem hj]
  rw [h1, h2] at heq
  exact (List.Nodup.getElem_inj_iff h).1 heq

theorem classify_spec (entryNames selectedNames : List (List Nat)) (indices : List Nat)
    (hnd : indices.Nodup) :
    ∀ k, k ≤ indices.length →
      (classify entryNames selectedNames indices k).2
          = delCount entryNames selectedNames indices k ∧
      ∀ j, j < k → (classify entryNames selectedNames indices k).1 (indices.getD j 0)
          = physCmd entryNames selectedNames indices j := by
  intro k
  induction k with
  | zero => intro _; exact ⟨rfl, fun j hj => absurd hj (Nat.not_lt_zero j)⟩
  | succ k ih =>
    intro hk
    obtain ⟨h1, h2⟩ := ih (by omega)
    have hne : ∀ j, j < k → indices.getD j 0 ≠ indices.getD k 0 :=
      fun j hj => nodup_getD_ne indices hnd (by omega) (by omega) (by omega)
    have hsel : isSelected selectedNames (entryNames.getD (indices.getD k 0) [])
        = selAt entryNames selectedNames indices k := rfl
    by_cases hs : selAt entryNames selectedNames indices k = true
    · have hc : classify entryNames selectedNames indices (k + 1) =
          (Function.update (classify entryNames selectedNames indices k).1
            (indices.getD k 0) EntryCommand.Delete,
            (classify entryNames selectedNames indices k).2 + 1) := by
        rw [classify]; simp only [hsel, hs, if_true]
      rw [hc]
      refine ⟨by simp [delCount, sumTo, hs, h1], ?_⟩
      intro j hj
      by_cases hjk : j = k
      · subst hjk; simp [physCmd, hs]
      · simp only
        rw [Function.update_noteq (hne j (by omega))]
        exact h2 j (by omega)
    · have hc : classify entryNames selectedNames indices (k + 1) =
          (Function.update (classify entryNames selectedNames indices k).1
            (indices.getD k 0)
            (if (classify entryNames selectedNames indices k).2 ≠ 0 then EntryCommand.Move
              else EntryCommand.Keep),
            (classify entryNames selectedNames indices k).2) := by
        rw [classify]; simp only [hsel, hs]; rfl
      rw [hc]
      refine ⟨by simp [delCount, sumTo, hs, h1], ?_⟩
      intro j hj
      by_cases hjk : j = k
      · subst hjk; simp [physCmd, hs, h1]
      · simp only
        rw [Function.update_noteq (hne j (by omega))]
        exact h2 j (by omega)

theorem getD_append_length (s : List Nat) (b : Nat) (rest : List Nat) :
    (s ++ b :: rest).getD s.length 0 = b := by
  induction s with
  | nil => rfl
  | cons a t ih => simpa [List.getD] using ih

theorem nameMatches_iff (e s : List Nat) :
    nameMatches e s = true ↔ (e = s ∨ ∃ rest, e = s ++ slash :: rest) := by
  unfold nameMatches
  rw [Bool.and_eq_true, List.isPrefixOf_iff_prefix, Bool.or_eq_true, beq_iff_eq, beq_iff_eq]
  constructor
  · rintro ⟨⟨t, rfl⟩, h⟩
    rcases h with h | h
    · left
      have : t.length = 0 := by simpa using h
      simp [List.length_eq_zero.1 this]
    · right
      cases t with
      | nil => simp [slash] at h
      | cons b rest =>
        have hb : b = slash := by
          rw [getD_append_length] at h; exact h
        exact ⟨rest, by rw [hb]⟩
  · rintro (rfl | ⟨rest, rfl⟩)
    · exact ⟨List.prefix_refl _, Or.inl rfl⟩
    · exact ⟨List.prefix_append _ _,
        Or.inr (getD_append_length _ _ _)⟩

theorem sortByKey_length (key : Nat → Nat) (l : List Nat) :
    (sortByKey key l).length = l.length := (sortByKey_perm key l).length_eq

theorem getD_mem (l : List Nat) {j : Nat} (hj : j < l.length) : l.getD j 0 ∈ l := by
  have h1 : l.getD j 0 = l[j] := by simp [List.getD, List.getElem?_eq_getElem hj]
  rw [h1]; exact List.getElem_mem hj

theorem sortByKey_getD_lt (key : Nat → Nat) (n j : Nat) (hj : j < n) :
    (sortByKey key (List.range n)).getD j 0 < n := by
  have h := getD_mem (sortByKey key (List.range n)) (j := j)
    (by rw [sortByKey_length, List.length_range]; exact hj)
  exact List.mem_range.1 ((sortByKey_perm key _).subset h)

theorem sortByKey_nodup (key : Nat → Nat) (n : Nat) :
    (sortByKey key (List.range n)).Nodup :=
  (sortByKey_perm key _).nodup_iff.2 (List.nodup_range n)

theorem getD_map_range (f : Nat → List Nat) (n e : Nat) (he : e < n) :
    ((List.range n).map f).getD e [] = f e := by
  simp [List.getD, List.getElem?_range he, he]

theorem sumTo_eq_zero (f : Nat → Nat) (k : Nat) (h : ∀ j, j < k → f j = 0) :
    sumTo f k = 0 := by
  induction k with
  | zero => rfl
  | succ k ih => rw [sumTo, ih (fun j hj => h j (by omega)), h k (by omega)]

theorem listEntries_eq (s : Zip) (h : notReadable s.openMode_ = false) :
    s.listEntries = .ok ((List.range s.zip_.m_total_files).map (dirName s.zip_.tomz_zip_archive)) := by
  simp [Zip.listEntries, h, listLoop_eq _ _ (Nat.le_refl _)]

theorem close_mode (cx : Codec) (s : Zip) : (s.close cx).openMode_ = OpenMode.None := by
  unfold Zip.close closeCodec
  cases h : s.openMode_ <;> simp [h]

theorem closedInv_close (cx : Codec) (s : Zip) (h : ClosedInv s) : ClosedInv (s.close cx) := by
  intro _
  unfold Zip.close closeCodec
  cases hm : s.openMode_ <;> simp
  exact h hm

theorem closedInv_init : ClosedInv Zip.init := by
  intro _; exact ⟨rfl, rfl⟩

theorem closedInv_open (cx : Codec) (fsys : FileSystem) (s : Zip) (filename : String)
    (openMode : OpenMode) (h : ClosedInv s) :
    ClosedInv (s.open cx fsys filename openMode).2 := by
  have h1 := closedInv_close cx s h
  have hm := close_mode cx s
  unfold Zip.open
  cases hi : iosModeOf openMode with
  | none => exact h1
  | some mode =>
    simp only
    cases hf : fsys filename mode with
    | none => intro _; exact h1 hm
    | some bytes =>
      simp only
      split
      · intro hnone
        simp only at hnone
        rw [hnone] at hi
        simp [iosModeOf] at hi
      · intro _
        exact ⟨(h1 hm).1, (h1 hm).2⟩

theorem closedInv_deleteFiles {P : Type} (norm : P → List Nat) (s : Zip) (names : List P)
    (r : Except Error Unit × Zip) (hr : s.deleteFiles norm names = some r)
    (h : ClosedInv s) : ClosedInv r.2 := by
  by_cases hmode : s.openMode_ = OpenMode.Update
  · intro hnone
    exfalso
    unfold Zip.deleteFiles at hr
    simp only [hmode, ne_eq, not_true_eq_false, if_false] at hr
    split at hr
    · cases hr; rw [hmode] at hnone; cases hnone
    · split at hr
      · cases hr; rw [hmode] at hnone; cases hnone
      · split at hr
        · cases hr; rw [hmode] at hnone; cases hnone
        · split at hr
          · cases hr; rw [hmode] at hnone; cases hnone
          · split at hr
            · cases hr; rw [hmode] at hnone; cases hnone
            · split at hr
              · cases hr
              · rename_i s1 hc
                cases hr
                simp only [compact] at hc
                split at hc
                · cases hc
                · split at hc
                  · cases hc
                  · cases hc; rw [hmode] at hnone; cases hnone
  · have := (show s.deleteFiles norm names = some (.error Error.invalid_operation, s) by
      unfold Zip.deleteFiles; rw [if_pos hmode])
    rw [this] at hr
    cases hr
    exact h

theorem add64_eq (a b : Nat) (h : a + b < U64) : add64 a b = a + b := by
  unfold add64; exact Nat.mod_eq_of_lt h

theorem sub64_eq (a b : Nat) (hb : b ≤ a) (ha : a < U64) : sub64 a b = a - b := by
  unfold sub64 U64 at *
  omega

theorem sub32_eq (a b : Nat) (hb : b ≤ a) (ha : a < U32) : sub32 a b = a - b := by
  unfold sub32 U32 at *
  omega

theorem u32_eq (a : Nat) (h : a < U32) : u32 a = a := by
  unfold u32; exact Nat.mod_eq_of_lt h

theorem getElem?_slice (l : List Nat) (pos n i : Nat) :
    (slice l pos n)[i]? = if i < n then l[pos + i]? else none := by
  unfold slice
  rw [List.getElem?_take]
  split
  · rw [List.getElem?_drop]
  · rfl

theorem length_slice (l : List Nat) (pos n : Nat) (h : pos + n ≤ l.length) :
    (slice l pos n).length = n := by
  unfold slice
  rw [List.length_take, List.length_drop]
  omega

theorem slice_eq_of_getElem? (a b : List Nat) (p q n : Nat)
    (h : ∀ i, i < n → a[p + i]? = b[q + i]?) : slice a p n = slice b q n := by
  apply List.ext_getElem?
  intro i
  rw [getElem?_slice, getElem?_slice]
  split
  · rename_i hi; exact h i hi
  · rfl

theorem getElem?_writeAt (l : List Nat) (pos : Nat) (d : List Nat)
    (h : pos + d.length ≤ l.length) (q : Nat) :
    (writeAt l pos d)[q]? = if pos ≤ q ∧ q < pos + d.length then d[q - pos]? else l[q]? := by
  unfold writeAt
  by_cases hd : d = []
  · subst hd
    rw [if_pos rfl, if_neg (by simp)]
  · rw [if_neg hd]
    have h0 : pos - l.length = 0 := by omega
    rw [h0, List.replicate_zero, List.append_nil]
    have hlen : (List.take pos l).length = pos := by rw [List.length_take]; omega
    by_cases h1 : q < pos
    · rw [List.append_assoc, List.getElem?_append_left (by omega), if_neg (by omega),
        List.getElem?_take_of_lt h1]
    · by_cases h2 : q < pos + d.length
      · rw [if_pos ⟨by omega, h2⟩, List.getElem?_append_left (by rw [List.length_append]; omega),
          List.getElem?_append_right (by omega), hlen]
      · rw [if_neg (by omega), List.getElem?_append_right (by rw [List.length_append]; omega),
          List.length_append, hlen, List.getElem?_drop]
        congr 1; omega

theorem length_writeAt (l : List Nat) (pos : Nat) (d : List Nat)
    (h : pos + d.length ≤ l.length) : (writeAt l pos d).length = l.length := by
  unfold writeAt
  by_cases hd : d = []
  · rw [if_pos hd]
  · rw [if_neg hd]
    have h0 : pos - l.length = 0 := by omega
    simp only [h0, List.replicate_zero, List.append_nil, List.length_append, List.length_take,
      List.length_drop]
    omega

theorem getElem?_memmove (buf : List Nat) (dst src len : Nat)
    (hs : src + len ≤ buf.length) (hd : dst + len ≤ buf.length) (q : Nat) :
    (memmove buf dst src len)[q]? =
      if dst ≤ q ∧ q < dst + len then buf[src + (q - dst)]? else buf[q]? := by
  unfold memmove
  have hl := length_slice buf src len hs
  rw [getElem?_writeAt _ _ _ (by rw [hl]; exact hd), hl]
  split
  · rename_i h; rw [getElem?_slice, if_pos (by omega)]
  · rfl

theorem length_memmove (buf : List Nat) (dst src len : Nat)
    (hs : src + len ≤ buf.length) (hd : dst + len ≤ buf.length) :
    (memmove buf dst src len).length = buf.length := by
  unfold memmove
  exact length_writeAt _ _ _ (by rw [length_slice buf src len hs]; exact hd)

theorem memmove_memmove (buf : List Nat) (dst src a c : Nat) (hds : dst ≤ src)
    (hs : src + a + c ≤ buf.length) :
    memmove (memmove buf dst src a) (dst + a) (src + a) c = memmove buf dst src (a + c) := by
  have hl := length_memmove buf dst src a (by omega) (by omega)
  apply List.ext_getElem?
  intro q
  rw [getElem?_memmove _ _ _ _ (by omega) (by omega),
    getElem?_memmove _ _ _ _ (by omega) (by omega),
    getElem?_memmove _ _ _ _ (by omega) (by omega),
    getElem?_memmove _ _ _ _ (by omega) (by omega)]
  by_cases h1 : dst + a ≤ q ∧ q < dst + a + c
  · rw [if_pos h1, if_neg (by omega), if_pos (by omega)]
    congr 1; omega
  · rw [if_neg h1]
    by_cases h2 : dst ≤ q ∧ q < dst + a
    · rw [if_pos h2, if_pos (by omega)]
    · rw [if_neg h2, if_neg (by omega)]

theorem iosmovePages_spec :
    ∀ (i : Nat) (ios : FStream) (dst src : Nat), ios.failed = false → dst ≤ src →
      src + pageSize * i ≤ ios.bytes.length →
      iosmovePages i ios dst src =
        (⟨memmove ios.bytes dst src (pageSize * i), false⟩,
          dst + pageSize * i, src + pageSize * i) := by
  intro i
  induction i with
  | zero =>
    intro ios dst src hf _ _
    cases ios with
    | mk bytes failed =>
      simp only at hf
      subst hf
      simp [iosmovePages, memmove, slice, writeAt]
  | succ i ih =>
    intro ios dst src hf hds hlen
    have hp : pageSize * (i + 1) = pageSize + pageSize * i := by ring
    rw [hp] at hlen ⊢
    have hr : ios.read src pageSize = (ios, slice ios.bytes src pageSize) := by
      unfold FStream.read
      rw [hf]
      simp only [Bool.false_eq_true, if_false]
      rw [if_pos (Or.inr (by omega))]
    have hw : ios.write dst (slice ios.bytes src pageSize)
        = ⟨memmove ios.bytes dst src pageSize, false⟩ := by
      unfold FStream.write
      rw [hf]
      simp [memmove]
    have hl := length_memmove ios.bytes dst src pageSize (by omega) (by omega)
    rw [iosmovePages, hr]
    simp only
    rw [hw, ih _ _ _ rfl (by omega) (by simp only [hl]; omega)]
    simp only
    rw [memmove_memmove _ _ _ _ _ hds (by omega)]
    simp only [Prod.mk.injEq, true_and]
    omega

theorem iosmove_eq (ios : FStream) (dst src len : Nat) (hf : ios.failed = false)
    (hds : dst ≤ src) (hlen : src + len ≤ ios.bytes.length) :
    iosmove ios dst src len = ⟨memmove ios.bytes dst src len, false⟩ := by
  have hdm := Nat.div_add_mod len pageSize
  have hpg : pageSize * (len / pageSize) ≤ len := by omega
  unfold iosmove
  simp only
  rw [iosmovePages_spec _ ios dst src hf hds (by omega)]
  simp only
  have hl := length_memmove ios.bytes dst src (pageSize * (len / pageSize)) (by omega) (by omega)
  have hr : FStream.read ⟨memmove ios.bytes dst src (pageSize * (len / pageSize)), false⟩
      (src + pageSize * (len / pageSize)) (len % pageSize)
      = (⟨memmove ios.bytes dst src (pageSize * (len / pageSize)), false⟩,
          slice (memmove ios.bytes dst src (pageSize * (len / pageSize)))
            (src + pageSize * (len / pageSize)) (len % pageSize)) := by
    unfold FStream.read
    simp only [Bool.false_eq_true, if_false]
    rw [if_pos (Or.inr (by rw [hl]; omega))]
  rw [hr]
  simp only [FStream.write, Bool.false_eq_true, if_false]
  have := memmove_memmove ios.bytes dst src (pageSize * (len / pageSize)) (len % pageSize) hds
    (by omega)
  rw [hdm] at this
  rw [← this]
  rfl

theorem sumTo_mono (f : Nat → Nat) {a b : Nat} (h : a ≤ b) : sumTo f a ≤ sumTo f b := by
  induction b with
  | zero => have : a = 0 := by omega
            subst this; exact Nat.le_refl _
  | succ b ih =>
    rcases Nat.lt_or_ge a (b + 1) with h1 | h1
    · have := ih (by omega); rw [sumTo]; omega
    · have : a = b + 1 := by omega
      subst this; exact Nat.le_refl _

theorem sumTo_lt_succ (f : Nat → Nat) {a b : Nat} (h : a < b) : sumTo f a + f a ≤ sumTo f b :=
  sumTo_mono f (a := a + 1) h

theorem kept_add_gone (del : Nat → Bool) (c : Nat → Nat) (k : Nat) :
    keptLen del c k + goneLen del c k = sumTo c k := by
  induction k with
  | zero => rfl
  | succ k ih =>
    simp only [keptLen, goneLen, sumTo] at ih ⊢
    cases del k <;> simp <;> omega

theorem keptLen_succ (del : Nat → Bool) (c : Nat → Nat) (k : Nat) :
    keptLen del c (k + 1) = keptLen del c k + (if del k then 0 else c k) := rfl

theorem goneLen_succ (del : Nat → Bool) (c : Nat → Nat) (k : Nat) :
    goneLen del c (k + 1) = goneLen del c k + (if del k then c k else 0) := rfl

theorem keptCount_succ (del : Nat → Bool) (k : Nat) :
    keptCount del (k + 1) = keptCount del k + (if del k then 0 else 1) := rfl

theorem keptCount_le (del : Nat → Bool) (k : Nat) : keptCount del k ≤ k := by
  induction k with
  | zero => exact Nat.le_refl _
  | succ k ih => rw [keptCount_succ]; split <;> omega

theorem keptLen_mono (del : Nat → Bool) (c : Nat → Nat) {a b : Nat} (h : a ≤ b) :
    keptLen del c a ≤ keptLen del c b := sumTo_mono _ h

theorem keptLen_lt_succ (del : Nat → Bool) (c : Nat → Nat) {a b : Nat} (h : a < b)
    (hd : del a = false) : keptLen del c a + c a ≤ keptLen del c b := by
  have := keptLen_mono del c (a := a + 1) (b := b) h
  rw [keptLen_succ, hd] at this
  simpa using this

theorem length_keptOfs (del : Nat → Bool) (c : Nat → Nat) (k : Nat) :
    (keptOfs del c k).length = keptCount del k := by
  induction k with
  | zero => rfl
  | succ k ih =>
    rw [keptOfs, keptCount_succ]
    split <;> simp [ih]

/-- The run of deleted directory records. -/
theorem cdDeleteRun_spec (n : Nat) (cmd : Nat → EntryCommand) (c : Nat → Nat)
    (st : LoopState) (hk : st.index ≤ n) (hrd : st.rdPos = sumTo c st.index)
    (hlt : sumTo c n < U64) (hc : ∀ j, j < n → (st.entryPos j).cd_len_ = c j) :
    ∃ k1, st.index ≤ k1 ∧ k1 ≤ n ∧
      cdDeleteRun n cmd st = some { st with index := k1, rdPos := sumTo c k1 } ∧
      (∀ j, st.index ≤ j → j < k1 → cmd j = EntryCommand.Delete) ∧
      (k1 < n → cmd k1 ≠ EntryCommand.Delete) := by
  have h := whileLoop_spec
    (fun s : LoopState => decide (s.index < n) && (cmd s.index == EntryCommand.Delete))
    (fun s => { s with rdPos := add64 s.rdPos (s.entryPos s.index).cd_len_
                       index := s.index + 1 })
    (fun s => ∃ k1, st.index ≤ k1 ∧ k1 ≤ n ∧
      s = { st with index := k1, rdPos := sumTo c k1 } ∧
      (∀ j, st.index ≤ j → j < k1 → cmd j = EntryCommand.Delete))
    (fun s => n - s.index)
    (by
      rintro s ⟨k1, h1, h2, rfl, h4⟩ hcond
      simp only [Bool.and_eq_true, decide_eq_true_eq, beq_iff_eq] at hcond
      obtain ⟨hlt1, hdel⟩ := hcond
      refine ⟨⟨k1 + 1, by omega, by omega, ?_, ?_⟩, by simp only; omega⟩
      · have hle := sumTo_mono c (show k1 + 1 ≤ n by omega)
        simp only [hc k1 hlt1, sumTo]
        rw [add64_eq _ _ (by rw [sumTo] at hle; omega)]
      · intro j hj1 hj2
        by_cases hj : j = k1
        · subst hj; exact hdel
        · exact h4 j hj1 (by omega))
    (n + 1) st ⟨st.index, Nat.le_refl _, hk, by rw [← hrd], fun j h1 h2 => by omega⟩
    (by simp only; omega)
  obtain ⟨r, hr, ⟨k1, h1, h2, rfl, h4⟩, hcond⟩ := h
  refine ⟨k1, h1, h2, hr, h4, ?_⟩
  intro hlt1 hdel
  simp [hlt1, hdel] at hcond


theorem goneLen_of_run (del : Nat → Bool) (c : Nat → Nat) (a : Nat) :
    ∀ b, a ≤ b → (∀ j, a ≤ j → j < b → del j = false) →
      goneLen del c b = goneLen del c a := by
  intro b
  induction b with
  | zero => intro h _; have : a = 0 := by omega
            subst this; rfl
  | succ b ih =>
    intro h hrun
    rcases Nat.lt_or_ge a (b + 1) with h1 | h1
    · rw [goneLen_succ, hrun b (by omega) (by omega),
        ih (by omega) (fun j h2 h3 => hrun j h2 (by omega))]
      simp
    · have : a = b + 1 := by omega
      subst this; rfl

theorem keptLen_of_gone (del : Nat → Bool) (c : Nat → Nat) (a : Nat) :
    ∀ b, a ≤ b → (∀ j, a ≤ j → j < b → del j = true) →
      keptLen del c b = keptLen del c a ∧ keptCount del b = keptCount del a ∧
      keptOfs del c b = keptOfs del c a := by
  intro b
  induction b with
  | zero => intro h _; have : a = 0 := by omega
            subst this; exact ⟨rfl, rfl, rfl⟩
  | succ b ih =>
    intro h hrun
    rcases Nat.lt_or_ge a (b + 1) with h1 | h1
    · obtain ⟨i1, i2, i3⟩ := ih (by omega) (fun j h2 h3 => hrun j h2 (by omega))
      rw [keptLen_succ, keptCount_succ, keptOfs, hrun b (by omega) (by omega), i1, i2, i3]
      simp
    · have : a = b + 1 := by omega
      subst this; exact ⟨rfl, rfl, rfl⟩

theorem cdMoveStep_inv (n : Nat) (cmd : Nat → EntryCommand) (c : Nat → Nat)
    (s1 s : LoopState) (hlt : sumTo c n < U32) (hcap : n ≤ s1.cdirOfs.m_p.length)
    (hd : s1.delLen = goneLen (fun j => cmd j == EntryCommand.Delete) c s1.index)
    (h : CdMoveInv n (fun j => cmd j == EntryCommand.Delete) c s1 s)
    (hi : s.index < n) (hc : cmd s.index ≠ EntryCommand.Delete) :
    CdMoveInv n (fun j => cmd j == EntryCommand.Delete) c s1 (cdMoveStep s) := by
  have hdel : (cmd s.index == EntryCommand.Delete) = false := by simpa using hc
  have hU : U32 < U64 := by decide
  have hle := sumTo_mono c (show s.index + 1 ≤ n from hi)
  rw [sumTo] at hle
  have hrun' : ∀ j, s1.index ≤ j → j < s.index + 1 →
      (fun j => cmd j == EntryCommand.Delete) j = false := by
    intro j h1 h2
    by_cases hj : j = s.index
    · subst hj; exact hdel
    · exact h.run j h1 (by omega)
  have hg := goneLen_of_run (fun j => cmd j == EntryCommand.Delete) c s1.index s.index h.lo h.run
  have hkg := kept_add_gone (fun j => cmd j == EntryCommand.Delete) c s.index
  have hval : u32 (sub64 (s.entryPos s.index).cd_ofs_ s.delLen)
      = keptLen (fun j => cmd j == EntryCommand.Delete) c s.index := by
    rw [h.epo _ (Nat.le_refl _) hi, h.dl, hd, ← hg, sub64_eq _ _ (by omega) (by omega),
      u32_eq _ (by omega)]
    omega
  have hcnt := keptCount_le (fun j => cmd j == EntryCommand.Delete) s.index
  constructor
  · show s1.index ≤ s.index + 1
    have := h.lo; omega
  · show s.index + 1 ≤ n
    omega
  · exact h.wr
  · exact h.rd
  · exact h.dl
  · exact h.cdir
  · exact h.file
  · show add64 s.movLen (s.entryPos s.index).cd_len_ + sumTo c s1.index = sumTo c (s.index + 1)
    have := h.mov
    rw [h.epc _ hi, add64_eq _ _ (by omega), sumTo]
    omega
  · exact hrun'
  · show s.cdirOfs.m_size + 1 = keptCount _ (s.index + 1)
    rw [keptCount_succ, hdel, h.osz]; simp
  · show (s.cdirOfs.m_p.set _ _).length = _
    rw [List.length_set, h.olen]
  · intro r hr
    have hidx : (cdMoveStep s).index = s.index + 1 := rfl
    rw [hidx] at hr
    show (s.cdirOfs.m_p.set s.cdirOfs.m_size
      (u32 ((Function.update s.entryPos s.index _) s.index).cd_ofs_))[r]?
        = (keptOfs _ c (s.index + 1))[r]?
    rw [keptCount_succ, hdel] at hr
    simp only [Bool.false_eq_true, if_false] at hr
    rw [Function.update_same]
    simp only
    rw [hval, keptOfs, hdel]
    simp only [Bool.false_eq_true, if_false]
    rw [List.getElem?_set, h.osz]
    by_cases hr1 : keptCount (fun j => cmd j == EntryCommand.Delete) s.index = r
    · rw [if_pos hr1, if_pos (by rw [h.olen]; omega),
        List.getElem?_append_right (by rw [length_keptOfs]; omega), length_keptOfs, hr1]
      simp
    · rw [if_neg hr1, h.ofs r (by omega),
        List.getElem?_append_left (by rw [length_keptOfs]; omega)]
  · intro j hjn
    show ((Function.update s.entryPos s.index _) j).cd_len_ = c j
    by_cases hj : j = s.index
    · subst hj; rw [Function.update_same]; exact h.epc _ hjn
    · rw [Function.update_noteq hj]; exact h.epc j hjn
  · intro j h1 h2
    show ((Function.update s.entryPos s.index _) j).cd_ofs_ = sumTo c j
    have h1' : s.index + 1 ≤ j := h1
    rw [Function.update_noteq (by omega)]
    exact h.epo j (by omega) h2
  · intro j
    show ((Function.update s.entryPos s.index _) j).lf_ofs_ = _ ∧
      ((Function.update s.entryPos s.index _) j).lf_len_ = _
    by_cases hj : j = s.index
    · subst hj; rw [Function.update_same]; exact h.eplf _
    · rw [Function.update_noteq hj]; exact h.eplf j

theorem cdMoveRun_spec (n : Nat) (cmd : Nat → EntryCommand) (c : Nat → Nat)
    (s1 : LoopState) (hlt : sumTo c n < U32) (hcap : n ≤ s1.cdirOfs.m_p.length)
    (hd : s1.delLen = goneLen (fun j => cmd j == EntryCommand.Delete) c s1.index)
    (h : CdMoveInv n (fun j => cmd j == EntryCommand.Delete) c s1 s1) :
    ∃ r, cdMoveRun n cmd s1 = some r ∧
      CdMoveInv n (fun j => cmd j == EntryCommand.Delete) c s1 r ∧
      (r.index < n → cmd r.index = EntryCommand.Delete) := by
  have hw := whileLoop_spec
    (fun s : LoopState => decide (s.index < n) && (cmd s.index != EntryCommand.Delete))
    cdMoveStep
    (fun s => CdMoveInv n (fun j => cmd j == EntryCommand.Delete) c s1 s)
    (fun s => n - s.index)
    (by
      intro s hs hcond
      simp only [Bool.and_eq_true, decide_eq_true_eq, bne_iff_ne, ne_eq] at hcond
      refine ⟨cdMoveStep_inv n cmd c s1 s hlt hcap hd hs hcond.1 hcond.2, ?_⟩
      show n - (s.index + 1) < n - s.index
      omega)
    (n + 1) s1 h (by simp only; omega)
  obtain ⟨r, hr, hinv, hcond⟩ := hw
  refine ⟨r, hr, hinv, ?_⟩
  intro hlt1
  by_contra hne
  simp [hlt1, hne] at hcond

theorem keptLen_of_run (del : Nat → Bool) (c : Nat → Nat) (a b : Nat) (h : a ≤ b)
    (hrun : ∀ j, a ≤ j → j < b → del j = false) :
    keptLen del c b + sumTo c a = keptLen del c a + sumTo c b := by
  have h1 := goneLen_of_run del c a b h hrun
  have h2 := kept_add_gone del c a
  have h3 := kept_add_gone del c b
  omega

theorem sumTo_pos_lt (c : Nat → Nat) (n : Nat) (hpos : ∀ j, j < n → 0 < c j) {a b : Nat}
    (hab : a < b) (hb : b ≤ n) : sumTo c a < sumTo c b := by
  have := sumTo_lt_succ c hab
  have := hpos a (by omega)
  omega

/-- One iteration of the outer loop of the directory compaction. -/
theorem cdBody_spec (n : Nat) (cmd : Nat → EntryCommand) (c : Nat → Nat)
    (st0 st : LoopState) (hlt : sumTo c n < U32) (hsz : sumTo c n ≤ st0.cdir.length)
    (hcap : n ≤ st0.cdirOfs.m_p.length) (hpos : ∀ j, j < n → 0 < c j)
    (h : CdInv n (fun j => cmd j == EntryCommand.Delete) c st0 st) :
    ∃ s1 b, cdBody n cmd st = some (s1, b) ∧
      ((b = true ∨ decide (s1.index < n) = false) →
        CdInv n (fun j => cmd j == EntryCommand.Delete) c st0 s1 ∧ s1.index = n) ∧
      (b = false → decide (s1.index < n) = true →
        CdInv n (fun j => cmd j == EntryCommand.Delete) c st0 s1 ∧
        n - s1.index < n - st.index) := by
  have hU : U32 < U64 := by decide
  obtain ⟨k1, hk1, hk1n, hrun1, hdel1, hstop1⟩ :=
    cdDeleteRun_spec n cmd c st h.idx h.rd (by omega) h.epc
  have hdel1' : ∀ j, st.index ≤ j → j < k1 → (fun j => cmd j == EntryCommand.Delete) j = true := by
    intro j h1 h2; simpa using hdel1 j h1 h2
  obtain ⟨hW, hS, hO⟩ := keptLen_of_gone (fun j => cmd j == EntryCommand.Delete) c st.index k1
    hk1 hdel1'
  have hkg1 := kept_add_gone (fun j => cmd j == EntryCommand.Delete) c k1
  have hRn1 := sumTo_mono c hk1n
  have hdl : sub64 (sumTo c k1) st.wrPos
      = goneLen (fun j => cmd j == EntryCommand.Delete) c k1 := by
    rw [h.wr, ← hW, sub64_eq _ _ (by omega) (by omega)]
    omega
  obtain ⟨r, hrun2, hinv, hstop2⟩ := cdMoveRun_spec n cmd c
    { st with index := k1, rdPos := sumTo c k1, delLen := sub64 (sumTo c k1) st.wrPos }
    hlt (by show n ≤ st.cdirOfs.m_p.length; rw [h.olen]; exact hcap) hdl
    { lo := Nat.le_refl _
      hi := hk1n
      wr := rfl
      rd := rfl
      dl := rfl
      cdir := rfl
      file := rfl
      mov := by show st.movLen + sumTo c k1 = sumTo c k1; rw [h.mov]; omega
      run := fun j h1 h2 => by
        have h1' : k1 ≤ j := h1
        have h2' : j < k1 := h2
        omega
      osz := by show st.cdirOfs.m_size = keptCount _ k1; rw [hS]; exact h.osz
      olen := rfl
      ofs := by
        intro r hr
        show st.cdirOfs.m_p[r]? = (keptOfs _ c k1)[r]?
        have hr' : r < keptCount (fun j => cmd j == EntryCommand.Delete) k1 := hr
        rw [hO]; rw [hS] at hr'; exact h.ofs r hr'
      epc := h.epc
      epo := fun j h1 h2 => h.epo j (by have h1' : k1 ≤ j := h1; omega) h2
      eplf := fun j => ⟨rfl, rfl⟩ }
  have hlo : k1 ≤ r.index := hinv.lo
  have hmov : r.movLen + sumTo c k1 = sumTo c r.index := hinv.mov
  have hrunM : ∀ j, k1 ≤ j → j < r.index → (fun j => cmd j == EntryCommand.Delete) j = false :=
    hinv.run
  have hG := goneLen_of_run (fun j => cmd j == EntryCommand.Delete) c k1 r.index hlo hrunM
  have hK := keptLen_of_run (fun j => cmd j == EntryCommand.Delete) c k1 r.index hlo hrunM
  have hRn2 := sumTo_mono c hinv.hi
  have hwr : r.wrPos = keptLen (fun j => cmd j == EntryCommand.Delete) c k1 := by
    rw [hinv.wr]; show st.wrPos = _; rw [h.wr, hW]
  have hrd : r.rdPos = sumTo c k1 := hinv.rd
  have hdl2 : r.delLen = goneLen (fun j => cmd j == EntryCommand.Delete) c k1 := by
    rw [hinv.dl]; exact hdl
  have hcd : r.cdir = st.cdir := hinv.cdir
  -- survivors below `k1` lie below `st.index`
  have hbelow : ∀ j, j < k1 → (fun j => cmd j == EntryCommand.Delete) j = false → j < st.index := by
    intro j h1 h2
    by_contra h3
    have := hdel1' j (by omega) h1
    rw [h2] at this; cases this
  by_cases hm : r.movLen = 0
  · -- the loop is left through `break`
    have hk : r.index = k1 := by
      by_contra hne
      have := sumTo_pos_lt c n hpos (show k1 < r.index by omega) hinv.hi
      omega
    have hn1 : k1 = n := by
      by_contra hne
      have hl : k1 < n := by omega
      exact hstop1 hl (by rw [← hk]; exact hstop2 (by rw [hk]; exact hl))
    refine ⟨r, true, ?_, ?_, fun hb => by cases hb⟩
    · unfold cdBody
      rw [hrun1]
      simp only
      rw [hrun2]
      simp only [hm, if_true]
    · intro _
      refine ⟨?_, by rw [hk, hn1]⟩
      constructor
      · exact hinv.hi
      · exact hm
      · rw [hrd, hk]
      · rw [hwr, hk]
      · rw [hdl2, hk]
      · rw [hinv.file]; exact h.file
      · rw [hcd]; exact h.len
      · intro j hj hd i hi
        rw [hk] at hj
        rw [hcd]
        exact h.kept j (hbelow j hj hd) hd i hi
      · intro q hq
        rw [hcd]
        exact h.rest q (by have := sumTo_mono c (show st.index ≤ r.index by omega); omega)
      · exact hinv.osz
      · rw [hinv.olen]; exact h.olen
      · exact hinv.ofs
      · exact hinv.epc
      · exact hinv.epo
      · intro j
        rw [(hinv.eplf j).1, (hinv.eplf j).2]
        exact h.eplf j
  · -- the run is moved and the loop goes on
    have hk : k1 < r.index := by
      by_contra hne
      have : r.index = k1 := by omega
      rw [this] at hmov; omega
    have hlen : r.cdir.length = st0.cdir.length := by rw [hcd]; exact h.len
    have hinvN : CdInv n (fun j => cmd j == EntryCommand.Delete) c st0
        { r with
          cdir := if r.delLen ≠ 0 then memmove r.cdir r.wrPos r.rdPos r.movLen else r.cdir
          wrPos := add64 r.wrPos r.movLen
          rdPos := add64 r.rdPos r.movLen
          movLen := 0 } := by
      constructor
      · exact hinv.hi
      · rfl
      · show add64 r.rdPos r.movLen = sumTo c r.index
        rw [hrd, add64_eq _ _ (by omega)]; omega
      · show add64 r.wrPos r.movLen = keptLen _ c r.index
        rw [hwr, add64_eq _ _ (by omega)]; omega
      · show r.delLen = _
        rw [hdl2, hG]
      · show r.file = _
        rw [hinv.file]; exact h.file
      · show (if r.delLen ≠ 0 then memmove r.cdir r.wrPos r.rdPos r.movLen else r.cdir).length = _
        split
        · rw [length_memmove _ _ _ _ (by rw [hlen]; omega) (by rw [hlen]; omega), hlen]
        · exact hlen
      · intro j hj hd i hi
        show (if r.delLen ≠ 0 then memmove r.cdir r.wrPos r.rdPos r.movLen else r.cdir)[_]? = _
        have hj' : j < r.index := hj
        by_cases hjk : j < k1
        · have hjs := hbelow j hjk hd
          have hb := keptLen_lt_succ (fun j => cmd j == EntryCommand.Delete) c hjs hd
          split
          · rw [getElem?_memmove _ _ _ _ (by rw [hlen]; omega) (by rw [hlen]; omega),
              if_neg (by rw [hwr, hW]; omega), hcd]
            exact h.kept j hjs hd i hi
          · rw [hcd]; exact h.kept j hjs hd i hi
        · have hKj := keptLen_of_run (fun j => cmd j == EntryCommand.Delete) c k1 j (by omega)
            (fun t h1 h2 => hrunM t h1 (by omega))
          have hGj := goneLen_of_run (fun j => cmd j == EntryCommand.Delete) c k1 j (by omega)
            (fun t h1 h2 => hrunM t h1 (by omega))
          have hb := keptLen_lt_succ (fun j => cmd j == EntryCommand.Delete) c hj' hd
          have hRj := sumTo_mono c (show k1 ≤ j by omega)
          have hRk := sumTo_mono c hk1
          have hkgj := kept_add_gone (fun j => cmd j == EntryCommand.Delete) c j
          split
          · rw [getElem?_memmove _ _ _ _ (by rw [hlen]; omega) (by rw [hlen]; omega),
              if_pos (by rw [hwr]; omega), hcd, hrd, hwr,
              ← h.rest (sumTo c j + i) (by omega)]
            congr 1; omega
          · rename_i hz
            have hz' : r.delLen = 0 := by simpa using hz
            rw [hdl2] at hz'
            rw [hcd, ← h.rest (sumTo c j + i) (by omega)]
            congr 1; omega
      · intro q hq
        show (if r.delLen ≠ 0 then memmove r.cdir r.wrPos r.rdPos r.movLen else r.cdir)[q]? = _
        have hq' : sumTo c r.index ≤ q := hq
        have hRk := sumTo_mono c hk1
        split
        · rw [getElem?_memmove _ _ _ _ (by rw [hlen]; omega) (by rw [hlen]; omega),
            if_neg (by rw [hwr]; omega), hcd]
          exact h.rest q (by omega)
        · rw [hcd]; exact h.rest q (by omega)
      · exact hinv.osz
      · show r.cdirOfs.m_p.length = _
        rw [hinv.olen]; exact h.olen
      · exact hinv.ofs
      · exact hinv.epc
      · exact hinv.epo
      · intro j
        show (r.entryPos j).lf_ofs_ = _ ∧ (r.entryPos j).lf_len_ = _
        rw [(hinv.eplf j).1, (hinv.eplf j).2]
        exact h.eplf j
    refine ⟨{ r with
          cdir := if r.delLen ≠ 0 then memmove r.cdir r.wrPos r.rdPos r.movLen else r.cdir
          wrPos := add64 r.wrPos r.movLen
          rdPos := add64 r.rdPos r.movLen
          movLen := 0 }, false, ?_, ?_, ?_⟩
    · unfold cdBody
      rw [hrun1]
      simp only
      rw [hrun2]
      simp only [hm, if_false]
    · intro hb
      rcases hb with hb | hb
      · cases hb
      · refine ⟨hinvN, ?_⟩
        have hb' : ¬ r.index < n := by simpa using hb
        have := hinv.hi
        show r.index = n
        omega
    · intro _ _
      refine ⟨hinvN, ?_⟩
      show n - r.index < n - st.index
      have := hinv.hi
      omega

/-- The directory compaction as a whole. -/
theorem compactDir_spec (n : Nat) (cmd : Nat → EntryCommand) (c : Nat → Nat)
    (st : LoopState) (hlt : sumTo c n < U32) (hsz : sumTo c n ≤ st.cdir.length)
    (hcap : n ≤ st.cdirOfs.m_p.length) (hpos : ∀ j, j < n → 0 < c j)
    (hmov : st.movLen = 0) (hc : ∀ j, j < n → (st.entryPos j).cd_len_ = c j)
    (ho : ∀ j, j < n → (st.entryPos j).cd_ofs_ = sumTo c j) :
    ∃ st2, compactDir n cmd st = some st2 ∧
      CdInv n (fun j => cmd j == EntryCommand.Delete) c st st2 ∧ st2.index = n := by
  have hinit : CdInv n (fun j => cmd j == EntryCommand.Delete) c st
      { st with cdirOfs := { st.cdirOfs with m_size := 0 }
                index := 0, wrPos := 0, rdPos := 0, delLen := 0 } :=
    { idx := Nat.zero_le _
      mov := hmov
      rd := rfl
      wr := rfl
      dl := rfl
      file := rfl
      len := rfl
      kept := fun j hj => absurd hj (Nat.not_lt_zero j)
      rest := fun q _ => rfl
      osz := rfl
      olen := rfl
      ofs := fun r hr => absurd hr (Nat.not_lt_zero r)
      epc := hc
      epo := fun j _ h2 => ho j h2
      eplf := fun j => ⟨rfl, rfl⟩ }
  exact doWhile_spec (cdBody n cmd) (fun s => decide (s.index < n))
    (fun s => CdInv n (fun j => cmd j == EntryCommand.Delete) c st s)
    (fun s => CdInv n (fun j => cmd j == EntryCommand.Delete) c st s ∧ s.index = n)
    (fun s => n - s.index)
    (fun s hs => cdBody_spec n cmd c st s hlt hsz hcap hpos hs)
    (n + 1) _ hinit (by simp only; omega)

theorem length_MZ_WRITE_LE32 (p : List Nat) (ofs v : Nat) :
    (MZ_WRITE_LE32 p ofs v).length = p.length := by
  simp [MZ_WRITE_LE32]

theorem getElem?_MZ_WRITE_LE32_of_not_mem (p : List Nat) (ofs v q : Nat)
    (h : ¬ (ofs ≤ q ∧ q < ofs + 4)) : (MZ_WRITE_LE32 p ofs v)[q]? = p[q]? := by
  unfold MZ_WRITE_LE32
  rw [List.getElem?_set, if_neg (by omega), List.getElem?_set, if_neg (by omega),
    List.getElem?_set, if_neg (by omega), List.getElem?_set, if_neg (by omega)]

theorem getElem?_MZ_WRITE_LE32 (p : List Nat) (ofs v i : Nat) (hp : ofs + 4 ≤ p.length)
    (hi : i < 4) : (MZ_WRITE_LE32 p ofs v)[ofs + i]? = (le32 v)[i]? := by
  unfold MZ_WRITE_LE32 le32
  have h4 : i = 0 ∨ i = 1 ∨ i = 2 ∨ i = 3 := by omega
  rcases h4 with h | h | h | h <;> subst h
  · rw [List.getElem?_set, if_neg (by omega), List.getElem?_set, if_neg (by omega),
      List.getElem?_set, if_neg (by omega), List.getElem?_set, if_pos (by omega),
      if_pos (by omega)]
    rfl
  · rw [List.getElem?_set, if_neg (by omega), List.getElem?_set, if_neg (by omega),
      List.getElem?_set, if_pos (by omega), if_pos (by simp only [List.length_set]; omega)]
    rfl
  · rw [List.getElem?_set, if_neg (by omega), List.getElem?_set, if_pos (by omega),
      if_pos (by simp only [List.length_set]; omega)]
    rfl
  · rw [List.getElem?_set, if_pos (by omega),
      if_pos (by simp only [List.length_set]; omega)]
    rfl

theorem lfWeak_of_eq (n : Nat) (st0 s t : LoopState) (h : LfWeak n st0 s)
    (hi : t.index ≤ n) (hc : t.cdir = s.cdir) (he : t.entryPos = s.entryPos)
    (ho : t.cdirOfs = s.cdirOfs) : LfWeak n st0 t :=
  { idx := hi
    len := by rw [hc]; exact h.len
    out := by rw [hc]; exact h.out
    ep := by rw [he]; exact h.ep
    ofs := by rw [ho]; exact h.ofs }

theorem lfKeepRun_weak (n : Nat) (indices : List Nat) (cmd : Nat → EntryCommand)
    (st0 st : LoopState) (h : LfWeak n st0 st) :
    ∃ r, lfKeepRun n indices cmd st = some r ∧ LfWeak n st0 r ∧ r.movLen = st.movLen ∧
      r.file = st.file := by
  have hw := whileLoop_spec
    (fun s : LoopState => decide (s.index < n)
      && (cmd (indices.getD s.index 0) == EntryCommand.Keep))
    (fun s => { s with
      wrPos := add64 s.wrPos (s.entryPos (indices.getD s.index 0)).lf_len_
      index := s.index + 1 })
    (fun s => LfWeak n st0 s ∧ s.movLen = st.movLen ∧ s.file = st.file)
    (fun s => n - s.index)
    (by
      rintro s ⟨h1, h2, h3⟩ hcond
      simp only [Bool.and_eq_true, decide_eq_true_eq] at hcond
      exact ⟨⟨lfWeak_of_eq n st0 s _ h1 (by show s.index + 1 ≤ n; omega) rfl rfl rfl, h2, h3⟩,
        by show n - (s.index + 1) < n - s.index; omega⟩)
    (n + 1) st ⟨h, rfl, rfl⟩ (by simp only; omega)
  obtain ⟨r, hr, hinv, _⟩ := hw
  exact ⟨r, hr, hinv⟩

theorem lfDeleteRun_weak (n : Nat) (indices : List Nat) (cmd : Nat → EntryCommand)
    (st0 st : LoopState) (h : LfWeak n st0 st) :
    ∃ r, lfDeleteRun n indices cmd st = some r ∧ LfWeak n st0 r ∧ r.movLen = st.movLen ∧
      r.file = st.file ∧ st.index ≤ r.index := by
  have hw := whileLoop_spec
    (fun s : LoopState => decide (s.index < n)
      && (cmd (indices.getD s.index 0) == EntryCommand.Delete))
    (fun s => { s with
      rdPos := add64 s.rdPos (s.entryPos (indices.getD s.index 0)).lf_len_
      index := s.index + 1 })
    (fun s => LfWeak n st0 s ∧ s.movLen = st.movLen ∧ s.file = st.file ∧ st.index ≤ s.index)
    (fun s => n - s.index)
    (by
      rintro s ⟨h1, h2, h3, h4⟩ hcond
      simp only [Bool.and_eq_true, decide_eq_true_eq] at hcond
      exact ⟨⟨lfWeak_of_eq n st0 s _ h1 (by show s.index + 1 ≤ n; omega) rfl rfl rfl, h2, h3,
        by show st.index ≤ s.index + 1; omega⟩,
        by show n - (s.index + 1) < n - s.index; omega⟩)
    (n + 1) st ⟨h, rfl, rfl, Nat.le_refl _⟩ (by simp only; omega)
  obtain ⟨r, hr, hinv, _⟩ := hw
  exact ⟨r, hr, hinv⟩

theorem lfMoveStep_weak (n : Nat) (indices : List Nat) (st0 s : LoopState)
    (hidx : ∀ j, j < n → indices.getD j 0 < n) (h : LfWeak n st0 s) (hi : s.index < n) :
    LfWeak n st0 (lfMoveStep indices s) := by
  have he := hidx _ hi
  constructor
  · show s.index + 1 ≤ n
    omega
  · show (MZ_WRITE_LE32 s.cdir _ _).length = _
    rw [length_MZ_WRITE_LE32]; exact h.len
  · intro q hq
    show (MZ_WRITE_LE32 s.cdir
      (((Function.update s.entryPos (indices.getD s.index 0) _) (indices.getD s.index 0)).cd_ofs_
        + MZ_ZIP_CDH_LOCAL_HEADER_OFS) _)[q]? = _
    rw [Function.update_same]
    simp only
    rw [getElem?_MZ_WRITE_LE32_of_not_mem]
    · exact h.out q hq
    · rw [(h.ep _).2]
      exact hq _ he
  · intro j
    show ((Function.update s.entryPos (indices.getD s.index 0) _) j).cd_len_ = _ ∧
      ((Function.update s.entryPos (indices.getD s.index 0) _) j).cd_ofs_ = _
    by_cases hj : j = indices.getD s.index 0
    · subst hj; rw [Function.update_same]; exact h.ep _
    · rw [Function.update_noteq hj]; exact h.ep j
  · exact h.ofs

theorem lfMoveRun_weak (n : Nat) (indices : List Nat) (cmd : Nat → EntryCommand)
    (st0 st : LoopState) (hidx : ∀ j, j < n → indices.getD j 0 < n) (h : LfWeak n st0 st) :
    ∃ r, lfMoveRun n indices cmd st = some r ∧ LfWeak n st0 r ∧ r.file = st.file ∧
      st.index ≤ r.index ∧ (r.index = st.index → r.movLen = st.movLen) := by
  have hw := whileLoop_spec
    (fun s : LoopState => decide (s.index < n)
      && (cmd (indices.getD s.index 0) == EntryCommand.Move))
    (lfMoveStep indices)
    (fun s => LfWeak n st0 s ∧ s.file = st.file ∧ st.index ≤ s.index ∧
      (s.index = st.index → s.movLen = st.movLen))
    (fun s => n - s.index)
    (by
      rintro s ⟨h1, h2, h3, h4⟩ hcond
      simp only [Bool.and_eq_true, decide_eq_true_eq] at hcond
      refine ⟨⟨lfMoveStep_weak n indices st0 s hidx h1 hcond.1, h2, ?_, ?_⟩, ?_⟩
      · show st.index ≤ s.index + 1; omega
      · intro h5
        have h5' : s.index + 1 = st.index := h5
        omega
      · show n - (s.index + 1) < n - s.index; omega)
    (n + 1) st ⟨h, rfl, Nat.le_refl _, fun _ => rfl⟩ (by simp only; omega)
  obtain ⟨r, hr, hinv, _⟩ := hw
  exact ⟨r, hr, hinv⟩

theorem compactLocal_weak_aux (n : Nat) (indices : List Nat) (cmd : Nat → EntryCommand)
    (st0 : LoopState) (hidx : ∀ j, j < n → indices.getD j 0 < n) (hi0 : st0.index ≤ n)
    (hm0 : st0.movLen = 0) :
    ∃ st1, (match lfKeepRun n indices cmd st0 with
      | none => none
      | some st1 =>
        doWhile (lfBody n indices cmd) (fun st => decide (st.index < n)) (n + 1)
          { st1 with rdPos := st1.wrPos }) = some st1 ∧
      LfWeak n st0 st1 ∧ st1.movLen = 0 := by
  have h0 : LfWeak n st0 st0 :=
    { idx := hi0, len := rfl, out := fun _ _ => rfl, ep := fun _ => ⟨rfl, rfl⟩, ofs := rfl }
  obtain ⟨s1, hk, hw1, hm1, _⟩ := lfKeepRun_weak n indices cmd st0 st0 h0
  have hm1' : s1.movLen = 0 := by rw [hm1, hm0]
  have hd := doWhile_spec (lfBody n indices cmd) (fun s => decide (s.index < n))
    (fun s => LfWeak n st0 s ∧ s.movLen = 0)
    (fun s => LfWeak n st0 s ∧ s.movLen = 0)
    (fun s => n - s.index)
    (by
      rintro s ⟨hs, hm⟩
      obtain ⟨r1, hr1, hw2, hm2, _, hi2⟩ := lfDeleteRun_weak n indices cmd st0 s hs
      obtain ⟨r2, hr2, hw3, _, hi3, hm3⟩ := lfMoveRun_weak n indices cmd st0
        { r1 with delLen := sub64 r1.rdPos r1.wrPos } hidx
        (lfWeak_of_eq n st0 r1 _ hw2 hw2.idx rfl rfl rfl)
      by_cases hz : r2.movLen = 0
      · refine ⟨r2, true, ?_, fun _ => ⟨hw3, hz⟩, fun hb => by cases hb⟩
        unfold lfBody
        rw [hr1]; simp only
        rw [hr2]; simp only [hz, if_true]
      · refine ⟨{ r2 with
            file := iosmove r2.file r2.wrPos r2.rdPos r2.movLen
            wrPos := add64 r2.wrPos r2.movLen
            rdPos := add64 r2.rdPos r2.movLen
            movLen := 0 }, false, ?_, ?_, ?_⟩
        · unfold lfBody
          rw [hr1]; simp only
          rw [hr2]; simp only [hz, if_false]
        · intro _
          exact ⟨lfWeak_of_eq n st0 r2 _ hw3 hw3.idx rfl rfl rfl, rfl⟩
        · intro _ _
          refine ⟨⟨lfWeak_of_eq n st0 r2 _ hw3 hw3.idx rfl rfl rfl, rfl⟩, ?_⟩
          show n - r2.index < n - s.index
          have h1 : r1.index ≤ r2.index := hi3
          have h2 : r2.index ≠ r1.index := by
            intro heq
            apply hz
            rw [hm3 heq]
            show r1.movLen = 0
            rw [hm2, hm]
          have := hw3.idx
          omega)
    (n + 1) { s1 with rdPos := s1.wrPos }
    ⟨lfWeak_of_eq n st0 s1 _ hw1 hw1.idx rfl rfl rfl, hm1'⟩ (by simp only; omega)
  obtain ⟨r, hr, hpost⟩ := hd
  refine ⟨r, ?_, hpost⟩
  rw [hk]
  exact hr

/-- The local-data compaction always returns; it changes the directory buffer
only inside the offset fields of the records. -/
theorem compactLocal_weak (n : Nat) (indices : List Nat) (cmd : Nat → EntryCommand)
    (entryPos : Nat → EntryPosition) (cdir : List Nat) (cdirOfs : mz_zip_array)
    (file : FStream) (hidx : ∀ j, j < n → indices.getD j 0 < n) :
    ∃ st1, compactLocal n indices cmd entryPos cdir cdirOfs file = some st1 ∧
      LfWeak n { index := 0, wrPos := 0, rdPos := 0, delLen := 0, movLen := 0
                 entryPos := entryPos, cdir := cdir, cdirOfs := cdirOfs, file := file } st1 ∧
      st1.movLen = 0 := by
  unfold compactLocal
  exact compactLocal_weak_aux n indices cmd _ hidx (Nat.zero_le _) rfl

theorem update_lf_len (f : Nat → EntryPosition) (a v e : Nat) :
    (Function.update f a { f a with lf_len_ := v } e).lf_ofs_ = (f e).lf_ofs_ ∧
    (Function.update f a { f a with lf_len_ := v } e).cd_ofs_ = (f e).cd_ofs_ ∧
    (Function.update f a { f a with lf_len_ := v } e).cd_len_ = (f e).cd_len_ ∧
    (Function.update f a { f a with lf_len_ := v } e).lf_len_
      = if e = a then v else (f e).lf_len_ := by
  by_cases h : e = a
  · subst h; simp [Function.update_same]
  · simp [Function.update_noteq h, h]

theorem update_cd_len (f : Nat → EntryPosition) (a v e : Nat) :
    (Function.update f a { f a with cd_len_ := v } e).lf_ofs_ = (f e).lf_ofs_ ∧
    (Function.update f a { f a with cd_len_ := v } e).cd_ofs_ = (f e).cd_ofs_ ∧
    (Function.update f a { f a with cd_len_ := v } e).lf_len_ = (f e).lf_len_ ∧
    (Function.update f a { f a with cd_len_ := v } e).cd_len_
      = if e = a then v else (f e).cd_len_ := by
  by_cases h : e = a
  · subst h; simp [Function.update_same]
  · simp [Function.update_noteq h, h]

theorem deriveLoop_succ (indices : List Nat) (ep : Nat → EntryPosition) (k e : Nat) :
    ((deriveLoop indices ep (k + 1)) e).lf_ofs_ = ((deriveLoop indices ep k) e).lf_ofs_ ∧
    ((deriveLoop indices ep (k + 1)) e).cd_ofs_ = ((deriveLoop indices ep k) e).cd_ofs_ ∧
    ((deriveLoop indices ep (k + 1)) e).lf_len_ =
      (if e = indices.getD k 0 then
        sub64 ((deriveLoop indices ep k) (indices.getD (k + 1) 0)).lf_ofs_
          ((deriveLoop indices ep k) (indices.getD k 0)).lf_ofs_
       else ((deriveLoop indices ep k) e).lf_len_) ∧
    ((deriveLoop indices ep (k + 1)) e).cd_len_ =
      (if e = k then
        sub64 ((deriveLoop indices ep k) (k + 1)).cd_ofs_ ((deriveLoop indices ep k) k).cd_ofs_
       else ((deriveLoop indices ep k) e).cd_len_) := by
  rw [deriveLoop]
  simp only
  refine ⟨?_, ?_, ?_, ?_⟩
  · rw [(update_cd_len _ _ _ _).1, (update_lf_len _ _ _ _).1]
  · rw [(update_cd_len _ _ _ _).2.1, (update_lf_len _ _ _ _).2.1]
  · rw [(update_cd_len _ _ _ _).2.2.1, (update_lf_len _ _ _ _).2.2.2]
  · rw [(update_cd_len _ _ _ _).2.2.2, (update_lf_len _ _ _ _).2.1,
      (update_lf_len _ _ _ _).2.1, (update_lf_len _ _ _ _).2.2.1]

theorem deriveLoop_spec (indices : List Nat) (ep : Nat → EntryPosition) (hnd : indices.Nodup) :
    ∀ k, k ≤ indices.length →
      (∀ e, ((deriveLoop indices ep k) e).lf_ofs_ = (ep e).lf_ofs_ ∧
        ((deriveLoop indices ep k) e).cd_ofs_ = (ep e).cd_ofs_) ∧
      (∀ i, ((deriveLoop indices ep k) i).cd_len_ =
        if i < k then sub64 (ep (i + 1)).cd_ofs_ (ep i).cd_ofs_ else (ep i).cd_len_) ∧
      (∀ j, j < indices.length → ((deriveLoop indices ep k) (indices.getD j 0)).lf_len_ =
        if j < k then sub64 (ep (indices.getD (j + 1) 0)).lf_ofs_ (ep (indices.getD j 0)).lf_ofs_
        else (ep (indices.getD j 0)).lf_len_) := by
  intro k
  induction k with
  | zero =>
    intro _
    exact ⟨fun e => ⟨rfl, rfl⟩, fun i => by simp [deriveLoop], fun j _ => by simp [deriveLoop]⟩
  | succ k ih =>
    intro hk
    obtain ⟨h1, h2, h3⟩ := ih (by omega)
    refine ⟨?_, ?_, ?_⟩
    · intro e
      obtain ⟨s1, s2, _, _⟩ := deriveLoop_succ indices ep k e
      rw [s1, s2]; exact h1 e
    · intro i
      rw [(deriveLoop_succ indices ep k i).2.2.2, (h1 _).2, (h1 _).2, h2 i]
      by_cases hi : i = k
      · subst hi; simp
      · by_cases hik : i < k
        · rw [if_neg hi, if_pos hik, if_pos (by omega)]
        · rw [if_neg hi, if_neg hik, if_neg (by omega)]
    · intro j hj
      rw [(deriveLoop_succ indices ep k _).2.2.1, (h1 _).1, (h1 _).1, h3 j hj]
      by_cases hjk : j = k
      · subst hjk; simp
      · have hne : indices.getD j 0 ≠ indices.getD k 0 :=
          nodup_getD_ne indices hnd hj (by omega) hjk
        by_cases hlt : j < k
        · rw [if_neg hne, if_pos hlt, if_pos (by omega)]
        · rw [if_neg hne, if_neg hlt, if_neg (by omega)]

theorem deriveLengths_spec (n archiveSize cdirSize : Nat) (indices : List Nat)
    (ep : Nat → EntryPosition) (hn : 0 < n) (hnd : indices.Nodup) (hlen : indices.length = n) :
    (∀ e, ((deriveLengths n archiveSize cdirSize indices ep) e).lf_ofs_ = (ep e).lf_ofs_ ∧
      ((deriveLengths n archiveSize cdirSize indices ep) e).cd_ofs_ = (ep e).cd_ofs_) ∧
    (∀ i, i < n → ((deriveLengths n archiveSize cdirSize indices ep) i).cd_len_ =
      sub64 (if i + 1 < n then (ep (i + 1)).cd_ofs_ else cdirSize) (ep i).cd_ofs_) ∧
    (∀ j, j < n →
      ((deriveLengths n archiveSize cdirSize indices ep) (indices.getD j 0)).lf_len_ =
        sub64 (if j + 1 < n then (ep (indices.getD (j + 1) 0)).lf_ofs_ else archiveSize)
          (ep (indices.getD j 0)).lf_ofs_) := by
  obtain ⟨h1, h2, h3⟩ := deriveLoop_spec indices ep hnd (n - 1) (by omega)
  unfold deriveLengths
  simp only
  refine ⟨?_, ?_, ?_⟩
  · intro e
    rw [(update_cd_len _ _ _ _).1, (update_lf_len _ _ _ _).1,
      (update_cd_len _ _ _ _).2.1, (update_lf_len _ _ _ _).2.1]
    exact h1 e
  · intro i hi
    rw [(update_cd_len _ _ _ _).2.2.2, (update_lf_len _ _ _ _).2.1,
      (update_lf_len _ _ _ _).2.2.1, (h1 _).2, h2 i]
    by_cases hin : i = n - 1
    · rw [if_pos hin, if_neg (by omega), hin]
    · rw [if_neg hin, if_pos (by omega), if_pos (by omega)]
  · intro j hj
    rw [(update_cd_len _ _ _ _).2.2.1, (update_lf_len _ _ _ _).2.2.2, (h1 _).1,
      h3 j (by omega)]
    by_cases hjn : j = n - 1
    · rw [if_pos (by rw [hjn]), if_neg (by omega), hjn]
    · have hne : indices.getD j 0 ≠ indices.getD (n - 1) 0 :=
        nodup_getD_ne indices hnd (by omega) (by omega) hjn
      rw [if_neg hne, if_pos (by omega), if_pos (by omega)]

theorem sumTo_congr (f g : Nat → Nat) (k : Nat) (h : ∀ j, j < k → f j = g j) :
    sumTo f k = sumTo g k := by
  induction k with
  | zero => rfl
  | succ k ih => rw [sumTo, sumTo, ih (fun j hj => h j (by omega)), h k (by omega)]

theorem sumTo_indicator (p : Nat → Bool) (k : Nat) :
    sumTo (fun e => if p e then 1 else 0) k = (List.range k).countP p := by
  induction k with
  | zero => rfl
  | succ k ih =>
    rw [sumTo, ih, List.range_succ, List.countP_append]
    cases h : p k <;> simp [List.countP_cons, h]

theorem sumTo_indicator_getD (p : Nat → Bool) (l : List Nat) :
    ∀ k, k ≤ l.length →
      sumTo (fun j => if p (l.getD j 0) then 1 else 0) k = (l.take k).countP p := by
  intro k
  induction k with
  | zero => intro _; rfl
  | succ k ih =>
    intro hk
    have hk' : k < l.length := by omega
    have hget : l.getD k 0 = l[k] := by simp [List.getD, List.getElem?_eq_getElem hk']
    rw [sumTo, ih (by omega), List.take_succ, List.countP_append,
      List.getElem?_eq_getElem hk', hget]
    cases h : p l[k] <;> simp [List.countP_cons, h]

theorem keptCount_add (del : Nat → Bool) (k : Nat) :
    keptCount del k + (List.range k).countP del = k := by
  induction k with
  | zero => rfl
  | succ k ih =>
    rw [keptCount_succ, List.range_succ, List.countP_append]
    cases h : del k <;> simp [List.countP_cons, h] <;> omega

theorem physOrder_length (z : mz_zip_archive) : (physOrder z).length = z.m_total_files := by
  rw [physOrder, sortByKey_length, List.length_range]

theorem physOrder_lt (z : mz_zip_archive) (j : Nat) (hj : j < z.m_total_files) :
    (physOrder z).getD j 0 < z.m_total_files :=
  sortByKey_getD_lt _ _ j hj

theorem physOrder_nodup (z : mz_zip_archive) : (physOrder z).Nodup :=
  sortByKey_nodup _ _

theorem physOrder_surj (z : mz_zip_archive) (e : Nat) (he : e < z.m_total_files) :
    ∃ j, j < z.m_total_files ∧ (physOrder z).getD j 0 = e := by
  have hmem : e ∈ physOrder z :=
    (sortByKey_perm _ _).symm.subset (List.mem_range.2 he)
  obtain ⟨j, hj, hje⟩ := List.getElem_of_mem hmem
  refine ⟨j, by rw [← physOrder_length z]; exact hj, ?_⟩
  simp [List.getD, List.getElem?_eq_getElem hj, hje]

theorem selAt_physOrder (z : mz_zip_archive) (sel : List (List Nat)) (j : Nat)
    (hj : j < z.m_total_files) :
    selAt ((List.range z.m_total_files).map (dirName z)) sel (physOrder z) j
      = selectedEntry z sel ((physOrder z).getD j 0) := by
  unfold selAt selectedEntry
  rw [getD_map_range _ _ _ (physOrder_lt z j hj)]

/-- The classification of `deleteFiles` in terms of the directory: an entry is
tagged `Delete` iff the selection matches it, and `numDel` counts these. -/
theorem entryCmdOf_spec (z : mz_zip_archive) (sel : List (List Nat)) :
    (∀ e, e < z.m_total_files →
      ((entryCmdOf z sel).1 e == EntryCommand.Delete) = selectedEntry z sel e) ∧
    (entryCmdOf z sel).2 = (List.range z.m_total_files).countP (selectedEntry z sel) := by
  obtain ⟨h1, h2⟩ := classify_spec ((List.range z.m_total_files).map (dirName z)) sel
    (physOrder z) (physOrder_nodup z) z.m_total_files (by rw [physOrder_length])
  constructor
  · intro e he
    obtain ⟨j, hj, hje⟩ := physOrder_surj z e he
    have := h2 j hj
    rw [hje] at this
    unfold entryCmdOf
    rw [this, physCmd, selAt_physOrder z sel j hj, hje]
    cases selectedEntry z sel e
    · simp only [Bool.false_eq_true, if_false]
      split <;> rfl
    · rfl
  · unfold entryCmdOf
    rw [h1, delCount]
    have hc : sumTo (fun j => if selAt ((List.range z.m_total_files).map (dirName z)) sel
          (physOrder z) j then 1 else 0) z.m_total_files
        = sumTo (fun j => if selectedEntry z sel ((physOrder z).getD j 0) then 1 else 0)
          z.m_total_files :=
      sumTo_congr _ _ _ (fun j hj => by rw [selAt_physOrder z sel j hj])
    rw [hc]
    have := sumTo_indicator_getD (selectedEntry z sel) (physOrder z) z.m_total_files
      (by rw [physOrder_length])
    rw [this, List.take_of_length_le (by rw [physOrder_length])]
    exact (sortByKey_perm _ _).countP_eq _

theorem dirOK_step_le (z : mz_zip_archive) (h : DirOK z) (i : Nat)
    (hi : i < z.m_total_files) :
    dirOfs z i + recordSpan z i
      ≤ (if i + 1 < z.m_total_files then dirOfs z (i + 1) else z.m_central_dir.m_size) := by
  by_cases h1 : i + 1 < z.m_total_files
  · rw [if_pos h1]; exact h.step i (by omega)
  · rw [if_neg h1]
    have : i = z.m_total_files - 1 := by omega
    rw [this]; exact h.last (by omega)

theorem cdLen_ge (z : mz_zip_archive) (h : DirOK z) (i : Nat) (hi : i < z.m_total_files) :
    recordSpan z i ≤ cdLen z i := by
  have := dirOK_step_le z h i hi
  unfold cdLen; omega

theorem recordSpan_ge (z : mz_zip_archive) (i : Nat) : 46 ≤ recordSpan z i := by
  unfold recordSpan MZ_ZIP_CENTRAL_DIR_HEADER_SIZE; omega

theorem dirOfs_add_cdLen (z : mz_zip_archive) (h : DirOK z) (i : Nat)
    (hi : i < z.m_total_files) :
    dirOfs z i + cdLen z i
      = (if i + 1 < z.m_total_files then dirOfs z (i + 1) else z.m_central_dir.m_size) := by
  have := dirOK_step_le z h i hi
  unfold cdLen; omega

theorem dirOfs_eq_sumTo (z : mz_zip_archive) (h : DirOK z) :
    ∀ i, i < z.m_total_files → dirOfs z i = sumTo (cdLen z) i := by
  intro i
  induction i with
  | zero => intro hi; rw [h.first hi]; rfl
  | succ i ih =>
    intro hi
    have h1 := dirOfs_add_cdLen z h i (by omega)
    rw [if_pos hi] at h1
    rw [sumTo, ← ih (by omega), h1]

theorem sumTo_cdLen_total (z : mz_zip_archive) (h : DirOK z) (hn : 0 < z.m_total_files) :
    sumTo (cdLen z) z.m_total_files = z.m_central_dir.m_size := by
  obtain ⟨m, hm⟩ : ∃ m, z.m_total_files = m + 1 := ⟨z.m_total_files - 1, by omega⟩
  have h1 := dirOfs_add_cdLen z h m (by omega)
  rw [if_neg (by omega)] at h1
  rw [hm, sumTo, ← dirOfs_eq_sumTo z h m (by omega), h1]

theorem dirOfs_le_size (z : mz_zip_archive) (h : DirOK z) (i : Nat)
    (hi : i < z.m_total_files) : dirOfs z i + cdLen z i ≤ z.m_central_dir.m_size := by
  rw [dirOfs_eq_sumTo z h i hi, ← sumTo_cdLen_total z h (by omega)]
  exact sumTo_lt_succ _ hi

theorem entryPos0_lt (z : mz_zip_archive) (i : Nat) (hi : i < z.m_total_files) :
    entryPos0 z i = ⟨dirLfOfs z i, 0, dirOfs z i, 0⟩ := by
  simp [entryPos0, snapshotPos, hi]

/-- The directory columns of `entryPos` after the length derivation. -/
theorem derived_cd (z : mz_zip_archive) (h : DirOK z) (hn : 0 < z.m_total_files)
    (archiveSize : Nat) (i : Nat) (hi : i < z.m_total_files) :
    ((deriveLengths z.m_total_files archiveSize z.m_central_dir.m_size (physOrder z)
      (entryPos0 z)) i).cd_ofs_ = dirOfs z i ∧
    ((deriveLengths z.m_total_files archiveSize z.m_central_dir.m_size (physOrder z)
      (entryPos0 z)) i).cd_len_ = cdLen z i := by
  obtain ⟨h1, h2, _⟩ := deriveLengths_spec z.m_total_files archiveSize z.m_central_dir.m_size
    (physOrder z) (entryPos0 z) hn (physOrder_nodup z) (physOrder_length z)
  have hU : U32 < U64 := by decide
  have hstep := dirOK_step_le z h i hi
  have hsz := h.size_lt
  constructor
  · rw [(h1 i).2, entryPos0_lt z i hi]
  · rw [h2 i hi, entryPos0_lt z i hi]
    by_cases h1 : i + 1 < z.m_total_files
    · rw [if_pos h1, entryPos0_lt z (i + 1) h1]
      rw [if_pos h1] at hstep
      have hs2 := dirOfs_le_size z h (i + 1) h1
      have : dirOfs z (i + 1) < U64 := by omega
      simp only
      rw [sub64_eq _ _ (by omega) this, cdLen, if_pos h1]
    · rw [if_neg h1]
      rw [if_neg h1] at hstep
      simp only
      rw [sub64_eq _ _ (by omega) (by omega), cdLen, if_neg h1]

theorem getD_eq_of_getElem? (p q : List Nat) (i j : Nat) (h : p[i]? = q[j]?) :
    p.getD i 0 = q.getD j 0 := by
  rw [List.getD_eq_getElem?_getD, List.getD_eq_getElem?_getD, h]

theorem recordName_congr (p q : List Nat)
    (h : ∀ i, i < MZ_ZIP_CENTRAL_DIR_HEADER_SIZE +
        min (MZ_READ_LE16 p MZ_ZIP_CDH_FILENAME_LEN_OFS) (MZ_ZIP_MAX_ARCHIVE_FILENAME_SIZE - 1) →
      (i < 42 ∨ 46 ≤ i) → p[i]? = q[i]?) :
    recordName p = recordName q := by
  have c28 : MZ_ZIP_CDH_FILENAME_LEN_OFS = 28 := rfl
  have c46 : MZ_ZIP_CENTRAL_DIR_HEADER_SIZE = 46 := rfl
  rw [c28, c46] at h
  have h16 : MZ_READ_LE16 p 28 = MZ_READ_LE16 q 28 := by
    unfold MZ_READ_LE16
    rw [getD_eq_of_getElem? p q 28 28 (h 28 (by omega) (by omega)),
      getD_eq_of_getElem? p q 29 29 (h 29 (by omega) (by omega))]
  unfold recordName
  rw [c28, c46, ← h16]
  congr 1
  apply slice_eq_of_getElem?
  intro i hi
  exact h _ (by omega) (by omega)

theorem range_filter_succ (p : Nat → Bool) (k : Nat) :
    (List.range (k + 1)).filter p = (List.range k).filter p ++ (if p k then [k] else []) := by
  rw [List.range_succ, List.filter_append]
  cases h : p k <;> simp [List.filter_cons, h]

/-- The names found at the new offsets of the surviving records are the names of
the surviving entries. -/
theorem kept_names (z : mz_zip_archive) (del : Nat → Bool) (cdir2 : List Nat) (hok : DirOK z)
    (hagree : ∀ j, j < z.m_total_files → del j = false → ∀ i, i < cdLen z j →
      (i < 42 ∨ 46 ≤ i) →
      cdir2[keptLen del (cdLen z) j + i]? = z.m_central_dir.m_p[dirOfs z j + i]?) :
    ∀ k, k ≤ z.m_total_files →
      (keptOfs del (cdLen z) k).map (fun o => recordName (cdir2.drop o))
        = ((List.range k).filter (fun e => !del e)).map (dirName z) := by
  intro k
  induction k with
  | zero => intro _; rfl
  | succ k ih =>
    intro hk
    rw [keptOfs, range_filter_succ]
    cases hd : del k
    · simp only [Bool.false_eq_true, if_false, Bool.not_false, if_true, List.map_append,
        List.map_cons, List.map_nil]
      rw [ih (by omega)]
      congr 2
      unfold dirName dirRecord
      refine (recordName_congr _ _ ?_).symm
      intro i hi hrange
      rw [List.getElem?_drop, List.getElem?_drop]
      refine (hagree k (by omega) hd i ?_ hrange).symm
      -- the name lies inside the record
      have h1 := cdLen_ge z hok k (by omega)
      have h2 : recordSpan z k = MZ_ZIP_CENTRAL_DIR_HEADER_SIZE +
          min (MZ_READ_LE16 (z.m_central_dir.m_p.drop (dirOfs z k)) MZ_ZIP_CDH_FILENAME_LEN_OFS)
            (MZ_ZIP_MAX_ARCHIVE_FILENAME_SIZE - 1) := rfl
      omega
    · simp only [if_true, Bool.not_true, Bool.false_eq_true, if_false, List.append_nil]
      exact ih (by omega)

/-- The two compaction passes on a well-formed directory: both return, and the
state `compact` builds from them. -/
theorem compact_weak (s : Zip) (cmd : Nat → EntryCommand) (numDel : Nat)
    (hok : DirOK s.zip_.tomz_zip_archive) (hn : 0 < s.zip_.m_total_files) :
    ∃ st1 st2 s1,
      compactLocal s.zip_.m_total_files (physOrder s.zip_.tomz_zip_archive) cmd
        (deriveLengths s.zip_.m_total_files s.zip_.m_archive_size s.zip_.m_central_dir.m_size
          (physOrder s.zip_.tomz_zip_archive) (entryPos0 s.zip_.tomz_zip_archive))
        s.zip_.m_central_dir.m_p s.zip_.m_central_dir_offsets s.file_ = some st1 ∧
      compactDir s.zip_.m_total_files cmd st1 = some st2 ∧
      compact s s.zip_.m_total_files (physOrder s.zip_.tomz_zip_archive) cmd numDel
        (entryPos0 s.zip_.tomz_zip_archive) = some s1 ∧
      s1.file_ = st2.file ∧ s1.filename_ = s.filename_ ∧ s1.openMode_ = s.openMode_ ∧
      s1.zip_.m_orig_archive_size = s.zip_.m_orig_archive_size ∧
      s1.zip_.m_zip64 = s.zip_.m_zip64 ∧
      s1.zip_.m_archive_size = sub64 s.zip_.m_archive_size st1.delLen ∧
      s1.zip_.m_total_files = sub32 s.zip_.m_total_files numDel ∧
      s1.zip_.m_central_dir_offsets = st2.cdirOfs ∧
      s1.zip_.m_central_dir = ⟨st2.cdir, sub64 s.zip_.m_central_dir.m_size st2.delLen⟩ ∧
      st1.cdir.length = s.zip_.m_central_dir.m_p.length ∧
      (∀ q, (∀ e, e < s.zip_.m_total_files →
          ¬ (dirOfs s.zip_.tomz_zip_archive e + 42 ≤ q ∧
            q < dirOfs s.zip_.tomz_zip_archive e + 46)) →
        st1.cdir[q]? = s.zip_.m_central_dir.m_p[q]?) ∧
      CdInv s.zip_.m_total_files (fun j => cmd j == EntryCommand.Delete)
        (cdLen s.zip_.tomz_zip_archive) st1 st2 ∧
      st2.index = s.zip_.m_total_files := by
  obtain ⟨st1, hst1, hweak, hmov⟩ := compactLocal_weak s.zip_.m_total_files
    (physOrder s.zip_.tomz_zip_archive) cmd
    (deriveLengths s.zip_.m_total_files s.zip_.m_archive_size s.zip_.m_central_dir.m_size
      (physOrder s.zip_.tomz_zip_archive) (entryPos0 s.zip_.tomz_zip_archive))
    s.zip_.m_central_dir.m_p s.zip_.m_central_dir_offsets s.file_
    (fun j hj => physOrder_lt _ j hj)
  have hlen : st1.cdir.length = s.zip_.m_central_dir.m_p.length := hweak.len
  have hcd : ∀ j, j < s.zip_.m_total_files →
      (st1.entryPos j).cd_ofs_ = dirOfs s.zip_.tomz_zip_archive j ∧
      (st1.entryPos j).cd_len_ = cdLen s.zip_.tomz_zip_archive j := by
    intro j hj
    obtain ⟨h1, h2⟩ := derived_cd s.zip_.tomz_zip_archive hok hn s.zip_.m_archive_size j hj
    rw [(hweak.ep j).1, (hweak.ep j).2]
    exact ⟨h1, h2⟩
  have htot := sumTo_cdLen_total s.zip_.tomz_zip_archive hok hn
  obtain ⟨st2, hst2, hinv, hidx⟩ := compactDir_spec s.zip_.m_total_files cmd
    (cdLen s.zip_.tomz_zip_archive) st1
    (by rw [htot]; exact hok.size_lt)
    (by rw [htot, hlen]; exact hok.size_le)
    (by rw [hweak.ofs]; exact hok.capacity)
    (fun j hj => by
      have := cdLen_ge s.zip_.tomz_zip_archive hok j hj
      have := recordSpan_ge s.zip_.tomz_zip_archive j
      omega)
    hmov (fun j hj => (hcd j hj).2)
    (fun j hj => by rw [(hcd j hj).1]; exact dirOfs_eq_sumTo _ hok j hj)
  refine ⟨st1, st2,
    { s with
      file_ := st2.file
      zip_ := { s.zip_ with
        m_archive_size := sub64 s.zip_.m_archive_size st1.delLen
        m_total_files := sub32 s.zip_.m_total_files numDel
        m_central_dir_offsets := st2.cdirOfs
        m_central_dir :=
          { m_p := st2.cdir, m_size := sub64 s.zip_.m_central_dir.m_size st2.delLen } } },
    hst1, hst2, ?_, rfl, rfl, rfl, rfl, rfl, rfl, rfl, rfl, rfl, hlen, ?_, hinv, hidx⟩
  · unfold compact
    simp only
    rw [hst1]
    simp only
    rw [hst2]
  · intro q hq
    apply hweak.out q
    intro e he
    have := (derived_cd s.zip_.tomz_zip_archive hok hn s.zip_.m_archive_size e he).1
    simp only
    rw [this]
    exact hq e he

/-- The method `deleteFiles` on valid arguments in `Update` mode, reduced to
classification and compaction. -/
theorem deleteFiles_eq {P : Type} (norm : P → List Nat) (s : Zip) (names : List P)
    (hmode : s.openMode_ = OpenMode.Update) (hne : names ≠ [])
    (hvalid : ∀ p ∈ names, norm p ≠ []) :
    s.deleteFiles norm names =
      if s.zip_.m_total_files = 0 then some (.ok (), s)
      else if (entryCmdOf s.zip_.tomz_zip_archive (names.map norm)).2 = 0 then some (.ok (), s)
      else
        match compact s s.zip_.m_total_files (physOrder s.zip_.tomz_zip_archive)
            (entryCmdOf s.zip_.tomz_zip_archive (names.map norm)).1
            (entryCmdOf s.zip_.tomz_zip_archive (names.map norm)).2
            (entryPos0 s.zip_.tomz_zip_archive) with
        | none => none
        | some s1 => some (.ok (), s1) := by
  unfold Zip.deleteFiles
  have h1 : ¬ s.openMode_ ≠ OpenMode.Update := by simp [hmode]
  have h2 : ¬ names.length = 0 := by
    intro h; exact hne (List.length_eq_zero.1 h)
  have h3 : (names.any fun p => (norm p).isEmpty) = false := by
    rw [List.any_eq_false]
    intro p hp
    have := hvalid p hp
    simpa [List.isEmpty_iff] using this
  rw [if_neg h1, if_neg h2, h3]
  simp only [Bool.false_eq_true, if_false]
  by_cases hn : s.zip_.m_total_files = 0
  · rw [if_pos hn, if_pos hn]
  · rw [if_neg hn, if_neg hn, snapshot_eq _ _ (Nat.le_refl _)]
    rfl

theorem map_getD_eq (f : Nat → List Nat) (arr l : List Nat)
    (h : ∀ r, r < l.length → arr[r]? = l[r]?) :
    (List.range l.length).map (fun r => f (arr.getD r 0)) = l.map f := by
  apply List.ext_getElem?
  intro r
  by_cases hr : r < l.length
  · rw [List.getElem?_map, List.getElem?_map, List.getElem?_range hr,
      List.getElem?_eq_getElem hr]
    simp only [Option.map_some']
    rw [List.getD_eq_getElem?_getD, h r hr, List.getElem?_eq_getElem hr]
    rfl
  · rw [List.getElem?_eq_none (by simp; omega), List.getElem?_eq_none (by simp; omega)]

theorem windows_disjoint (z : mz_zip_archive) (hok : DirOK z) (j i : Nat)
    (hj : j < z.m_total_files) (hi : i < cdLen z j) (hrange : i < 42 ∨ 46 ≤ i) :
    ∀ e, e < z.m_total_files →
      ¬ (dirOfs z e + 42 ≤ dirOfs z j + i ∧ dirOfs z j + i < dirOfs z e + 46) := by
  intro e he
  have hje := dirOfs_eq_sumTo z hok j hj
  have hee := dirOfs_eq_sumTo z hok e he
  have hce := cdLen_ge z hok e he
  have hse := recordSpan_ge z e
  rcases Nat.lt_trichotomy e j with h | h | h
  · have := sumTo_lt_succ (cdLen z) h
    omega
  · subst h; omega
  · have := sumTo_lt_succ (cdLen z) h
    omega

set_option maxRecDepth 4096 in
theorem demo_dirOK : DirOK demo.zip_.tomz_zip_archive :=
  { capacity := by decide
    count_lt := by decide
    size_le := by decide
    size_lt := by decide
    first := by decide
    step := by decide
    last := by decide }

theorem lfKeepRun_spec (n : Nat) (indices : List Nat) (cmd : Nat → EntryCommand)
    (st0 st : LoopState) (hk : st.index ≤ n)
    (hwr : st.wrPos = sumTo (lfLenAt indices st0) st.index)
    (hlt : sumTo (lfLenAt indices st0) n < U64)
    (hl : ∀ x, (st.entryPos x).lf_len_ = (st0.entryPos x).lf_len_) :
    ∃ k1, st.index ≤ k1 ∧ k1 ≤ n ∧
      lfKeepRun n indices cmd st
        = some { st with index := k1, wrPos := sumTo (lfLenAt indices st0) k1 } ∧
      (∀ j, st.index ≤ j → j < k1 → cmd (indices.getD j 0) = EntryCommand.Keep) ∧
      (k1 < n → cmd (indices.getD k1 0) ≠ EntryCommand.Keep) := by
  have h := whileLoop_spec
    (fun s : LoopState => decide (s.index < n)
      && (cmd (indices.getD s.index 0) == EntryCommand.Keep))
    (fun s => { s with wrPos := add64 s.wrPos (s.entryPos (indices.getD s.index 0)).lf_len_
                       index := s.index + 1 })
    (fun s => ∃ k1, st.index ≤ k1 ∧ k1 ≤ n ∧
      s = { st with index := k1, wrPos := sumTo (lfLenAt indices st0) k1 } ∧
      (∀ j, st.index ≤ j → j < k1 → cmd (indices.getD j 0) = EntryCommand.Keep))
    (fun s => n - s.index)
    (by
      rintro s ⟨k1, h1, h2, rfl, h4⟩ hcond
      simp only [Bool.and_eq_true, decide_eq_true_eq, beq_iff_eq] at hcond
      obtain ⟨hlt1, hdel⟩ := hcond
      refine ⟨⟨k1 + 1, by omega, by omega, ?_, ?_⟩, by simp only; omega⟩
      · have hle := sumTo_mono (lfLenAt indices st0) (show k1 + 1 ≤ n by omega)
        rw [sumTo] at hle
        have hL : lfLenAt indices st0 k1 = (st0.entryPos (indices.getD k1 0)).lf_len_ := rfl
        simp only [hl, sumTo]
        rw [add64_eq _ _ (by omega), hL]
      · intro j hj1 hj2
        by_cases hj : j = k1
        · subst hj; exact hdel
        · exact h4 j hj1 (by omega))
    (n + 1) st ⟨st.index, Nat.le_refl _, hk, by rw [← hwr], fun j h1 h2 => by omega⟩
    (by simp only; omega)
  obtain ⟨r, hr, ⟨k1, h1, h2, rfl, h4⟩, hcond⟩ := h
  refine ⟨k1, h1, h2, hr, h4, ?_⟩
  intro hlt1 hdel
  have hc' : (decide (k1 < n) && (cmd (indices.getD k1 0) == EntryCommand.Keep)) = false :=
    hcond
  rw [hdel] at hc'
  simp [hlt1] at hc'

theorem lfDeleteRun_spec (n : Nat) (indices : List Nat) (cmd : Nat → EntryCommand)
    (st0 st : LoopState) (hk : st.index ≤ n)
    (hrd : st.rdPos = sumTo (lfLenAt indices st0) st.index)
    (hlt : sumTo (lfLenAt indices st0) n < U64)
    (hl : ∀ x, (st.entryPos x).lf_len_ = (st0.entryPos x).lf_len_) :
    ∃ k1, st.index ≤ k1 ∧ k1 ≤ n ∧
      lfDeleteRun n indices cmd st
        = some { st with index := k1, rdPos := sumTo (lfLenAt indices st0) k1 } ∧
      (∀ j, st.index ≤ j → j < k1 → cmd (indices.getD j 0) = EntryCommand.Delete) ∧
      (k1 < n → cmd (indices.getD k1 0) ≠ EntryCommand.Delete) := by
  have h := whileLoop_spec
    (fun s : LoopState => decide (s.index < n)
      && (cmd (indices.getD s.index 0) == EntryCommand.Delete))
    (fun s => { s with rdPos := add64 s.rdPos (s.entryPos (indices.getD s.index 0)).lf_len_
                       index := s.index + 1 })
    (fun s => ∃ k1, st.index ≤ k1 ∧ k1 ≤ n ∧
      s = { st with index := k1, rdPos := sumTo (lfLenAt indices st0) k1 } ∧
      (∀ j, st.index ≤ j → j < k1 → cmd (indices.getD j 0) = EntryCommand.Delete))
    (fun s => n - s.index)
    (by
      rintro s ⟨k1, h1, h2, rfl, h4⟩ hcond
      simp only [Bool.and_eq_true, decide_eq_true_eq, beq_iff_eq] at hcond
      obtain ⟨hlt1, hdel⟩ := hcond
      refine ⟨⟨k1 + 1, by omega, by omega, ?_, ?_⟩, by simp only; omega⟩
      · have hle := sumTo_mono (lfLenAt indices st0) (show k1 + 1 ≤ n by omega)
        rw [sumTo] at hle
        have hL : lfLenAt indices st0 k1 = (st0.entryPos (indices.getD k1 0)).lf_len_ := rfl
        simp only [hl, sumTo]
        rw [add64_eq _ _ (by omega), hL]
      · intro j hj1 hj2
        by_cases hj : j = k1
        · subst hj; exact hdel
        · exact h4 j hj1 (by omega))
    (n + 1) st ⟨st.index, Nat.le_refl _, hk, by rw [← hrd], fun j h1 h2 => by omega⟩
    (by simp only; omega)
  obtain ⟨r, hr, ⟨k1, h1, h2, rfl, h4⟩, hcond⟩ := h
  refine ⟨k1, h1, h2, hr, h4, ?_⟩
  intro hlt1 hdel
  have hc' : (decide (k1 < n) && (cmd (indices.getD k1 0) == EntryCommand.Delete)) = false :=
    hcond
  rw [hdel] at hc'
  simp [hlt1] at hc'

theorem lfMoveStep_cdir (indices : List Nat) (s : LoopState) :
    (lfMoveStep indices s).cdir =
      MZ_WRITE_LE32 s.cdir ((s.entryPos (indices.getD s.index 0)).cd_ofs_ + 42)
        (sub64 (s.entryPos (indices.getD s.index 0)).lf_ofs_ s.delLen) := by
  simp [lfMoveStep, Function.update_same, MZ_ZIP_CDH_LOCAL_HEADER_OFS]

theorem lfMoveStep_entryPos (indices : List Nat) (s : LoopState) (x : Nat) :
    ((lfMoveStep indices s).entryPos x).lf_len_ = (s.entryPos x).lf_len_ ∧
    ((lfMoveStep indices s).entryPos x).cd_ofs_ = (s.entryPos x).cd_ofs_ ∧
    ((lfMoveStep indices s).entryPos x).cd_len_ = (s.entryPos x).cd_len_ ∧
    (x ≠ indices.getD s.index 0 →
      ((lfMoveStep indices s).entryPos x).lf_ofs_ = (s.entryPos x).lf_ofs_) := by
  simp only [lfMoveStep]
  by_cases h : x = indices.getD s.index 0
  · subst h; simp [Function.update_same]
  · simp [Function.update_noteq h, h]

theorem lfMoveStep_inv (n : Nat) (indices : List Nat) (cmd : Nat → EntryCommand)
    (st0 s1 s : LoopState) (H : LfHyp n indices cmd st0)
    (hd : s1.delLen = goneLen (lfDelAt indices cmd) (lfLenAt indices st0) s1.index)
    (h : LfMoveInv n indices cmd st0 s1 s) (hi : s.index < n)
    (hc : cmd (indices.getD s.index 0) = EntryCommand.Move) :
    LfMoveInv n indices cmd st0 s1 (lfMoveStep indices s) := by
  have hrunD : ∀ j, s1.index ≤ j → j < s.index → lfDelAt indices cmd j = false := by
    intro j h1 h2
    unfold lfDelAt
    rw [h.run j h1 h2]; rfl
  have hg := goneLen_of_run (lfDelAt indices cmd) (lfLenAt indices st0) s1.index s.index
    h.lo hrunD
  have hkg := kept_add_gone (lfDelAt indices cmd) (lfLenAt indices st0) s.index
  have hle := sumTo_mono (lfLenAt indices st0) (show s.index + 1 ≤ n from hi)
  rw [sumTo] at hle
  have htile : lfOfsAt indices st0 s.index
      = lfOfsAt indices st0 0 + sumTo (lfLenAt indices st0) s.index := H.tile s.index hi
  have hbound : lfOfsAt indices st0 0 + sumTo (lfLenAt indices st0) n < U64 := H.bound
  have hL : (s.entryPos (indices.getD s.index 0)).lf_len_ = lfLenAt indices st0 s.index :=
    (h.epl _).1
  have hO : (s.entryPos (indices.getD s.index 0)).lf_ofs_ = lfOfsAt indices st0 s.index :=
    h.epo s.index (Nat.le_refl _) hi
  have hval : sub64 (s.entryPos (indices.getD s.index 0)).lf_ofs_ s.delLen
      = lfOfsAt indices st0 s.index
        - goneLen (lfDelAt indices cmd) (lfLenAt indices st0) s.index := by
    rw [hO, h.dl, hd, ← hg, sub64_eq _ _ (by omega) (by omega)]
  have he := H.idx s.index hi
  constructor
  · show s1.index ≤ s.index + 1
    have := h.lo; omega
  · show s.index + 1 ≤ n
    omega
  · exact h.wr
  · exact h.rd
  · exact h.dl
  · exact h.file
  · show add64 s.movLen (s.entryPos (indices.getD s.index 0)).lf_len_ + _ = sumTo _ (s.index + 1)
    have := h.mov
    rw [hL, add64_eq _ _ (by omega), sumTo]
    omega
  · intro j h1 h2
    have h2' : j < s.index + 1 := h2
    by_cases hj : j = s.index
    · subst hj; exact hc
    · exact h.run j h1 (by omega)
  · rw [lfMoveStep_cdir, length_MZ_WRITE_LE32]; exact h.len
  · intro x
    obtain ⟨a1, a2, _, _⟩ := lfMoveStep_entryPos indices s x
    rw [a1, a2]; exact h.epl x
  · intro j h1 h2
    have h1' : s.index + 1 ≤ j := h1
    have hne := H.inj j s.index h2 hi (by omega)
    rw [(lfMoveStep_entryPos indices s _).2.2.2 hne]
    exact h.epo j (by omega) h2
  · intro j hj i hi4
    have hidx1 : (lfMoveStep indices s).index = s.index + 1 := rfl
    rw [lfMoveStep_cdir, hval, hidx1, (h.epl _).2]
    by_cases hjk : j = s.index
    · subst hjk
      have hwin := H.win _ he
      rw [getElem?_MZ_WRITE_LE32 s.cdir _ _ i (by rw [h.len]; omega) hi4,
        if_pos ⟨h.lo, Nat.lt_succ_self _⟩]
    · have hne := H.inj j s.index hj hi hjk
      have hdis := H.disj _ _ (H.idx j hj) he hne
      rw [getElem?_MZ_WRITE_LE32_of_not_mem _ _ _ _ (by omega), h.patch j hj i hi4]
      by_cases hcnd : s1.index ≤ j ∧ j < s.index
      · rw [if_pos hcnd, if_pos ⟨hcnd.1, by omega⟩]
      · rw [if_neg hcnd, if_neg (by omega)]

theorem lfMoveRun_spec (n : Nat) (indices : List Nat) (cmd : Nat → EntryCommand)
    (st0 s1 : LoopState) (H : LfHyp n indices cmd st0)
    (hd : s1.delLen = goneLen (lfDelAt indices cmd) (lfLenAt indices st0) s1.index)
    (h : LfMoveInv n indices cmd st0 s1 s1) :
    ∃ r, lfMoveRun n indices cmd s1 = some r ∧ LfMoveInv n indices cmd st0 s1 r ∧
      (r.index < n → cmd (indices.getD r.index 0) ≠ EntryCommand.Move) := by
  have hw := whileLoop_spec
    (fun s : LoopState => decide (s.index < n)
      && (cmd (indices.getD s.index 0) == EntryCommand.Move))
    (lfMoveStep indices)
    (fun s => LfMoveInv n indices cmd st0 s1 s)
    (fun s => n - s.index)
    (by
      intro s hs hcond
      simp only [Bool.and_eq_true, decide_eq_true_eq, beq_iff_eq] at hcond
      refine ⟨lfMoveStep_inv n indices cmd st0 s1 s H hd hs hcond.1 hcond.2, ?_⟩
      show n - (s.index + 1) < n - s.index
      omega)
    (n + 1) s1 h (by simp only; omega)
  obtain ⟨r, hr, hinv, hcond⟩ := hw
  refine ⟨r, hr, hinv, ?_⟩
  intro hlt1 hmv
  have hc' : (decide (r.index < n) && (cmd (indices.getD r.index 0) == EntryCommand.Move))
      = false := hcond
  rw [hmv] at hc'
  simp [hlt1] at hc'

theorem lfFile_move (indices : List Nat) (cmd : Nat → EntryCommand) (st0 : LoopState)
    (file : FStream) (n k k1 k2 mov : Nat) (hk : k ≤ k1) (hk1 : k1 ≤ k2) (hk2 : k2 ≤ n)
    (hsz : sumTo (lfLenAt indices st0) n ≤ st0.file.bytes.length)
    (hdel : ∀ j, k ≤ j → j < k1 → lfDelAt indices cmd j = true)
    (hrun : ∀ j, k1 ≤ j → j < k2 → lfDelAt indices cmd j = false)
    (hmov : mov + sumTo (lfLenAt indices st0) k1 = sumTo (lfLenAt indices st0) k2)
    (hF : LfFile indices cmd st0 file k) :
    LfFile indices cmd st0
      (iosmove file (keptLen (lfDelAt indices cmd) (lfLenAt indices st0) k1)
        (sumTo (lfLenAt indices st0) k1) mov) k2 := by
  obtain ⟨hW, _, _⟩ := keptLen_of_gone (lfDelAt indices cmd) (lfLenAt indices st0) k k1 hk hdel
  have hkg1 := kept_add_gone (lfDelAt indices cmd) (lfLenAt indices st0) k1
  have hK := keptLen_of_run (lfDelAt indices cmd) (lfLenAt indices st0) k1 k2 hk1 hrun
  have hRn2 := sumTo_mono (lfLenAt indices st0) hk2
  have hRk := sumTo_mono (lfLenAt indices st0) hk
  have hlen := hF.len
  have hbelow : ∀ j, j < k1 → lfDelAt indices cmd j = false → j < k := by
    intro j h1 h2
    by_contra h3
    have := hdel j (by omega) h1
    rw [h2] at this; cases this
  rw [iosmove_eq file _ _ _ hF.ok (by omega) (by rw [hlen]; omega)]
  constructor
  · rfl
  · show (memmove _ _ _ _).length = _
    rw [length_memmove _ _ _ _ (by rw [hlen]; omega) (by rw [hlen]; omega), hlen]
  · intro j hj hd i hi
    show (memmove _ _ _ _)[_]? = _
    rw [getElem?_memmove _ _ _ _ (by rw [hlen]; omega) (by rw [hlen]; omega)]
    by_cases hjk : j < k1
    · have hjs := hbelow j hjk hd
      have hb := keptLen_lt_succ (lfDelAt indices cmd) (lfLenAt indices st0) hjs hd
      rw [if_neg (by rw [hW]; omega)]
      exact hF.kept j hjs hd i hi
    · have hKj := keptLen_of_run (lfDelAt indices cmd) (lfLenAt indices st0) k1 j (by omega)
        (fun t h1 h2 => hrun t h1 (by omega))
      have hb := keptLen_lt_succ (lfDelAt indices cmd) (lfLenAt indices st0) hj hd
      have hRj := sumTo_mono (lfLenAt indices st0) (show k1 ≤ j by omega)
      rw [if_pos (by omega), ← hF.rest (sumTo (lfLenAt indices st0) j + i) (by omega)]
      congr 1; omega
  · intro q hq
    show (memmove _ _ _ _)[q]? = _
    rw [getElem?_memmove _ _ _ _ (by rw [hlen]; omega) (by rw [hlen]; omega),
      if_neg (by omega)]
    exact hF.rest q (by omega)

theorem lfFile_skip (indices : List Nat) (cmd : Nat → EntryCommand) (st0 : LoopState)
    (file : FStream) (k k1 k2 : Nat) (hk : k ≤ k1)
    (hdel : ∀ j, k ≤ j → j < k1 → lfDelAt indices cmd j = true)
    (hzero : sumTo (lfLenAt indices st0) k1 = sumTo (lfLenAt indices st0) k2)
    (hF : LfFile indices cmd st0 file k) :
    LfFile indices cmd st0 file k2 := by
  have hRk := sumTo_mono (lfLenAt indices st0) hk
  refine ⟨hF.ok, hF.len, ?_, ?_⟩
  · intro j hj hd i hi
    by_cases hjk : j < k
    · exact hF.kept j hjk hd i hi
    · exfalso
      by_cases hj1 : j < k1
      · have := hdel j (by omega) hj1
        rw [hd] at this; cases this
      · have h1 := sumTo_lt_succ (lfLenAt indices st0) hj
        have h2 := sumTo_mono (lfLenAt indices st0) (show k1 ≤ j by omega)
        omega
  · intro q hq
    exact hF.rest q (by omega)


theorem lfInv_patch_step (n : Nat) (indices : List Nat) (cmd : Nat → EntryCommand)
    (st0 st r : LoopState) (k1 : Nat) (hk : st.index ≤ k1) (hk1 : k1 ≤ r.index)
    (hpatch : ∀ j, j < n → ∀ i, i < 4 →
      st.cdir[(st0.entryPos (indices.getD j 0)).cd_ofs_ + 42 + i]? =
        if j < st.index ∧ cmd (indices.getD j 0) = EntryCommand.Move then
          (le32 (lfOfsAt indices st0 j
            - goneLen (lfDelAt indices cmd) (lfLenAt indices st0) j))[i]?
        else st0.cdir[(st0.entryPos (indices.getD j 0)).cd_ofs_ + 42 + i]?)
    (hdel : ∀ j, st.index ≤ j → j < k1 → cmd (indices.getD j 0) = EntryCommand.Delete)
    (hrun : ∀ j, k1 ≤ j → j < r.index → cmd (indices.getD j 0) = EntryCommand.Move)
    (hr : ∀ j, j < n → ∀ i, i < 4 →
      r.cdir[(st0.entryPos (indices.getD j 0)).cd_ofs_ + 42 + i]? =
        if k1 ≤ j ∧ j < r.index then
          (le32 (lfOfsAt indices st0 j
            - goneLen (lfDelAt indices cmd) (lfLenAt indices st0) j))[i]?
        else st.cdir[(st0.entryPos (indices.getD j 0)).cd_ofs_ + 42 + i]?) :
    ∀ j, j < n → ∀ i, i < 4 →
      r.cdir[(st0.entryPos (indices.getD j 0)).cd_ofs_ + 42 + i]? =
        if j < r.index ∧ cmd (indices.getD j 0) = EntryCommand.Move then
          (le32 (lfOfsAt indices st0 j
            - goneLen (lfDelAt indices cmd) (lfLenAt indices st0) j))[i]?
        else st0.cdir[(st0.entryPos (indices.getD j 0)).cd_ofs_ + 42 + i]? := by
  intro j hj i hi
  rw [hr j hj i hi]
  by_cases h1 : k1 ≤ j ∧ j < r.index
  · rw [if_pos h1, if_pos ⟨h1.2, hrun j h1.1 h1.2⟩]
  · rw [if_neg h1, hpatch j hj i hi]
    by_cases h2 : j < st.index
    · by_cases h3 : cmd (indices.getD j 0) = EntryCommand.Move
      · rw [if_pos ⟨h2, h3⟩, if_pos ⟨by omega, h3⟩]
      · rw [if_neg (fun h => h3 h.2), if_neg (fun h => h3 h.2)]
    · rw [if_neg (fun h => h2 h.1)]
      by_cases h4 : j < k1
      · have := hdel j (by omega) h4
        rw [if_neg (fun h => by rw [this] at h; cases h.2)]
      · rw [if_neg (fun h => h1 ⟨by omega, h.1⟩)]

/-- One iteration of the outer loop of the local-data compaction. -/
theorem lfBody_spec (n : Nat) (indices : List Nat) (cmd : Nat → EntryCommand)
    (st0 st : LoopState) (H : LfHyp n indices cmd st0)
    (h : LfInv n indices cmd st0 st) :
    ∃ s1 b, lfBody n indices cmd st = some (s1, b) ∧
      ((b = true ∨ decide (s1.index < n) = false) →
        LfInv n indices cmd st0 s1 ∧ s1.index = n) ∧
      (b = false → decide (s1.index < n) = true →
        LfInv n indices cmd st0 s1 ∧ n - s1.index < n - st.index) := by
  have hlt : sumTo (lfLenAt indices st0) n < U64 := by
    have := H.bound
    show sumTo (fun t => (st0.entryPos (indices.getD t 0)).lf_len_) n < U64
    omega
  obtain ⟨k1, hk1, hk1n, hrun1, hdel1, hstop1⟩ :=
    lfDeleteRun_spec n indices cmd st0 st h.idx h.rd hlt (fun x => (h.epl x).1)
  have hdel1' : ∀ j, st.index ≤ j → j < k1 → lfDelAt indices cmd j = true := by
    intro j h1 h2
    unfold lfDelAt
    rw [hdel1 j h1 h2]; rfl
  obtain ⟨hW, _, _⟩ := keptLen_of_gone (lfDelAt indices cmd) (lfLenAt indices st0) st.index k1
    hk1 hdel1'
  have hkg1 := kept_add_gone (lfDelAt indices cmd) (lfLenAt indices st0) k1
  have hRn1 := sumTo_mono (lfLenAt indices st0) hk1n
  have hdl : sub64 (sumTo (lfLenAt indices st0) k1) st.wrPos
      = goneLen (lfDelAt indices cmd) (lfLenAt indices st0) k1 := by
    rw [h.wr, ← hW, sub64_eq _ _ (by omega) (by omega)]
    omega
  obtain ⟨r, hrun2, hinv, hstop2⟩ := lfMoveRun_spec n indices cmd st0
    { st with index := k1, rdPos := sumTo (lfLenAt indices st0) k1
              delLen := sub64 (sumTo (lfLenAt indices st0) k1) st.wrPos }
    H hdl
    { lo := Nat.le_refl _
      hi := hk1n
      wr := rfl
      rd := rfl
      dl := rfl
      file := rfl
      mov := by
        show st.movLen + sumTo (lfLenAt indices st0) k1 = sumTo (lfLenAt indices st0) k1
        rw [h.mov]; omega
      run := fun j h1 h2 => by
        have h1' : k1 ≤ j := h1
        have h2' : j < k1 := h2
        omega
      len := h.len
      epl := h.epl
      epo := fun j h1 h2 => h.epo j (by have h1' : k1 ≤ j := h1; omega) h2
      patch := fun j hj i hi => by
        rw [if_neg (fun hc => by
          have h1' : k1 ≤ j := hc.1
          have h2' : j < k1 := hc.2
          omega)] }
  have hlo : k1 ≤ r.index := hinv.lo
  have hmov : r.movLen + sumTo (lfLenAt indices st0) k1
      = sumTo (lfLenAt indices st0) r.index := hinv.mov
  have hrunM : ∀ j, k1 ≤ j → j < r.index → cmd (indices.getD j 0) = EntryCommand.Move :=
    hinv.run
  have hrunD : ∀ j, k1 ≤ j → j < r.index → lfDelAt indices cmd j = false := by
    intro j h1 h2
    unfold lfDelAt
    rw [hrunM j h1 h2]; rfl
  have hG := goneLen_of_run (lfDelAt indices cmd) (lfLenAt indices st0) k1 r.index hlo hrunD
  have hK := keptLen_of_run (lfDelAt indices cmd) (lfLenAt indices st0) k1 r.index hlo hrunD
  have hRn2 := sumTo_mono (lfLenAt indices st0) hinv.hi
  have hwr : r.wrPos = keptLen (lfDelAt indices cmd) (lfLenAt indices st0) k1 := by
    rw [hinv.wr]; show st.wrPos = _; rw [h.wr, hW]
  have hrd : r.rdPos = sumTo (lfLenAt indices st0) k1 := hinv.rd
  have hdl2 : r.delLen = goneLen (lfDelAt indices cmd) (lfLenAt indices st0) r.index := by
    rw [hinv.dl, hG]; exact hdl
  have hfile : r.file = st.file := hinv.file
  have hnokeep : ∀ j, r.index ≤ j → j < n → cmd (indices.getD j 0) ≠ EntryCommand.Keep :=
    fun j h1 h2 => h.nokeep j (by omega) h2
  have hpatch := lfInv_patch_step n indices cmd st0 st r k1 hk1 hlo h.patch hdel1 hrunM
    hinv.patch
  by_cases hm : r.movLen = 0
  · -- the loop is left through `break`
    have hn1 : r.index = n := by
      by_contra hne
      have hl : r.index < n := by have := hinv.hi; omega
      have hnm := hstop2 hl
      have hnk := hnokeep r.index (Nat.le_refl _) hl
      have hdel : cmd (indices.getD r.index 0) = EntryCommand.Delete := by
        cases hc : cmd (indices.getD r.index 0)
        · exact absurd hc hnk
        · rfl
        · exact absurd hc hnm
      by_cases heq : r.index = k1
      · rw [heq] at hdel hl
        exact hstop1 hl hdel
      · have h1 := sumTo_lt_succ (lfLenAt indices st0) (show k1 < r.index by omega)
        have h2 := H.pos k1 (by omega)
        have h3 : lfLenAt indices st0 k1 = (st0.entryPos (indices.getD k1 0)).lf_len_ := rfl
        omega
    refine ⟨r, true, ?_, ?_, fun hb => by cases hb⟩
    · unfold lfBody
      rw [hrun1]
      simp only
      rw [hrun2]
      simp only [hm, if_true]
    · intro _
      refine ⟨?_, hn1⟩
      exact
        { idx := hinv.hi
          nokeep := hnokeep
          mov := hm
          rd := by rw [hrd]; omega
          wr := by rw [hwr]; omega
          dl := hdl2
          len := hinv.len
          epl := hinv.epl
          epo := hinv.epo
          patch := hpatch
          fok := fun hf hsz => by
            rw [hfile]
            exact lfFile_skip indices cmd st0 st.file st.index k1 r.index hk1 hdel1'
              (by omega) (h.fok hf hsz) }
  · -- the run is moved and the loop goes on
    have hk : k1 < r.index := by
      by_contra hne
      have : r.index = k1 := by omega
      rw [this] at hmov; omega
    have hinvN : LfInv n indices cmd st0
        { r with
          file := iosmove r.file r.wrPos r.rdPos r.movLen
          wrPos := add64 r.wrPos r.movLen
          rdPos := add64 r.rdPos r.movLen
          movLen := 0 } :=
      { idx := hinv.hi
        nokeep := hnokeep
        mov := rfl
        rd := by
          show add64 r.rdPos r.movLen = sumTo _ r.index
          rw [hrd, add64_eq _ _ (by omega)]; omega
        wr := by
          show add64 r.wrPos r.movLen = keptLen _ _ r.index
          rw [hwr, add64_eq _ _ (by omega)]; omega
        dl := hdl2
        len := hinv.len
        epl := hinv.epl
        epo := hinv.epo
        patch := hpatch
        fok := fun hf hsz => by
          show LfFile indices cmd st0 (iosmove r.file r.wrPos r.rdPos r.movLen) r.index
          rw [hfile, hwr, hrd]
          exact lfFile_move indices cmd st0 st.file n st.index k1 r.index r.movLen hk1 hlo
            hinv.hi hsz hdel1' hrunD hmov (h.fok hf hsz) }
    refine ⟨{ r with
          file := iosmove r.file r.wrPos r.rdPos r.movLen
          wrPos := add64 r.wrPos r.movLen
          rdPos := add64 r.rdPos r.movLen
          movLen := 0 }, false, ?_, ?_, ?_⟩
    · unfold lfBody
      rw [hrun1]
      simp only
      rw [hrun2]
      simp only [hm, if_false]
    · intro hb
      rcases hb with hb | hb
      · cases hb
      · refine ⟨hinvN, ?_⟩
        have hb' : ¬ r.index < n := by simpa using hb
        have := hinv.hi
        show r.index = n
        omega
    · intro _ _
      refine ⟨hinvN, ?_⟩
      show n - r.index < n - st.index
      have := hinv.hi
      omega

theorem compactLocal_spec_aux (n : Nat) (indices : List Nat) (cmd : Nat → EntryCommand)
    (st0 : LoopState) (H : LfHyp n indices cmd st0) (hi0 : st0.index = 0)
    (hw0 : st0.wrPos = 0) (hd0 : st0.delLen = 0) (hm0 : st0.movLen = 0) :
    ∃ st1, (match lfKeepRun n indices cmd st0 with
      | none => none
      | some st1 =>
        doWhile (lfBody n indices cmd) (fun st => decide (st.index < n)) (n + 1)
          { st1 with rdPos := st1.wrPos }) = some st1 ∧
      LfInv n indices cmd st0 st1 ∧ st1.index = n := by
  have hlt : sumTo (lfLenAt indices st0) n < U64 := by
    have := H.bound
    show sumTo (fun t => (st0.entryPos (indices.getD t 0)).lf_len_) n < U64
    omega
  obtain ⟨k0, _, hk0n, hrunK, hkeep, hstop⟩ := lfKeepRun_spec n indices cmd st0 st0
    (by rw [hi0]; exact Nat.zero_le _) (by rw [hw0, hi0]; rfl) hlt (fun _ => rfl)
  have hkeep' : ∀ j, j < k0 → cmd (indices.getD j 0) = EntryCommand.Keep :=
    fun j hj => hkeep j (by rw [hi0]; exact Nat.zero_le _) hj
  have hnodel : ∀ j, 0 ≤ j → j < k0 → lfDelAt indices cmd j = false := by
    intro j _ hj
    unfold lfDelAt
    rw [hkeep' j hj]; rfl
  have hKW : ∀ j, j ≤ k0 → keptLen (lfDelAt indices cmd) (lfLenAt indices st0) j
      = sumTo (lfLenAt indices st0) j := by
    intro j hj
    have := keptLen_of_run (lfDelAt indices cmd) (lfLenAt indices st0) 0 j (Nat.zero_le _)
      (fun t h1 h2 => hnodel t h1 (by omega))
    simp only [keptLen, sumTo] at this ⊢
    omega
  have hG0 := goneLen_of_run (lfDelAt indices cmd) (lfLenAt indices st0) 0 k0 (Nat.zero_le _)
    hnodel
  have hinit : LfInv n indices cmd st0
      { st0 with index := k0, wrPos := sumTo (lfLenAt indices st0) k0
                 rdPos := sumTo (lfLenAt indices st0) k0 } :=
    { idx := hk0n
      nokeep := by
        intro j h1 h2 hc
        have h1' : k0 ≤ j := h1
        by_cases hj : j = k0
        · subst hj; exact hstop h2 hc
        · exact hstop (by omega) (H.keep j h2 hc k0 (by omega))
      mov := hm0
      rd := rfl
      wr := (hKW k0 (Nat.le_refl _)).symm
      dl := by
        show st0.delLen = _
        rw [hd0, hG0]; rfl
      len := rfl
      epl := fun _ => ⟨rfl, rfl⟩
      epo := fun _ _ _ => rfl
      patch := by
        intro j hj i hi
        rw [if_neg]
        rintro ⟨h1, h2⟩
        have h1' : j < k0 := h1
        rw [hkeep' j h1'] at h2
        cases h2
      fok := fun hf _ =>
        { ok := hf
          len := rfl
          kept := by
            intro j hj _ i _
            have hj' : j < k0 := hj
            rw [hKW j (by omega)]
          rest := fun _ _ => rfl } }
  have hd := doWhile_spec (lfBody n indices cmd) (fun s => decide (s.index < n))
    (fun s => LfInv n indices cmd st0 s)
    (fun s => LfInv n indices cmd st0 s ∧ s.index = n)
    (fun s => n - s.index)
    (fun s hs => lfBody_spec n indices cmd st0 s H hs)
    (n + 1) _ hinit (by simp only; omega)
  obtain ⟨r, hr, hpost⟩ := hd
  refine ⟨r, ?_, hpost⟩
  rw [hrunK]
  exact hr

/-- The local-data compaction under the assumptions `LfHyp`: it returns with all
entries processed and the invariant `LfInv` established. -/
theorem compactLocal_spec (n : Nat) (indices : List Nat) (cmd : Nat → EntryCommand)
    (entryPos : Nat → EntryPosition) (cdir : List Nat) (cdirOfs : mz_zip_array)
    (file : FStream)
    (H : LfHyp n indices cmd
      { index := 0, wrPos := 0, rdPos := 0, delLen := 0, movLen := 0
        entryPos := entryPos, cdir := cdir, cdirOfs := cdirOfs, file := file }) :
    ∃ st1, compactLocal n indices cmd entryPos cdir cdirOfs file = some st1 ∧
      LfInv n indices cmd
        { index := 0, wrPos := 0, rdPos := 0, delLen := 0, movLen := 0
          entryPos := entryPos, cdir := cdir, cdirOfs := cdirOfs, file := file } st1 ∧
      st1.index = n := by
  unfold compactLocal
  exact compactLocal_spec_aux n indices cmd _ H rfl rfl rfl rfl

theorem getD_eq_getElem (l : List Nat) {j : Nat} (hj : j < l.length) :
    l.getD j 0 = l[j] := by
  simp [List.getD, List.getElem?_eq_getElem hj]

theorem sortByKey_getD_le (key : Nat → Nat) (l : List Nat) {i j : Nat} (hij : i < j)
    (hj : j < l.length) :
    key ((sortByKey key l).getD i 0) ≤ key ((sortByKey key l).getD j 0) := by
  have hs := sortByKey_sorted key l
  have hlen := sortByKey_length key l
  generalize sortByKey key l = L at hs hlen
  rw [getD_eq_getElem L (by omega), getD_eq_getElem L (by omega)]
  exact List.pairwise_iff_getElem.1 hs i j (by omega) (by omega) hij

theorem physOfs_le (z : mz_zip_archive) {i j : Nat} (hij : i < j) (hj : j < z.m_total_files) :
    physOfs z i ≤ physOfs z j := by
  have h := sortByKey_getD_le (fun i => (entryPos0 z i).lf_ofs_) (List.range z.m_total_files)
    hij (by rw [List.length_range]; exact hj)
  have e1 := entryPos0_lt z _ (physOrder_lt z i (by omega))
  have e2 := entryPos0_lt z _ (physOrder_lt z j hj)
  have h' : (entryPos0 z ((physOrder z).getD i 0)).lf_ofs_
      ≤ (entryPos0 z ((physOrder z).getD j 0)).lf_ofs_ := h
  rw [e1, e2] at h'
  exact h'

theorem physOfs_lt (z : mz_zip_archive) (hl : LocalOK z) {i j : Nat} (hij : i < j)
    (hj : j < z.m_total_files) : physOfs z i < physOfs z j := by
  have h1 := physOfs_le z hij hj
  have hne : (physOrder z).getD i 0 ≠ (physOrder z).getD j 0 :=
    nodup_getD_ne _ (physOrder_nodup z) (by rw [physOrder_length]; omega)
      (by rw [physOrder_length]; omega) (by omega)
  have h2 := hl.distinct _ (physOrder_lt z i (by omega)) _ (physOrder_lt z j hj) hne
  unfold physOfs at h1 ⊢
  omega

theorem physOfs_add_physLen (z : mz_zip_archive) (hl : LocalOK z) (k : Nat)
    (hk : k < z.m_total_files) :
    physOfs z k + physLen z k
      = (if k + 1 < z.m_total_files then physOfs z (k + 1) else z.m_archive_size) := by
  unfold physLen
  by_cases h : k + 1 < z.m_total_files
  · rw [if_pos h]
    have := physOfs_le z (show k < k + 1 by omega) h
    omega
  · rw [if_neg h]
    have := hl.inside _ (physOrder_lt z k hk)
    unfold physOfs
    omega

theorem physOfs_tile (z : mz_zip_archive) (hl : LocalOK z) :
    ∀ k, k < z.m_total_files → physOfs z k = physOfs z 0 + sumTo (physLen z) k := by
  intro k
  induction k with
  | zero => intro _; rfl
  | succ k ih =>
    intro hk
    have h1 := physOfs_add_physLen z hl k (by omega)
    rw [if_pos hk] at h1
    rw [sumTo, ← h1, ih (by omega)]
    omega

theorem physOfs_total (z : mz_zip_archive) (hl : LocalOK z) (hn : 0 < z.m_total_files) :
    physOfs z 0 + sumTo (physLen z) z.m_total_files = z.m_archive_size := by
  obtain ⟨m, hm⟩ : ∃ m, z.m_total_files = m + 1 := ⟨z.m_total_files - 1, by omega⟩
  have h1 := physOfs_add_physLen z hl m (by omega)
  rw [if_neg (by omega)] at h1
  have h2 := physOfs_tile z hl m (by omega)
  rw [hm, sumTo]
  omega

theorem physLen_pos (z : mz_zip_archive) (hl : LocalOK z) (k : Nat)
    (hk : k + 1 < z.m_total_files) : 0 < physLen z k := by
  have h1 := physOfs_lt z hl (show k < k + 1 by omega) hk
  unfold physLen
  rw [if_pos hk]
  omega

/-- The local-data columns of `entryPos` after the length derivation. -/
theorem derived_lf (s : Zip) (hl : LocalOK s.zip_.tomz_zip_archive)
    (hn : 0 < s.zip_.m_total_files) (k : Nat) (hk : k < s.zip_.m_total_files) :
    lfOfsAt (physOrder s.zip_.tomz_zip_archive) (lfStart s) k
      = physOfs s.zip_.tomz_zip_archive k ∧
    lfLenAt (physOrder s.zip_.tomz_zip_archive) (lfStart s) k
      = physLen s.zip_.tomz_zip_archive k := by
  obtain ⟨h1, _, h3⟩ := deriveLengths_spec s.zip_.m_total_files s.zip_.m_archive_size
    s.zip_.m_central_dir.m_size (physOrder s.zip_.tomz_zip_archive)
    (entryPos0 s.zip_.tomz_zip_archive) hn (physOrder_nodup _) (physOrder_length _)
  have hO : ∀ t, t < s.zip_.m_total_files →
      (entryPos0 s.zip_.tomz_zip_archive
        ((physOrder s.zip_.tomz_zip_archive).getD t 0)).lf_ofs_
        = physOfs s.zip_.tomz_zip_archive t := by
    intro t ht
    rw [entryPos0_lt _ _ (physOrder_lt _ t ht)]
    rfl
  constructor
  · show ((lfStart s).entryPos _).lf_ofs_ = _
    simp only [lfStart]
    rw [(h1 _).1, hO k hk]
  · show ((lfStart s).entryPos _).lf_len_ = _
    simp only [lfStart]
    rw [h3 k hk, hO k hk]
    have h4 := physOfs_add_physLen _ hl k hk
    have hsz := hl.size_lt
    by_cases hk1 : k + 1 < s.zip_.m_total_files
    · rw [if_pos hk1, hO (k + 1) hk1]
      rw [if_pos hk1] at h4
      have h5 := hl.inside _ (physOrder_lt _ (k + 1) hk1)
      have h6 : physOfs s.zip_.tomz_zip_archive (k + 1) ≤ s.zip_.m_archive_size := h5
      rw [sub64_eq _ _ (by omega) (by omega)]
      omega
    · rw [if_neg hk1]
      rw [if_neg hk1] at h4
      rw [sub64_eq _ _ (by omega) (by omega)]
      omega

theorem physCmd_keep_closed (entryNames sel : List (List Nat)) (indices : List Nat) (j : Nat)
    (h : physCmd entryNames sel indices j = EntryCommand.Keep) :
    ∀ i, i < j → physCmd entryNames sel indices i = EntryCommand.Keep := by
  have hj : selAt entryNames sel indices j = false ∧ delCount entryNames sel indices j = 0 := by
    unfold physCmd at h
    cases hs : selAt entryNames sel indices j
    · rw [hs] at h
      simp only [Bool.false_eq_true, if_false] at h
      by_cases hz : delCount entryNames sel indices j = 0
      · exact ⟨rfl, hz⟩
      · rw [if_pos hz] at h; cases h
    · rw [hs] at h; simp at h
  intro i hi
  have h1 : delCount entryNames sel indices (i + 1) ≤ delCount entryNames sel indices j :=
    sumTo_mono _ hi
  have h2 : delCount entryNames sel indices (i + 1)
      = delCount entryNames sel indices i
        + (if selAt entryNames sel indices i then 1 else 0) := rfl
  unfold physCmd
  cases hs : selAt entryNames sel indices i
  · simp only [Bool.false_eq_true, if_false]
    rw [if_neg (by omega)]
  · rw [hs] at h2
    simp only [if_true] at h2
    omega

/-- The assumptions of the local-data analysis hold when `deleteFiles` enters
the compaction on a well-formed archive. -/
theorem lfHyp_start (s : Zip) (sel : List (List Nat))
    (hok : DirOK s.zip_.tomz_zip_archive) (hl : LocalOK s.zip_.tomz_zip_archive)
    (hn : 0 < s.zip_.m_total_files) :
    LfHyp s.zip_.m_total_files (physOrder s.zip_.tomz_zip_archive)
      (entryCmdOf s.zip_.tomz_zip_archive sel).1 (lfStart s) := by
  have hlen : ∀ k, k ≤ s.zip_.m_total_files →
      sumTo (fun t => ((lfStart s).entryPos
        ((physOrder s.zip_.tomz_zip_archive).getD t 0)).lf_len_) k
      = sumTo (physLen s.zip_.tomz_zip_archive) k := by
    intro k hk
    exact sumTo_congr _ _ k (fun t ht => (derived_lf s hl hn t (by omega)).2)
  have hcd : ∀ e, e < s.zip_.m_total_files →
      ((lfStart s).entryPos e).cd_ofs_ = dirOfs s.zip_.tomz_zip_archive e :=
    fun e he => (derived_cd _ hok hn s.zip_.m_archive_size e he).1
  obtain ⟨_, hcls⟩ := classify_spec
    ((List.range s.zip_.m_total_files).map (dirName s.zip_.tomz_zip_archive)) sel
    (physOrder s.zip_.tomz_zip_archive) (physOrder_nodup _) s.zip_.m_total_files
    (by rw [physOrder_length])
  constructor
  · exact fun j hj => physOrder_lt _ j hj
  · exact fun i j hi hj hij => nodup_getD_ne _ (physOrder_nodup _)
      (by rw [physOrder_length]; exact hi) (by rw [physOrder_length]; exact hj) hij
  · intro j hj
    rw [hlen j (by omega)]
    have h1 := (derived_lf s hl hn j hj).1
    have h0 := (derived_lf s hl hn 0 hn).1
    unfold lfOfsAt at h1 h0
    rw [h1, h0]
    exact physOfs_tile _ hl j hj
  · rw [hlen _ (Nat.le_refl _)]
    have h0 := (derived_lf s hl hn 0 hn).1
    unfold lfOfsAt at h0
    rw [h0, physOfs_total _ hl hn]
    exact hl.size_lt
  · intro j hj
    have h1 := (derived_lf s hl hn j (by omega)).2
    unfold lfLenAt at h1
    rw [h1]
    exact physLen_pos _ hl j hj
  · intro j hj hk i hi
    have hcj := hcls j hj
    have hci := hcls i (by omega)
    unfold entryCmdOf at hk ⊢
    rw [hci]
    rw [hcj] at hk
    exact physCmd_keep_closed _ _ _ j hk i hi
  · intro e he
    rw [hcd e he]
    have h1 := dirOfs_le_size _ hok e he
    have h2 := cdLen_ge _ hok e he
    have h3 := recordSpan_ge s.zip_.tomz_zip_archive e
    have h4 := hok.size_le
    show _ ≤ s.zip_.m_central_dir.m_p.length
    omega
  · intro e e' he he' hne
    rw [hcd e he, hcd e' he']
    have h1 := dirOfs_eq_sumTo _ hok e he
    have h2 := dirOfs_eq_sumTo _ hok e' he'
    have h3 := cdLen_ge _ hok e he
    have h4 := cdLen_ge _ hok e' he'
    have h5 := recordSpan_ge s.zip_.tomz_zip_archive e
    have h6 := recordSpan_ge s.zip_.tomz_zip_archive e'
    rcases Nat.lt_or_gt_of_ne hne with h | h
    · have := sumTo_lt_succ (cdLen s.zip_.tomz_zip_archive) h
      left; omega
    · have := sumTo_lt_succ (cdLen s.zip_.tomz_zip_archive) h
      right; omega

theorem goneLen_congr (del del' : Nat → Bool) (len len' : Nat → Nat) (k : Nat)
    (h : ∀ j, j < k → del j = del' j ∧ len j = len' j) :
    goneLen del len k = goneLen del' len' k ∧ keptLen del len k = keptLen del' len' k ∧
      keptCount del k = keptCount del' k := by
  refine ⟨sumTo_congr _ _ k ?_, sumTo_congr _ _ k ?_, sumTo_congr _ _ k ?_⟩
  · intro j hj; rw [(h j hj).1, (h j hj).2]
  · intro j hj; rw [(h j hj).1, (h j hj).2]
  · intro j hj; rw [(h j hj).1]

theorem lfDelAt_eq (z : mz_zip_archive) (sel : List (List Nat)) (j : Nat)
    (hj : j < z.m_total_files) :
    lfDelAt (physOrder z) (entryCmdOf z sel).1 j = physSel z sel j := by
  unfold lfDelAt physSel
  exact (entryCmdOf_spec z sel).1 _ (physOrder_lt z j hj)

/-- The sums of the local-data analysis in terms of the physical layout. -/
theorem lf_sums (s : Zip) (sel : List (List Nat)) (hl : LocalOK s.zip_.tomz_zip_archive)
    (hn : 0 < s.zip_.m_total_files) (k : Nat) (hk : k ≤ s.zip_.m_total_files) :
    goneLen (lfDelAt (physOrder s.zip_.tomz_zip_archive)
        (entryCmdOf s.zip_.tomz_zip_archive sel).1)
      (lfLenAt (physOrder s.zip_.tomz_zip_archive) (lfStart s)) k
      = goneLen (physSel s.zip_.tomz_zip_archive sel) (physLen s.zip_.tomz_zip_archive) k ∧
    keptLen (lfDelAt (physOrder s.zip_.tomz_zip_archive)
        (entryCmdOf s.zip_.tomz_zip_archive sel).1)
      (lfLenAt (physOrder s.zip_.tomz_zip_archive) (lfStart s)) k
      = keptLen (physSel s.zip_.tomz_zip_archive sel) (physLen s.zip_.tomz_zip_archive) k ∧
    sumTo (lfLenAt (physOrder s.zip_.tomz_zip_archive) (lfStart s)) k
      = sumTo (physLen s.zip_.tomz_zip_archive) k := by
  have h := goneLen_congr
    (lfDelAt (physOrder s.zip_.tomz_zip_archive) (entryCmdOf s.zip_.tomz_zip_archive sel).1)
    (physSel s.zip_.tomz_zip_archive sel)
    (lfLenAt (physOrder s.zip_.tomz_zip_archive) (lfStart s))
    (physLen s.zip_.tomz_zip_archive) k
    (fun j hj => ⟨lfDelAt_eq _ sel j (by omega), (derived_lf s hl hn j (by omega)).2⟩)
  exact ⟨h.1, h.2.1, sumTo_congr _ _ k (fun j hj => (derived_lf s hl hn j (by omega)).2)⟩

/-- The sums of the directory analysis in terms of the directory. -/
theorem cd_sums (z : mz_zip_archive) (sel : List (List Nat)) (k : Nat)
    (hk : k ≤ z.m_total_files) :
    goneLen (fun j => (entryCmdOf z sel).1 j == EntryCommand.Delete) (cdLen z) k
      = goneLen (selectedEntry z sel) (cdLen z) k ∧
    keptLen (fun j => (entryCmdOf z sel).1 j == EntryCommand.Delete) (cdLen z) k
      = keptLen (selectedEntry z sel) (cdLen z) k ∧
    keptCount (fun j => (entryCmdOf z sel).1 j == EntryCommand.Delete) k
      = keptCount (selectedEntry z sel) k :=
  goneLen_congr _ _ _ _ k (fun j hj => ⟨(entryCmdOf_spec z sel).1 j (by omega), rfl⟩)

/-- Both compaction passes on a well-formed archive, with their invariants. -/
theorem compact_strong (s : Zip) (sel : List (List Nat))
    (hok : DirOK s.zip_.tomz_zip_archive) (hl : LocalOK s.zip_.tomz_zip_archive)
    (hn : 0 < s.zip_.m_total_files) :
    ∃ st1 st2 s1,
      compact s s.zip_.m_total_files (physOrder s.zip_.tomz_zip_archive)
        (entryCmdOf s.zip_.tomz_zip_archive sel).1 (entryCmdOf s.zip_.tomz_zip_archive sel).2
        (entryPos0 s.zip_.tomz_zip_archive) = some s1 ∧
      s1.file_ = st1.file ∧ s1.openMode_ = s.openMode_ ∧
      s1.zip_.m_archive_size = sub64 s.zip_.m_archive_size st1.delLen ∧
      s1.zip_.m_total_files = sub32 s.zip_.m_total_files
        (entryCmdOf s.zip_.tomz_zip_archive sel).2 ∧
      s1.zip_.m_central_dir_offsets = st2.cdirOfs ∧
      s1.zip_.m_central_dir = ⟨st2.cdir, sub64 s.zip_.m_central_dir.m_size st2.delLen⟩ ∧
      LfInv s.zip_.m_total_files (physOrder s.zip_.tomz_zip_archive)
        (entryCmdOf s.zip_.tomz_zip_archive sel).1 (lfStart s) st1 ∧
      st1.index = s.zip_.m_total_files ∧
      CdInv s.zip_.m_total_files
        (fun j => (entryCmdOf s.zip_.tomz_zip_archive sel).1 j == EntryCommand.Delete)
        (cdLen s.zip_.tomz_zip_archive) st1 st2 ∧
      st2.index = s.zip_.m_total_files ∧
      (∀ q, (∀ e, e < s.zip_.m_total_files →
          ¬ (dirOfs s.zip_.tomz_zip_archive e + 42 ≤ q ∧
            q < dirOfs s.zip_.tomz_zip_archive e + 46)) →
        st1.cdir[q]? = s.zip_.m_central_dir.m_p[q]?) := by
  obtain ⟨st1, st2, s1, hst1, _, hs1, hfile, _, hom, _, _, hA, htot, hofs, hdir, _, hout, hcd,
    hidx2⟩ := compact_weak s (entryCmdOf s.zip_.tomz_zip_archive sel).1
      (entryCmdOf s.zip_.tomz_zip_archive sel).2 hok hn
  obtain ⟨st1', hst1', hlf, hidx1⟩ := compactLocal_spec s.zip_.m_total_files
    (physOrder s.zip_.tomz_zip_archive) (entryCmdOf s.zip_.tomz_zip_archive sel).1
    (deriveLengths s.zip_.m_total_files s.zip_.m_archive_size s.zip_.m_central_dir.m_size
      (physOrder s.zip_.tomz_zip_archive) (entryPos0 s.zip_.tomz_zip_archive))
    s.zip_.m_central_dir.m_p s.zip_.m_central_dir_offsets s.file_
    (lfHyp_start s sel hok hl hn)
  rw [hst1] at hst1'
  cases hst1'
  exact ⟨st1, st2, s1, hs1, by rw [hfile, hcd.file], hom, hA, htot, hofs, hdir, hlf, hidx1,
    hcd, hidx2, hout⟩

theorem goneLen_ge (del : Nat → Bool) (len : Nat → Nat) (n e : Nat) (he : e < n)
    (hd : del e = true) : len e ≤ goneLen del len n := by
  have h := sumTo_mono (fun j => if del j then len j else 0) (show e + 1 ≤ n from he)
  rw [sumTo] at h
  simp only [hd, if_true] at h
  unfold goneLen
  omega

theorem MZ_READ_LE32_congr (p q : List Nat) (a b : Nat)
    (h : ∀ i, i < 4 → p[a + i]? = q[b + i]?) : MZ_READ_LE32 p a = MZ_READ_LE32 q b := by
  unfold MZ_READ_LE32
  rw [getD_eq_of_getElem? p q a b (h 0 (by omega)),
    getD_eq_of_getElem? p q (a + 1) (b + 1) (h 1 (by omega)),
    getD_eq_of_getElem? p q (a + 2) (b + 2) (h 2 (by omega)),
    getD_eq_of_getElem? p q (a + 3) (b + 3) (h 3 (by omega))]

theorem MZ_READ_LE32_le32 (v : Nat) : MZ_READ_LE32 (le32 v) 0 = v % U32 := by
  simp only [MZ_READ_LE32, le32, List.getD_cons_zero, List.getD_cons_succ, U32]
  omega

theorem MZ_READ_LE32_of_bytes (p : List Nat) (a v : Nat)
    (h : ∀ i, i < 4 → p[a + i]? = (le32 v)[i]?) : MZ_READ_LE32 p a = v % U32 := by
  rw [← MZ_READ_LE32_le32 v]
  exact MZ_READ_LE32_congr p (le32 v) a 0 (fun i hi => by rw [h i hi, Nat.zero_add])

theorem keptOfs_get (del : Nat → Bool) (c : Nat → Nat) (e : Nat) (hd : del e = false) :
    ∀ n, e < n → (keptOfs del c n)[keptCount del e]? = some (keptLen del c e) := by
  intro n
  induction n with
  | zero => intro h; omega
  | succ n ih =>
    intro hn
    rw [keptOfs]
    by_cases hen : e = n
    · subst hen
      rw [hd]
      simp only [Bool.false_eq_true, if_false]
      rw [List.getElem?_append_right (by rw [length_keptOfs]), length_keptOfs]
      simp
    · have h1 := ih (by omega)
      cases hdn : del n
      · simp only [Bool.false_eq_true, if_false]
        rw [List.getElem?_append_left, h1]
        have := List.getElem?_eq_some_iff.1 h1
        exact this.1
      · simp only [if_true]
        exact h1

theorem keptCount_lt (del : Nat → Bool) (e n : Nat) (he : e < n) (hd : del e = false) :
    keptCount del e < keptCount del n := by
  have h := sumTo_mono (fun j => if del j then 0 else 1) (show e + 1 ≤ n from he)
  rw [sumTo] at h
  simp only [hd, Bool.false_eq_true, if_false] at h
  unfold keptCount
  omega

theorem keptCount_of_none (del : Nat → Bool) (e : Nat) (h : ∀ j, j < e → del j = false) :
    keptCount del e = e := by
  induction e with
  | zero => rfl
  | succ e ih =>
    rw [keptCount_succ, ih (fun j hj => h j (by omega)), h e (by omega)]
    simp

theorem goneLen_of_none (del : Nat → Bool) (len : Nat → Nat) (k : Nat)
    (h : ∀ j, j < k → del j = false) : goneLen del len k = 0 := by
  have := goneLen_of_run del len 0 k (Nat.zero_le _) (fun j _ hj => h j hj)
  rw [this]; rfl

/-- Where a surviving entry's directory record is found after the two
compaction passes, and what it holds. -/
theorem survivor_record (s s1 : Zip) (sel : List (List Nat)) (st1 st2 : LoopState)
    (hok : DirOK s.zip_.tomz_zip_archive)
    (hofs : s1.zip_.m_central_dir_offsets = st2.cdirOfs)
    (hdir : s1.zip_.m_central_dir = ⟨st2.cdir, sub64 s.zip_.m_central_dir.m_size st2.delLen⟩)
    (hcd : CdInv s.zip_.m_total_files
      (fun j => (entryCmdOf s.zip_.tomz_zip_archive sel).1 j == EntryCommand.Delete)
      (cdLen s.zip_.tomz_zip_archive) st1 st2)
    (hidx2 : st2.index = s.zip_.m_total_files)
    (e : Nat) (he : e < s.zip_.m_total_files)
    (hsel : selectedEntry s.zip_.tomz_zip_archive sel e = false) :
    dirOfs s1.zip_.tomz_zip_archive (keptCount (selectedEntry s.zip_.tomz_zip_archive sel) e)
      = keptLen (selectedEntry s.zip_.tomz_zip_archive sel) (cdLen s.zip_.tomz_zip_archive) e ∧
    ∀ i, i < cdLen s.zip_.tomz_zip_archive e →
      (dirRecord s1.zip_.tomz_zip_archive
        (keptCount (selectedEntry s.zip_.tomz_zip_archive sel) e))[i]?
        = st1.cdir[dirOfs s.zip_.tomz_zip_archive e + i]? := by
  obtain ⟨_, hk, hc⟩ := cd_sums s.zip_.tomz_zip_archive sel e (by omega)
  have hdel : (fun j => (entryCmdOf s.zip_.tomz_zip_archive sel).1 j == EntryCommand.Delete) e
      = false := by
    rw [← hsel]; exact (entryCmdOf_spec _ sel).1 e he
  have hlt := keptCount_lt
    (fun j => (entryCmdOf s.zip_.tomz_zip_archive sel).1 j == EntryCommand.Delete)
    e s.zip_.m_total_files he hdel
  have hget := hcd.ofs _ (by rw [hidx2]; exact hlt)
  rw [hidx2, keptOfs_get _ _ e hdel _ he, hc, hk] at hget
  have hofs1 : dirOfs s1.zip_.tomz_zip_archive
      (keptCount (selectedEntry s.zip_.tomz_zip_archive sel) e)
      = keptLen (selectedEntry s.zip_.tomz_zip_archive sel) (cdLen s.zip_.tomz_zip_archive) e := by
    unfold dirOfs
    rw [hofs, List.getD_eq_getElem?_getD, hget]
    rfl
  refine ⟨hofs1, ?_⟩
  intro i hi
  unfold dirRecord
  rw [hofs1, hdir, List.getElem?_drop, ← hk, dirOfs_eq_sumTo _ hok e he]
  exact hcd.kept e (by rw [hidx2]; exact he) hdel i hi

set_option maxRecDepth 4096 in
theorem demo2_dirOK : DirOK demo2.zip_.tomz_zip_archive :=
  { capacity := by decide
    count_lt := by decide
    size_le := by decide
    size_lt := by decide
    first := by decide
    step := by decide
    last := by decide }

set_option maxRecDepth 4096 in
theorem demo_localOK : LocalOK demo.zip_.tomz_zip_archive :=
  { distinct := by decide
    inside := by decide
    size_lt := by decide }

set_option maxRecDepth 4096 in
theorem demo2_localOK : LocalOK demo2.zip_.tomz_zip_archive :=
  { distinct := by decide
    inside := by decide
    size_lt := by decide }

set_option maxRecDepth 4096 in
theorem demo2_physOfs_zero : physOfs demo2.zip_.tomz_zip_archive 0 = 0 := by decide

set_option maxRecDepth 4096 in
theorem demo2_ofs32 : ∀ i, i < demo2.zip_.m_total_files →
    dirLfOfs demo2.zip_.tomz_zip_archive i < U32 := by decide

set_option maxRecDepth 4096 in
theorem demo2_match_a : ∃ e, e < demo2.zip_.m_total_files ∧
    selectedEntry demo2.zip_.tomz_zip_archive [bytesOf "a"] e = true := ⟨1, by decide, by decide⟩

set_option maxRecDepth 8192 in
theorem demo3_dirOK : DirOK demo3.zip_.tomz_zip_archive :=
  { capacity := by decide
    count_lt := by decide
    size_le := by decide
    size_lt := by decide
    first := by decide
    step := by decide
    last := by decide }

theorem iosmovePagesLog_fst : ∀ (i : Nat) (ios : FStream) (pptr gptr : Nat) (sizes : List Nat),
    (iosmovePagesLog i ios pptr gptr sizes).1 = iosmovePages i ios pptr gptr := by
  intro i
  induction i with
  | zero => intro ios pptr gptr sizes; rfl
  | succ i ih =>
    intro ios pptr gptr sizes
    simp only [iosmovePagesLog, iosmovePages]
    exact ih _ _ _ _

theorem iosmovePagesLog_snd : ∀ (i : Nat) (ios : FStream) (pptr gptr : Nat) (sizes : List Nat),
    (iosmovePagesLog i ios pptr gptr sizes).2 = sizes ++ List.replicate (2 * i) pageSize := by
  intro i
  induction i with
  | zero => intro ios pptr gptr sizes; simp [iosmovePagesLog]
  | succ i ih =>
    intro ios pptr gptr sizes
    simp only [iosmovePagesLog]
    rw [ih]
    have : 2 * (i + 1) = 2 + 2 * i := by omega
    rw [this, List.replicate_add]
    simp [List.replicate]

theorem iosmoveLog_fst (ios : FStream) (dst src len : Nat) :
    (iosmoveLog ios dst src len).1 = iosmove ios dst src len := by
  unfold iosmoveLog iosmove
  simp only [iosmovePagesLog_fst]

theorem sumTo_ne_zero_iff (f : Nat → Nat) (k : Nat) :
    sumTo f k ≠ 0 ↔ ∃ j, j < k ∧ f j ≠ 0 := by
  induction k with
  | zero => simp [sumTo]
  | succ k ih =>
    simp only [sumTo]
    constructor
    · intro h
      by_cases h0 : sumTo f k = 0
      · exact ⟨k, by omega, by omega⟩
      · obtain ⟨j, hj, hf⟩ := ih.1 h0
        exact ⟨j, by omega, hf⟩
    · rintro ⟨j, hj, hf⟩
      by_cases hjk : j = k
      · subst hjk; omega
      · have := ih.2 ⟨j, by omega, hf⟩
        omega

/-- The tag of the entry at physical position `k` in terms of the selection. -/
theorem entryCmdOf_phys (z : mz_zip_archive) (sel : List (List Nat)) (k : Nat)
    (hk : k < z.m_total_files) :
    (entryCmdOf z sel).1 ((physOrder z).getD k 0) =
      if physSel z sel k then EntryCommand.Delete
      else if ∃ j, j < k ∧ physSel z sel j = true then EntryCommand.Move
      else EntryCommand.Keep := by
  have h := (classify_spec ((List.range z.m_total_files).map (dirName z)) sel (physOrder z)
    (physOrder_nodup z) z.m_total_files (by rw [physOrder_length])).2 k hk
  unfold entryCmdOf
  rw [h]
  unfold physCmd
  rw [selAt_physOrder z sel k hk]
  have hsel : selectedEntry z sel ((physOrder z).getD k 0) = physSel z sel k := rfl
  rw [hsel]
  cases hs : physSel z sel k
  · simp only [Bool.false_eq_true, if_false]
    have hiff : delCount ((List.range z.m_total_files).map (dirName z)) sel (physOrder z) k ≠ 0
        ↔ ∃ j, j < k ∧ physSel z sel j = true := by
      unfold delCount
      rw [sumTo_ne_zero_iff]
      constructor
      · rintro ⟨j, hj, hf⟩
        refine ⟨j, hj, ?_⟩
        rw [selAt_physOrder z sel j (by omega)] at hf
        by_contra hc
        have hc' : selectedEntry z sel ((physOrder z).getD j 0) = false := by
          simpa [physSel] using hc
        rw [hc'] at hf
        simp at hf
      · rintro ⟨j, hj, hf⟩
        refine ⟨j, hj, ?_⟩
        rw [selAt_physOrder z sel j (by omega)]
        have hf' : selectedEntry z sel ((physOrder z).getD j 0) = true := hf
        rw [hf']
        simp
    by_cases hd : delCount ((List.range z.m_total_files).map (dirName z)) sel (physOrder z) k ≠ 0
    · rw [if_pos hd, if_pos (hiff.1 hd)]
    · rw [if_neg hd, if_neg (fun h => hd (hiff.2 h))]
  · simp

theorem keptOfs_eq_map (del : Nat → Bool) (c : Nat → Nat) (k : Nat) :
    keptOfs del c k = ((List.range k).filter (fun e => !del e)).map (keptLen del c) := by
  induction k with
  | zero => rfl
  | succ k ih =>
    rw [range_filter_succ, keptOfs, ih]
    cases del k <;> simp

theorem take_eq_of_getElem? (arr l : List Nat)
    (h : ∀ r, r < l.length → arr[r]? = l[r]?) : arr.take l.length = l := by
  apply List.ext_getElem?
  intro r
  by_cases hr : r < l.length
  · rw [List.getElem?_take_of_lt hr, h r hr]
  · rw [List.getElem?_eq_none (by rw [List.length_take]; omega),
      List.getElem?_eq_none (by omega)]

theorem take_keptLen (L patched : List Nat) (del : Nat → Bool) (c ofs : Nat → Nat) (n : Nat)
    (h : ∀ j, j < n → del j = false → ∀ i, i < c j →
      L[keptLen del c j + i]? = patched[ofs j + i]?) :
    ∀ k, k ≤ n → L.take (keptLen del c k)
      = (((List.range k).filter (fun e => !del e)).map
          (fun e => slice patched (ofs e) (c e))).flatten := by
  intro k
  induction k with
  | zero => intro _; simp [keptLen, sumTo]
  | succ k ih =>
    intro hk
    rw [range_filter_succ, keptLen_succ]
    cases hd : del k
    · simp only [Bool.not_false, if_true, Bool.false_eq_true, if_false, List.map_append,
        List.map_cons, List.map_nil, List.flatten_append, List.flatten_cons, List.flatten_nil,
        List.append_nil]
      rw [List.take_add, ih (by omega)]
      congr 1
      exact slice_eq_of_getElem? L patched _ _ _ (h k (by omega) hd)
    · simp only [Bool.not_true, Bool.false_eq_true, if_false, if_true, List.append_nil,
        Nat.add_zero]
      exact ih (by omega)

set_option maxRecDepth 4096 in
theorem demo4_dirOK : DirOK demo4.zip_.tomz_zip_archive :=
  { capacity := by decide
    count_lt := by decide
    size_le := by decide
    size_lt := by decide
    first := by decide
    step := by decide
    last := by decide }

set_option maxRecDepth 4096 in
theorem demo4_localOK : LocalOK demo4.zip_.tomz_zip_archive :=
  { distinct := by decide
    inside := by decide
    size_lt := by decide }

/-- One step of either compaction pass stores its offset truncated to 32 bits. -/
theorem step_is_32bit (indices : List Nat) (st : LoopState)
    (hwin : (st.entryPos (indices.getD st.index 0)).cd_ofs_ + 46 ≤ st.cdir.length) :
    ((lfMoveStep indices st).entryPos (indices.getD st.index 0)).lf_ofs_
      = sub64 (st.entryPos (indices.getD st.index 0)).lf_ofs_ st.delLen ∧
    MZ_READ_LE32 (lfMoveStep indices st).cdir
        ((st.entryPos (indices.getD st.index 0)).cd_ofs_ + 42)
      = sub64 (st.entryPos (indices.getD st.index 0)).lf_ofs_ st.delLen % U32 ∧
    (MZ_READ_LE32 (lfMoveStep indices st).cdir
        ((st.entryPos (indices.getD st.index 0)).cd_ofs_ + 42)
      = ((lfMoveStep indices st).entryPos (indices.getD st.index 0)).lf_ofs_
      ↔ ((lfMoveStep indices st).entryPos (indices.getD st.index 0)).lf_ofs_ < U32) ∧
    (st.cdirOfs.m_size < st.cdirOfs.m_p.length →
      ((cdMoveStep st).entryPos st.index).cd_ofs_
        = sub64 (st.entryPos st.index).cd_ofs_ st.delLen ∧
      (cdMoveStep st).cdirOfs.m_p[st.cdirOfs.m_size]?
        = some (sub64 (st.entryPos st.index).cd_ofs_ st.delLen % U32)) := by
  have h1 : ((lfMoveStep indices st).entryPos (indices.getD st.index 0)).lf_ofs_
      = sub64 (st.entryPos (indices.getD st.index 0)).lf_ofs_ st.delLen := by
    simp [lfMoveStep]
  have h2 : MZ_READ_LE32 (lfMoveStep indices st).cdir
        ((st.entryPos (indices.getD st.index 0)).cd_ofs_ + 42)
      = sub64 (st.entryPos (indices.getD st.index 0)).lf_ofs_ st.delLen % U32 := by
    apply MZ_READ_LE32_of_bytes
    intro i hi
    have hc : (lfMoveStep indices st).cdir
        = MZ_WRITE_LE32 st.cdir ((st.entryPos (indices.getD st.index 0)).cd_ofs_ + 42)
            (sub64 (st.entryPos (indices.getD st.index 0)).lf_ofs_ st.delLen) := by
      simp [lfMoveStep, MZ_ZIP_CDH_LOCAL_HEADER_OFS]
    rw [hc]
    exact getElem?_MZ_WRITE_LE32 _ _ _ i (by omega) hi
  refine ⟨h1, h2, ?_, ?_⟩
  · rw [h2, h1]
    constructor
    · intro h
      rw [← h]
      exact Nat.mod_lt _ (by decide)
    · intro h
      exact Nat.mod_eq_of_lt h
  · intro hs
    constructor
    · simp [cdMoveStep]
    · simp [cdMoveStep, u32, List.getElem?_set, hs]

/-- After `deleteFiles` on a well-formed archive the offset field of a moved
entry decodes to its new offset modulo 2^32. -/
theorem moved_field {P : Type} (norm : P → List Nat) (s : Zip) (names : List P)
    (hmode : s.openMode_ = OpenMode.Update) (hne : names ≠ [])
    (hvalid : ∀ p ∈ names, norm p ≠ [])
    (hok : DirOK s.zip_.tomz_zip_archive) (hl : LocalOK s.zip_.tomz_zip_archive) :
    ∃ s1, s.deleteFiles norm names = some (.ok (), s1) ∧
      ∀ k, k < s.zip_.m_total_files →
        (entryCmdOf s.zip_.tomz_zip_archive (names.map norm)).1
          ((physOrder s.zip_.tomz_zip_archive).getD k 0) = EntryCommand.Move →
        dirLfOfs s1.zip_.tomz_zip_archive
            (keptCount (selectedEntry s.zip_.tomz_zip_archive (names.map norm))
              ((physOrder s.zip_.tomz_zip_archive).getD k 0))
          = (physOfs s.zip_.tomz_zip_archive k
              - goneLen (physSel s.zip_.tomz_zip_archive (names.map norm))
                  (physLen s.zip_.tomz_zip_archive) k) % U32 := by
  obtain ⟨hcmd, hnum⟩ := entryCmdOf_spec s.zip_.tomz_zip_archive (names.map norm)
  rw [deleteFiles_eq norm s names hmode hne hvalid]
  by_cases hn : s.zip_.m_total_files = 0
  · rw [if_pos hn]
    exact ⟨s, rfl, fun k hk => by omega⟩
  rw [if_neg hn]
  by_cases hd : (entryCmdOf s.zip_.tomz_zip_archive (names.map norm)).2 = 0
  · rw [if_pos hd]
    rw [hnum] at hd
    refine ⟨s, rfl, ?_⟩
    intro k hk hmv
    exfalso
    rw [entryCmdOf_phys _ _ k hk] at hmv
    cases hs : physSel s.zip_.tomz_zip_archive (names.map norm) k
    · rw [hs] at hmv
      simp only [Bool.false_eq_true, if_false] at hmv
      by_cases hex : ∃ j, j < k ∧ physSel s.zip_.tomz_zip_archive (names.map norm) j = true
      · obtain ⟨j, hj, hsj⟩ := hex
        have := List.countP_eq_zero.1 hd _
          (List.mem_range.2 (physOrder_lt s.zip_.tomz_zip_archive j (by omega)))
        exact this hsj
      · rw [if_neg hex] at hmv; cases hmv
    · rw [hs] at hmv
      simp at hmv
  · rw [if_neg hd]
    have hn' : 0 < s.zip_.m_total_files := by omega
    obtain ⟨st1, st2, s1, hs1, _, _, _, _, hofs, hdir, hlf, hidx1, hcd, hidx2, hout⟩ :=
      compact_strong s (names.map norm) hok hl hn'
    rw [hs1]
    refine ⟨s1, rfl, ?_⟩
    intro k hk hmv
    have he := physOrder_lt s.zip_.tomz_zip_archive k hk
    have hsel : selectedEntry s.zip_.tomz_zip_archive (names.map norm)
        ((physOrder s.zip_.tomz_zip_archive).getD k 0) = false := by
      rw [← hcmd _ he, hmv]; rfl
    obtain ⟨hofs1, hrec⟩ := survivor_record s s1 (names.map norm) st1 st2 hok hofs hdir hcd
      hidx2 _ he hsel
    have hce := cdLen_ge _ hok _ he
    have hrs := recordSpan_ge s.zip_.tomz_zip_archive
      ((physOrder s.zip_.tomz_zip_archive).getD k 0)
    have hcdofs : ((lfStart s).entryPos ((physOrder s.zip_.tomz_zip_archive).getD k 0)).cd_ofs_
        = dirOfs s.zip_.tomz_zip_archive ((physOrder s.zip_.tomz_zip_archive).getD k 0) :=
      (derived_cd _ hok hn' s.zip_.m_archive_size _ he).1
    have hpatch := hlf.patch k hk
    rw [hcdofs, hidx1] at hpatch
    have hbytes : ∀ i, i < 4 →
        (dirRecord s1.zip_.tomz_zip_archive
          (keptCount (selectedEntry s.zip_.tomz_zip_archive (names.map norm))
            ((physOrder s.zip_.tomz_zip_archive).getD k 0)))[MZ_ZIP_CDH_LOCAL_HEADER_OFS + i]?
        = st1.cdir[dirOfs s.zip_.tomz_zip_archive
            ((physOrder s.zip_.tomz_zip_archive).getD k 0) + 42 + i]? := by
      intro i hi
      rw [hrec _ (by unfold MZ_ZIP_CDH_LOCAL_HEADER_OFS; omega)]
      congr 1
      unfold MZ_ZIP_CDH_LOCAL_HEADER_OFS
      omega
    unfold dirLfOfs
    rw [MZ_READ_LE32_of_bytes _ _
      (lfOfsAt (physOrder s.zip_.tomz_zip_archive) (lfStart s) k
        - goneLen (lfDelAt (physOrder s.zip_.tomz_zip_archive)
            (entryCmdOf s.zip_.tomz_zip_archive (names.map norm)).1)
          (lfLenAt (physOrder s.zip_.tomz_zip_archive) (lfStart s)) k)
      (fun i hi => by rw [hbytes i hi, hpatch i hi, if_pos ⟨hk, hmv⟩])]
    rw [(derived_lf s hl hn' k hk).1, (lf_sums s (names.map norm) hl hn' k (by omega)).1]

theorem lfKeepRun_idx (n : Nat) (indices : List Nat) (cmd : Nat → EntryCommand)
    (st : LoopState) (h : st.index ≤ n) :
    ∃ r, lfKeepRun n indices cmd st = some r ∧ st.index ≤ r.index ∧ r.index ≤ n ∧
      r.movLen = st.movLen := by
  unfold lfKeepRun
  obtain ⟨r, hr, hinv, _⟩ := whileLoop_spec
    (fun s : LoopState => decide (s.index < n)
      && (cmd (indices.getD s.index 0) == EntryCommand.Keep))
    (fun s => { s with
      wrPos := add64 s.wrPos (s.entryPos (indices.getD s.index 0)).lf_len_
      index := s.index + 1 })
    (fun s => st.index ≤ s.index ∧ s.index ≤ n ∧ s.movLen = st.movLen)
    (fun s => n - s.index)
    (by
      intro s hs hc
      simp only [Bool.and_eq_true, decide_eq_true_eq] at hc
      refine ⟨⟨?_, ?_, hs.2.2⟩, ?_⟩
      · show st.index ≤ s.index + 1
        omega
      · show s.index + 1 ≤ n
        omega
      · show n - (s.index + 1) < n - s.index
        omega)
    (n + 1) st ⟨Nat.le_refl _, h, rfl⟩ (by show n - st.index < n + 1; omega)
  exact ⟨r, hr, hinv⟩

theorem lfDeleteRun_idx (n : Nat) (indices : List Nat) (cmd : Nat → EntryCommand)
    (st : LoopState) (h : st.index ≤ n) :
    ∃ r, lfDeleteRun n indices cmd st = some r ∧ st.index ≤ r.index ∧ r.index ≤ n ∧
      r.movLen = st.movLen := by
  unfold lfDeleteRun
  obtain ⟨r, hr, hinv, _⟩ := whileLoop_spec
    (fun s : LoopState => decide (s.index < n)
      && (cmd (indices.getD s.index 0) == EntryCommand.Delete))
    (fun s => { s with
      rdPos := add64 s.rdPos (s.entryPos (indices.getD s.index 0)).lf_len_
      index := s.index + 1 })
    (fun s => st.index ≤ s.index ∧ s.index ≤ n ∧ s.movLen = st.movLen)
    (fun s => n - s.index)
    (by
      intro s hs hc
      simp only [Bool.and_eq_true, decide_eq_true_eq] at hc
      refine ⟨⟨?_, ?_, hs.2.2⟩, ?_⟩
      · show st.index ≤ s.index + 1
        omega
      · show s.index + 1 ≤ n
        omega
      · show n - (s.index + 1) < n - s.index
        omega)
    (n + 1) st ⟨Nat.le_refl _, h, rfl⟩ (by show n - st.index < n + 1; omega)
  exact ⟨r, hr, hinv⟩

theorem lfMoveRun_idx (n : Nat) (indices : List Nat) (cmd : Nat → EntryCommand)
    (st : LoopState) (h : st.index ≤ n) :
    ∃ r, lfMoveRun n indices cmd st = some r ∧ st.index ≤ r.index ∧ r.index ≤ n ∧
      (r.index = st.index → r.movLen = st.movLen) := by
  unfold lfMoveRun
  obtain ⟨r, hr, hinv, _⟩ := whileLoop_spec
    (fun s : LoopState => decide (s.index < n)
      && (cmd (indices.getD s.index 0) == EntryCommand.Move))
    (lfMoveStep indices)
    (fun s => st.index ≤ s.index ∧ s.index ≤ n ∧ (s.index = st.index → s.movLen = st.movLen))
    (fun s => n - s.index)
    (by
      intro s hs hc
      simp only [Bool.and_eq_true, decide_eq_true_eq] at hc
      have hidx : (lfMoveStep indices s).index = s.index + 1 := rfl
      refine ⟨⟨?_, ?_, ?_⟩, ?_⟩
      · rw [hidx]; omega
      · rw [hidx]; omega
      · rw [hidx]; intro h; omega
      · show n - (lfMoveStep indices s).index < n - s.index
        rw [hidx]; omega)
    (n + 1) st ⟨Nat.le_refl _, h, fun _ => rfl⟩ (by show n - st.index < n + 1; omega)
  exact ⟨r, hr, hinv⟩

/-- One iteration of the first `do ... while` loop: it returns, keeps the index
within the entry count, and either leaves through `break` with `movLen` zero or
has advanced the index. -/
theorem lfBody_idx (n : Nat) (indices : List Nat) (cmd : Nat → EntryCommand)
    (st : LoopState) (h : st.index ≤ n) (hm : st.movLen = 0) :
    ∃ st1 b, lfBody n indices cmd st = some (st1, b) ∧ st.index ≤ st1.index ∧
      st1.index ≤ n ∧ st1.movLen = 0 ∧ (b = false → st.index < st1.index) := by
  obtain ⟨r1, hr1, h1a, h1b, h1m⟩ := lfDeleteRun_idx n indices cmd st h
  obtain ⟨r2, hr2, h2a, h2b, h2m⟩ := lfMoveRun_idx n indices cmd
    { r1 with delLen := sub64 r1.rdPos r1.wrPos } h1b
  unfold lfBody
  rw [hr1]
  simp only
  rw [hr2]
  simp only
  by_cases hz : r2.movLen = 0
  · rw [if_pos hz]
    exact ⟨r2, true, rfl, Nat.le_trans h1a h2a, h2b, hz, fun hb => by cases hb⟩
  · rw [if_neg hz]
    refine ⟨_, false, rfl, Nat.le_trans h1a h2a, h2b, rfl, fun _ => ?_⟩
    have hne : r2.index ≠ r1.index := by
      intro heq
      have := h2m heq
      rw [this] at hz
      exact hz (by rw [← hm, ← h1m])
    have h2a' : r1.index ≤ r2.index := h2a
    show st.index < r2.index
    omega

/-- The local-data compaction returns whatever the tables hold. -/
theorem compactLocal_idx (n : Nat) (indices : List Nat) (cmd : Nat → EntryCommand)
    (entryPos : Nat → EntryPosition) (cdir : List Nat) (cdirOfs : mz_zip_array)
    (file : FStream) :
    ∃ st1, compactLocal n indices cmd entryPos cdir cdirOfs file = some st1 ∧
      st1.index ≤ n ∧ st1.movLen = 0 := by
  obtain ⟨r0, hr0, _, h0b, h0m⟩ := lfKeepRun_idx n indices cmd
    { index := 0, wrPos := 0, rdPos := 0, delLen := 0, movLen := 0
      entryPos := entryPos, cdir := cdir, cdirOfs := cdirOfs, file := file } (Nat.zero_le _)
  unfold compactLocal
  rw [hr0]
  simp only
  exact doWhile_spec (lfBody n indices cmd) (fun s => decide (s.index < n))
    (fun s => s.index ≤ n ∧ s.movLen = 0) (fun s => s.index ≤ n ∧ s.movLen = 0)
    (fun s => n - s.index)
    (by
      intro s hs
      obtain ⟨s1, b, hb, ha, hle, hmv, hprog⟩ := lfBody_idx n indices cmd s hs.1 hs.2
      refine ⟨s1, b, hb, fun _ => ⟨hle, hmv⟩, fun hf hc => ⟨⟨hle, hmv⟩, ?_⟩⟩
      have := hprog hf
      show n - s1.index < n - s.index
      omega)
    (n + 1) { r0 with rdPos := r0.wrPos } ⟨h0b, h0m⟩
    (by show n - r0.index < n + 1; omega)

theorem cdDeleteRun_idx (n : Nat) (cmd : Nat → EntryCommand) (st : LoopState)
    (h : st.index ≤ n) (hsz : st.cdirOfs.m_size ≤ st.index) :
    ∃ r, cdDeleteRun n cmd st = some r ∧ st.index ≤ r.index ∧ r.index ≤ n ∧
      r.cdirOfs.m_size ≤ r.index ∧
      ¬ (r.index < n ∧ cmd r.index = EntryCommand.Delete) := by
  unfold cdDeleteRun
  obtain ⟨r, hr, hinv, hc⟩ := whileLoop_spec
    (fun s : LoopState => decide (s.index < n) && (cmd s.index == EntryCommand.Delete))
    (fun s => { s with
      rdPos := add64 s.rdPos (s.entryPos s.index).cd_len_
      index := s.index + 1 })
    (fun s => st.index ≤ s.index ∧ s.index ≤ n ∧ s.cdirOfs.m_size ≤ s.index)
    (fun s => n - s.index)
    (by
      intro s hs hc
      simp only [Bool.and_eq_true, decide_eq_true_eq] at hc
      refine ⟨⟨?_, ?_, ?_⟩, ?_⟩
      · show st.index ≤ s.index + 1
        omega
      · show s.index + 1 ≤ n
        omega
      · show s.cdirOfs.m_size ≤ s.index + 1
        omega
      · show n - (s.index + 1) < n - s.index
        omega)
    (n + 1) st ⟨Nat.le_refl _, h, hsz⟩ (by show n - st.index < n + 1; omega)
  refine ⟨r, hr, hinv.1, hinv.2.1, hinv.2.2, ?_⟩
  rintro ⟨h1, h2⟩
  have hc' : (decide (r.index < n) && (cmd r.index == EntryCommand.Delete)) = false := hc
  rw [h2] at hc'
  simp [h1] at hc'

theorem cdMoveRun_idx (n : Nat) (cmd : Nat → EntryCommand) (st : LoopState)
    (h : st.index ≤ n) (hsz : st.cdirOfs.m_size ≤ st.index) :
    ∃ r, cdMoveRun n cmd st = some r ∧ st.index ≤ r.index ∧ r.index ≤ n ∧
      r.cdirOfs.m_size ≤ r.index ∧
      ¬ (r.index < n ∧ cmd r.index ≠ EntryCommand.Delete) := by
  unfold cdMoveRun
  obtain ⟨r, hr, hinv, hc⟩ := whileLoop_spec
    (fun s : LoopState => decide (s.index < n) && (cmd s.index != EntryCommand.Delete))
    cdMoveStep
    (fun s => st.index ≤ s.index ∧ s.index ≤ n ∧ s.cdirOfs.m_size ≤ s.index)
    (fun s => n - s.index)
    (by
      intro s hs hc
      simp only [Bool.and_eq_true, decide_eq_true_eq] at hc
      have hidx : (cdMoveStep s).index = s.index + 1 := rfl
      have hms : (cdMoveStep s).cdirOfs.m_size = s.cdirOfs.m_size + 1 := rfl
      refine ⟨⟨?_, ?_, ?_⟩, ?_⟩
      · rw [hidx]; omega
      · rw [hidx]; omega
      · rw [hidx, hms]; omega
      · show n - (cdMoveStep s).index < n - s.index
        rw [hidx]; omega)
    (n + 1) st ⟨Nat.le_refl _, h, hsz⟩ (by show n - st.index < n + 1; omega)
  refine ⟨r, hr, hinv.1, hinv.2.1, hinv.2.2, ?_⟩
  rintro ⟨h1, h2⟩
  have hc' : (decide (r.index < n) && (cmd r.index != EntryCommand.Delete)) = false := hc
  simp [h1, h2] at hc'

/-- One iteration of the second `do ... while` loop: it returns, keeps the index
within the entry count and the size of the offset index within the index, and
advances the index whenever an entry is left. -/
theorem cdBody_idx (n : Nat) (cmd : Nat → EntryCommand) (st : LoopState)
    (h : st.index ≤ n) (hsz : st.cdirOfs.m_size ≤ st.index) :
    ∃ st1 b, cdBody n cmd st = some (st1, b) ∧ st.index ≤ st1.index ∧ st1.index ≤ n ∧
      st1.cdirOfs.m_size ≤ st1.index ∧ (b = true → st1.movLen = 0) ∧
      (st.index < n → st.index < st1.index) := by
  obtain ⟨r1, hr1, h1a, h1b, h1s, h1c⟩ := cdDeleteRun_idx n cmd st h hsz
  obtain ⟨r2, hr2, h2a, h2b, h2s, h2c⟩ := cdMoveRun_idx n cmd
    { r1 with delLen := sub64 r1.rdPos r1.wrPos } h1b h1s
  have h2a' : r1.index ≤ r2.index := h2a
  have hprog : st.index < n → st.index < r2.index := by
    intro hlt
    by_contra hcon
    have e2 : r2.index = st.index := by omega
    have e1 : r1.index = st.index := by omega
    rw [e1] at h1c
    rw [e2] at h2c
    by_cases hd : cmd st.index = EntryCommand.Delete
    · exact h1c ⟨hlt, hd⟩
    · exact h2c ⟨hlt, hd⟩
  unfold cdBody
  rw [hr1]
  simp only
  rw [hr2]
  simp only
  by_cases hz : r2.movLen = 0
  · rw [if_pos hz]
    exact ⟨r2, true, rfl, Nat.le_trans h1a h2a, h2b, h2s, fun _ => hz, hprog⟩
  · rw [if_neg hz]
    exact ⟨_, false, rfl, Nat.le_trans h1a h2a, h2b, h2s, (fun _ => rfl), hprog⟩

/-- The directory compaction returns from every state. -/
theorem compactDir_idx (n : Nat) (cmd : Nat → EntryCommand) (st : LoopState) :
    ∃ st2, compactDir n cmd st = some st2 ∧ st2.index ≤ n ∧
      st2.cdirOfs.m_size ≤ st2.index := by
  unfold compactDir
  exact doWhile_spec (cdBody n cmd) (fun s => decide (s.index < n))
    (fun s => s.index ≤ n ∧ s.cdirOfs.m_size ≤ s.index)
    (fun s => s.index ≤ n ∧ s.cdirOfs.m_size ≤ s.index)
    (fun s => n - s.index)
    (by
      intro s hs
      obtain ⟨s1, b, hb, ha, hle, hsz, _, hprog⟩ := cdBody_idx n cmd s hs.1 hs.2
      refine ⟨s1, b, hb, fun _ => ⟨hle, hsz⟩, fun _ hc => ⟨⟨hle, hsz⟩, ?_⟩⟩
      have hc' : s1.index < n := by simpa using hc
      have := hprog (by omega)
      show n - s1.index < n - s.index
      omega)
    (n + 1) _ ⟨Nat.zero_le _, Nat.le_refl _⟩ (by show n - 0 < n + 1; omega)

theorem whileVisits_cond {σ : Type} (cond : σ → Bool) (body : σ → σ) :
    ∀ fuel s, ∀ v ∈ whileVisits cond body fuel s, cond v = true := by
  intro fuel
  induction fuel with
  | zero => intro s v hv; simp [whileVisits] at hv
  | succ fuel ih =>
    intro s v hv
    unfold whileVisits at hv
    by_cases hc : cond s = true
    · rw [if_pos hc] at hv
      rcases List.mem_cons.1 hv with h | h
      · rw [h]; exact hc
      · exact ih _ v h
    · rw [if_neg hc] at hv
      simp at hv

/-- The bodies of loops guarded by `index < numEntries` are entered only with
the index below the entry count. -/
theorem whileVisits_index (n : Nat) (rest : LoopState → Bool) (body : LoopState → LoopState)
    (fuel : Nat) (st : LoopState) :
    ∀ v ∈ whileVisits (fun s : LoopState => decide (s.index < n) && rest s) body fuel st,
      v.index < n := by
  intro v hv
  have := whileVisits_cond _ _ fuel st v hv
  simp only [Bool.and_eq_true, decide_eq_true_eq] at this
  exact this.1

/-- The part of `deleteFiles` after the `numDel` test returns whatever the
session and the tables hold. -/
theorem compact_total (s : Zip) (n : Nat) (indices : List Nat) (cmd : Nat → EntryCommand)
    (numDel : Nat) (entryPos : Nat → EntryPosition) :
    ∃ s1, compact s n indices cmd numDel entryPos = some s1 := by
  unfold compact
  simp only
  obtain ⟨st1, h1, _⟩ := compactLocal_idx n indices cmd
    (deriveLengths n s.zip_.m_archive_size s.zip_.m_central_dir.m_size indices entryPos)
    s.zip_.m_central_dir.m_p s.zip_.m_central_dir_offsets s.file_
  rw [h1]
  simp only
  obtain ⟨st2, h2, _⟩ := compactDir_idx n cmd st1
  rw [h2]
  exact ⟨_, rfl⟩

/-- The method `deleteFiles` returns in every session state and for every
selection. -/
theorem deleteFiles_total {P : Type} (norm : P → List Nat) (s : Zip) (names : List P) :
    ∃ r, s.deleteFiles norm names = some r := by
  unfold Zip.deleteFiles
  simp only
  repeat' split
  all_goals first
    | exact ⟨_, rfl⟩
    | (rename_i h; 
       obtain ⟨s1, hs1⟩ := compact_total s _ _ _ _ _
       rw [hs1] at h
       cases h)

/-- What the offset field of a surviving entry holds after `deleteFiles` on an
archive with pairwise distinct offsets below 2^32. -/
theorem offsets_after_delete {P : Type} (norm : P → List Nat) (s : Zip) (names : List P)
    (hmode : s.openMode_ = OpenMode.Update) (hne : names ≠ [])
    (hvalid : ∀ p ∈ names, norm p ≠ [])
    (hok : DirOK s.zip_.tomz_zip_archive) (hl : LocalOK s.zip_.tomz_zip_archive)
    (h32 : ∀ i, i < s.zip_.m_total_files → dirLfOfs s.zip_.tomz_zip_archive i < U32) :
    ∃ s1, s.deleteFiles norm names = some (.ok (), s1) ∧
      ∀ k, k < s.zip_.m_total_files →
        physSel s.zip_.tomz_zip_archive (names.map norm) k = false →
        dirName s1.zip_.tomz_zip_archive
            (keptCount (selectedEntry s.zip_.tomz_zip_archive (names.map norm))
              ((physOrder s.zip_.tomz_zip_archive).getD k 0))
          = dirName s.zip_.tomz_zip_archive ((physOrder s.zip_.tomz_zip_archive).getD k 0) ∧
        dirLfOfs s1.zip_.tomz_zip_archive
            (keptCount (selectedEntry s.zip_.tomz_zip_archive (names.map norm))
              ((physOrder s.zip_.tomz_zip_archive).getD k 0))
          = physOfs s.zip_.tomz_zip_archive k
            - goneLen (physSel s.zip_.tomz_zip_archive (names.map norm))
                (physLen s.zip_.tomz_zip_archive) k ∧
        ((∀ j, j < k → physSel s.zip_.tomz_zip_archive (names.map norm) j = false) →
          dirLfOfs s1.zip_.tomz_zip_archive
              (keptCount (selectedEntry s.zip_.tomz_zip_archive (names.map norm))
                ((physOrder s.zip_.tomz_zip_archive).getD k 0))
            = dirLfOfs s.zip_.tomz_zip_archive
                ((physOrder s.zip_.tomz_zip_archive).getD k 0)) := by
  -- the third statement follows from the second
  have hthird : ∀ (s1 : Zip) (k : Nat),
      dirLfOfs s1.zip_.tomz_zip_archive
          (keptCount (selectedEntry s.zip_.tomz_zip_archive (names.map norm))
            ((physOrder s.zip_.tomz_zip_archive).getD k 0))
        = physOfs s.zip_.tomz_zip_archive k
          - goneLen (physSel s.zip_.tomz_zip_archive (names.map norm))
              (physLen s.zip_.tomz_zip_archive) k →
      (∀ j, j < k → physSel s.zip_.tomz_zip_archive (names.map norm) j = false) →
      dirLfOfs s1.zip_.tomz_zip_archive
          (keptCount (selectedEntry s.zip_.tomz_zip_archive (names.map norm))
            ((physOrder s.zip_.tomz_zip_archive).getD k 0))
        = dirLfOfs s.zip_.tomz_zip_archive ((physOrder s.zip_.tomz_zip_archive).getD k 0) := by
    intro s1 k h2 hnone
    rw [h2, goneLen_of_none _ _ k hnone]
    rfl
  obtain ⟨hcmd, hnum⟩ := entryCmdOf_spec s.zip_.tomz_zip_archive (names.map norm)
  rw [deleteFiles_eq norm s names hmode hne hvalid]
  by_cases hn : s.zip_.m_total_files = 0
  · rw [if_pos hn]
    exact ⟨s, rfl, fun k hk => by omega⟩
  rw [if_neg hn]
  by_cases hd : (entryCmdOf s.zip_.tomz_zip_archive (names.map norm)).2 = 0
  · -- nothing is deleted
    rw [if_pos hd]
    rw [hnum] at hd
    have hnone : ∀ e, e < s.zip_.m_total_files →
        selectedEntry s.zip_.tomz_zip_archive (names.map norm) e = false := by
      intro e he
      have := List.countP_eq_zero.1 hd e (List.mem_range.2 he)
      simpa using this
    have hnoneP : ∀ j, j < s.zip_.m_total_files →
        physSel s.zip_.tomz_zip_archive (names.map norm) j = false :=
      fun j hj => hnone _ (physOrder_lt _ j hj)
    refine ⟨s, rfl, ?_⟩
    intro k hk _
    have he := physOrder_lt s.zip_.tomz_zip_archive k hk
    have hr : keptCount (selectedEntry s.zip_.tomz_zip_archive (names.map norm))
        ((physOrder s.zip_.tomz_zip_archive).getD k 0)
        = (physOrder s.zip_.tomz_zip_archive).getD k 0 :=
      keptCount_of_none _ _ (fun j hj => hnone j (by omega))
    have h2 : dirLfOfs s.zip_.tomz_zip_archive
        (keptCount (selectedEntry s.zip_.tomz_zip_archive (names.map norm))
          ((physOrder s.zip_.tomz_zip_archive).getD k 0))
        = physOfs s.zip_.tomz_zip_archive k
          - goneLen (physSel s.zip_.tomz_zip_archive (names.map norm))
              (physLen s.zip_.tomz_zip_archive) k := by
      rw [hr, goneLen_of_none _ _ k (fun j hj => hnoneP j (by omega))]
      rfl
    exact ⟨by rw [hr], h2, hthird s k h2⟩
  · -- the compaction runs
    rw [if_neg hd]
    have hn' : 0 < s.zip_.m_total_files := by omega
    obtain ⟨st1, st2, s1, hs1, _, _, _, _, hofs, hdir, hlf, hidx1, hcd, hidx2, hout⟩ :=
      compact_strong s (names.map norm) hok hl hn'
    rw [hs1]
    refine ⟨s1, rfl, ?_⟩
    intro k hk hsel
    have he := physOrder_lt s.zip_.tomz_zip_archive k hk
    obtain ⟨hofs1, hrec⟩ := survivor_record s s1 (names.map norm) st1 st2 hok hofs hdir hcd
      hidx2 _ he hsel
    have hce := cdLen_ge _ hok _ he
    have hrs := recordSpan_ge s.zip_.tomz_zip_archive
      ((physOrder s.zip_.tomz_zip_archive).getD k 0)
    have hname : dirName s1.zip_.tomz_zip_archive
        (keptCount (selectedEntry s.zip_.tomz_zip_archive (names.map norm))
          ((physOrder s.zip_.tomz_zip_archive).getD k 0))
        = dirName s.zip_.tomz_zip_archive ((physOrder s.zip_.tomz_zip_archive).getD k 0) := by
      unfold dirName
      refine (recordName_congr _ _ ?_).symm
      intro i hi hrange
      have hi' : i < cdLen s.zip_.tomz_zip_archive
          ((physOrder s.zip_.tomz_zip_archive).getD k 0) := by
        have h2 : recordSpan s.zip_.tomz_zip_archive
            ((physOrder s.zip_.tomz_zip_archive).getD k 0)
            = MZ_ZIP_CENTRAL_DIR_HEADER_SIZE +
              min (MZ_READ_LE16 (dirRecord s.zip_.tomz_zip_archive
                ((physOrder s.zip_.tomz_zip_archive).getD k 0)) MZ_ZIP_CDH_FILENAME_LEN_OFS)
                (MZ_ZIP_MAX_ARCHIVE_FILENAME_SIZE - 1) := rfl
        omega
      rw [hrec i hi', hout _ (windows_disjoint _ hok _ i he hi' hrange)]
      unfold dirRecord
      rw [List.getElem?_drop]
    have hcdofs : ((lfStart s).entryPos ((physOrder s.zip_.tomz_zip_archive).getD k 0)).cd_ofs_
        = dirOfs s.zip_.tomz_zip_archive ((physOrder s.zip_.tomz_zip_archive).getD k 0) :=
      (derived_cd _ hok hn' s.zip_.m_archive_size _ he).1
    have hpatch := hlf.patch k hk
    rw [hcdofs, hidx1] at hpatch
    have hdelk : lfDelAt (physOrder s.zip_.tomz_zip_archive)
        (entryCmdOf s.zip_.tomz_zip_archive (names.map norm)).1 k = false := by
      rw [lfDelAt_eq _ _ k hk]; exact hsel
    have hbytes : ∀ i, i < 4 →
        (dirRecord s1.zip_.tomz_zip_archive
          (keptCount (selectedEntry s.zip_.tomz_zip_archive (names.map norm))
            ((physOrder s.zip_.tomz_zip_archive).getD k 0)))[MZ_ZIP_CDH_LOCAL_HEADER_OFS + i]?
        = st1.cdir[dirOfs s.zip_.tomz_zip_archive
            ((physOrder s.zip_.tomz_zip_archive).getD k 0) + 42 + i]? := by
      intro i hi
      rw [hrec _ (by unfold MZ_ZIP_CDH_LOCAL_HEADER_OFS; omega)]
      congr 1
      unfold MZ_ZIP_CDH_LOCAL_HEADER_OFS
      omega
    have h2 : dirLfOfs s1.zip_.tomz_zip_archive
        (keptCount (selectedEntry s.zip_.tomz_zip_archive (names.map norm))
          ((physOrder s.zip_.tomz_zip_archive).getD k 0))
        = physOfs s.zip_.tomz_zip_archive k
          - goneLen (physSel s.zip_.tomz_zip_archive (names.map norm))
              (physLen s.zip_.tomz_zip_archive) k := by
      unfold dirLfOfs
      by_cases hmv : (entryCmdOf s.zip_.tomz_zip_archive (names.map norm)).1
          ((physOrder s.zip_.tomz_zip_archive).getD k 0) = EntryCommand.Move
      · rw [MZ_READ_LE32_of_bytes _ _
          (lfOfsAt (physOrder s.zip_.tomz_zip_archive) (lfStart s) k
            - goneLen (lfDelAt (physOrder s.zip_.tomz_zip_archive)
                (entryCmdOf s.zip_.tomz_zip_archive (names.map norm)).1)
              (lfLenAt (physOrder s.zip_.tomz_zip_archive) (lfStart s)) k)
          (fun i hi => by rw [hbytes i hi, hpatch i hi, if_pos ⟨hk, hmv⟩])]
        rw [(derived_lf s hl hn' k hk).1, (lf_sums s (names.map norm) hl hn' k (by omega)).1]
        have hb := h32 _ he
        have hb' : physOfs s.zip_.tomz_zip_archive k < U32 := hb
        exact Nat.mod_eq_of_lt (by omega)
      · have hkeep : (entryCmdOf s.zip_.tomz_zip_archive (names.map norm)).1
            ((physOrder s.zip_.tomz_zip_archive).getD k 0) = EntryCommand.Keep := by
          have hnd : (entryCmdOf s.zip_.tomz_zip_archive (names.map norm)).1
              ((physOrder s.zip_.tomz_zip_archive).getD k 0) ≠ EntryCommand.Delete := by
            intro hc
            unfold lfDelAt at hdelk
            rw [hc] at hdelk
            cases hdelk
          cases hc : (entryCmdOf s.zip_.tomz_zip_archive (names.map norm)).1
            ((physOrder s.zip_.tomz_zip_archive).getD k 0)
          · rfl
          · exact absurd hc hnd
          · exact absurd hc hmv
        have hH := lfHyp_start s (names.map norm) hok hl hn'
        have hbefore : ∀ j, j < k →
            physSel s.zip_.tomz_zip_archive (names.map norm) j = false := by
          intro j hj
          rw [← lfDelAt_eq _ _ j (by omega)]
          unfold lfDelAt
          rw [hH.keep k hk hkeep j hj]
          rfl
        rw [goneLen_of_none _ _ k hbefore]
        exact MZ_READ_LE32_congr _ _ _ _
          (fun i hi => by
            rw [hbytes i hi, hpatch i hi, if_neg (fun h => hmv h.2)]
            unfold dirRecord
            rw [List.getElem?_drop]
            show s.zip_.m_central_dir.m_p[_]? = _
            congr 1
            unfold MZ_ZIP_CDH_LOCAL_HEADER_OFS
            omega)
    exact ⟨hname, h2, hthird s1 k h2⟩

/-- Where the bytes of a surviving entry are found after `deleteFiles` on an
archive whose local data tile the head of the file. -/
theorem bytes_after_delete {P : Type} (norm : P → List Nat) (s : Zip) (names : List P)
    (hmode : s.openMode_ = OpenMode.Update) (hne : names ≠ [])
    (hvalid : ∀ p ∈ names, norm p ≠ [])
    (hok : DirOK s.zip_.tomz_zip_archive) (hl : LocalOK s.zip_.tomz_zip_archive)
    (hzero : physOfs s.zip_.tomz_zip_archive 0 = 0)
    (hfile : s.file_.failed = false) (hsize : s.zip_.m_archive_size ≤ s.file_.bytes.length) :
    ∃ s1, s.deleteFiles norm names = some (.ok (), s1) ∧
      ∀ k, k < s.zip_.m_total_files →
        physSel s.zip_.tomz_zip_archive (names.map norm) k = false →
        slice s1.file_.bytes
            (physOfs s.zip_.tomz_zip_archive k
              - goneLen (physSel s.zip_.tomz_zip_archive (names.map norm))
                  (physLen s.zip_.tomz_zip_archive) k)
            (physLen s.zip_.tomz_zip_archive k)
          = slice s.file_.bytes (physOfs s.zip_.tomz_zip_archive k)
              (physLen s.zip_.tomz_zip_archive k) := by
  obtain ⟨hcmd, hnum⟩ := entryCmdOf_spec s.zip_.tomz_zip_archive (names.map norm)
  rw [deleteFiles_eq norm s names hmode hne hvalid]
  by_cases hn : s.zip_.m_total_files = 0
  · rw [if_pos hn]
    exact ⟨s, rfl, fun k hk => by omega⟩
  rw [if_neg hn]
  by_cases hd : (entryCmdOf s.zip_.tomz_zip_archive (names.map norm)).2 = 0
  · rw [if_pos hd]
    rw [hnum] at hd
    have hnone : ∀ e, e < s.zip_.m_total_files →
        selectedEntry s.zip_.tomz_zip_archive (names.map norm) e = false := by
      intro e he
      have := List.countP_eq_zero.1 hd e (List.mem_range.2 he)
      simpa using this
    refine ⟨s, rfl, ?_⟩
    intro k hk _
    have hg : goneLen (physSel s.zip_.tomz_zip_archive (names.map norm))
        (physLen s.zip_.tomz_zip_archive) k = 0 :=
      goneLen_of_none _ _ k (fun j hj => hnone _ (physOrder_lt _ j (by omega)))
    rw [hg]
    rfl
  · rw [if_neg hd]
    have hn' : 0 < s.zip_.m_total_files := by omega
    obtain ⟨st1, st2, s1, hs1, hfile1, _, _, _, _, _, hlf, hidx1, _, _, _⟩ :=
      compact_strong s (names.map norm) hok hl hn'
    rw [hs1]
    refine ⟨s1, rfl, ?_⟩
    intro k hk hsel
    have htot := physOfs_total _ hl hn'
    obtain ⟨_, _, hsumN⟩ := lf_sums s (names.map norm) hl hn' _ (Nat.le_refl _)
    have hF := hlf.fok hfile (by
      show sumTo _ _ ≤ s.file_.bytes.length
      rw [hsumN]; omega)
    obtain ⟨_, hkeptk, hsumk⟩ := lf_sums s (names.map norm) hl hn' k (by omega)
    have htile := physOfs_tile _ hl k hk
    have hkg := kept_add_gone (physSel s.zip_.tomz_zip_archive (names.map norm))
      (physLen s.zip_.tomz_zip_archive) k
    have hdelk : lfDelAt (physOrder s.zip_.tomz_zip_archive)
        (entryCmdOf s.zip_.tomz_zip_archive (names.map norm)).1 k = false := by
      rw [lfDelAt_eq _ _ k hk]; exact hsel
    apply slice_eq_of_getElem?
    intro i hi
    have h1 := hF.kept k (by rw [hidx1]; exact hk) hdelk i
      (by rw [(derived_lf s hl hn' k hk).2]; exact hi)
    rw [hkeptk, hsumk] at h1
    rw [hfile1]
    have e1 : physOfs s.zip_.tomz_zip_archive k
        - goneLen (physSel s.zip_.tomz_zip_archive (names.map norm))
            (physLen s.zip_.tomz_zip_archive) k
        = keptLen (physSel s.zip_.tomz_zip_archive (names.map norm))
            (physLen s.zip_.tomz_zip_archive) k := by omega
    have e2 : physOfs s.zip_.tomz_zip_archive k
        = sumTo (physLen s.zip_.tomz_zip_archive) k := by omega
    rw [e1, h1]
    show s.file_.bytes[_]? = _
    rw [← e2]

/-! ## Deletion: the directory afterwards -/

/-- C1: in `Update` mode, for a non-empty selection of valid names on an archive
with a well-formed directory, `deleteFiles` returns normally and the names the
directory then lists (in index order, as `listEntries` reads them) are the
names listed before with every entry matched by the selection removed and the
others in their original order; the entry count drops by the number of matched
entries. -/
theorem deleteFiles_names {P : Type} (norm : P → List Nat) (s : Zip) (names : List P)
    (hmode : s.openMode_ = OpenMode.Update) (hne : names ≠ [])
    (hvalid : ∀ p ∈ names, norm p ≠ []) (hok : DirOK s.zip_.tomz_zip_archive) :
    ∃ s1 entries, s.deleteFiles norm names = some (.ok (), s1) ∧
      s.listEntries = .ok entries ∧
      s1.listEntries = .ok (entries.filter (fun e => !isSelected (names.map norm) e)) ∧
      s1.countEntries
        = .ok (entries.length - entries.countP (isSelected (names.map norm))) := by
  have hread : notReadable s.openMode_ = false := by rw [hmode]; rfl
  have hcnt : s.countEntries = .ok s.zip_.m_total_files := by
    simp [Zip.countEntries, hread]
  obtain ⟨hcmd, hnum⟩ := entryCmdOf_spec s.zip_.tomz_zip_archive (names.map norm)
  have hcp : ((List.range s.zip_.m_total_files).map (dirName s.zip_.tomz_zip_archive)).countP
      (isSelected (names.map norm))
      = (List.range s.zip_.m_total_files).countP
        (selectedEntry s.zip_.tomz_zip_archive (names.map norm)) := by
    rw [List.countP_map]; rfl
  have hlenE : ((List.range s.zip_.m_total_files).map (dirName s.zip_.tomz_zip_archive)).length
      = s.zip_.m_total_files := by simp
  have key : ∃ s1, s.deleteFiles norm names = some (.ok (), s1) ∧
      s1.listEntries = .ok (((List.range s.zip_.m_total_files).map
        (dirName s.zip_.tomz_zip_archive)).filter
          (fun e => !isSelected (names.map norm) e)) ∧
      s1.countEntries = .ok (s.zip_.m_total_files -
        (List.range s.zip_.m_total_files).countP
          (selectedEntry s.zip_.tomz_zip_archive (names.map norm))) := by
    rw [deleteFiles_eq norm s names hmode hne hvalid]
    by_cases hn : s.zip_.m_total_files = 0
    · rw [if_pos hn]
      refine ⟨s, rfl, ?_, ?_⟩
      · rw [listEntries_eq s hread, hn]; rfl
      · rw [hcnt, hn]; rfl
    · rw [if_neg hn]
      by_cases hd : (entryCmdOf s.zip_.tomz_zip_archive (names.map norm)).2 = 0
      · rw [if_pos hd]
        rw [hnum] at hd
        refine ⟨s, rfl, ?_, ?_⟩
        · rw [listEntries_eq s hread]
          congr 1
          symm
          rw [List.filter_eq_self]
          intro e he
          obtain ⟨i, hi, rfl⟩ := List.mem_map.1 he
          have := List.countP_eq_zero.1 hd i hi
          simpa [selectedEntry] using this
        · rw [hcnt, hd]; rfl
      · rw [if_neg hd]
        obtain ⟨st1, st2, s1, _, _, hs1, hfile, hfn, hom, _, _, _, htot, hofs, hdir, hlen1, hout,
          hinv, hidx⟩ := compact_weak s (entryCmdOf s.zip_.tomz_zip_archive (names.map norm)).1
            (entryCmdOf s.zip_.tomz_zip_archive (names.map norm)).2 hok (by omega)
        rw [hs1]
        have hread1 : notReadable s1.openMode_ = false := by rw [hom]; exact hread
        have hkc := keptCount_add
          (fun j => (entryCmdOf s.zip_.tomz_zip_archive (names.map norm)).1 j
            == EntryCommand.Delete) s.zip_.m_total_files
        have hcc : (List.range s.zip_.m_total_files).countP
            (fun j => (entryCmdOf s.zip_.tomz_zip_archive (names.map norm)).1 j
              == EntryCommand.Delete)
            = (List.range s.zip_.m_total_files).countP
              (selectedEntry s.zip_.tomz_zip_archive (names.map norm)) := by
          apply List.countP_congr
          intro e he
          rw [hcmd e (List.mem_range.1 he)]
        rw [hcc] at hkc
        have hle : (List.range s.zip_.m_total_files).countP
            (selectedEntry s.zip_.tomz_zip_archive (names.map norm)) ≤ s.zip_.m_total_files := by
          omega
        have htot1 : s1.zip_.m_total_files
            = keptCount (fun j => (entryCmdOf s.zip_.tomz_zip_archive (names.map norm)).1 j
              == EntryCommand.Delete) s.zip_.m_total_files := by
          rw [htot, hnum, sub32_eq _ _ hle hok.count_lt]
          omega
        refine ⟨s1, rfl, ?_, ?_⟩
        · rw [listEntries_eq s1 hread1, htot1,
            ← length_keptOfs _ (cdLen s.zip_.tomz_zip_archive)]
          congr 1
          have hmap := map_getD_eq (fun o => recordName (st2.cdir.drop o)) st2.cdirOfs.m_p
            (keptOfs (fun j => (entryCmdOf s.zip_.tomz_zip_archive (names.map norm)).1 j
              == EntryCommand.Delete) (cdLen s.zip_.tomz_zip_archive) s.zip_.m_total_files)
            (by
              intro r hr
              rw [length_keptOfs] at hr
              have := hinv.ofs r (by rw [hidx]; exact hr)
              rw [hidx] at this
              exact this)
          have hdn : (fun r => dirName s1.zip_.tomz_zip_archive r)
              = (fun r => recordName (st2.cdir.drop (st2.cdirOfs.m_p.getD r 0))) := by
            funext r
            unfold dirName dirRecord dirOfs
            rw [hofs, hdir]
          rw [show dirName s1.zip_.tomz_zip_archive
            = (fun r => dirName s1.zip_.tomz_zip_archive r) from rfl, hdn, hmap]
          rw [kept_names s.zip_.tomz_zip_archive _ st2.cdir hok ?_ _ (Nat.le_refl _),
            List.filter_map]
          · congr 1
            apply List.filter_congr
            intro e he
            simp only [Function.comp]
            rw [hcmd e (List.mem_range.1 he)]
            rfl
          · intro j hj hdel i hi hrange
            have h1 := hinv.kept j (by rw [hidx]; exact hj) hdel i hi
            rw [← dirOfs_eq_sumTo _ hok j hj] at h1
            rw [h1]
            exact hout _ (windows_disjoint _ hok j i hj hi hrange)
        · simp only [Zip.countEntries, hread1, Bool.false_eq_true, if_false]
          rw [htot1]
          congr 1
          omega
  obtain ⟨s1, h1, h2, h3⟩ := key
  refine ⟨s1, (List.range s.zip_.m_total_files).map (dirName s.zip_.tomz_zip_archive), h1,
    listEntries_eq s hread, h2, ?_⟩
  rw [h3, hlenE, hcp]

/-- Witness for C1: deleting `dir` from the sample archive. -/
theorem deleteFiles_names_witness :
    ∃ s1 entries, demo.deleteFiles (fun p : List Nat => p) [bytesOf "dir"] = some (.ok (), s1) ∧
      demo.listEntries = .ok entries ∧
      s1.listEntries = .ok (entries.filter (fun e => !isSelected [bytesOf "dir"] e)) ∧
      s1.countEntries = .ok (entries.length - entries.countP (isSelected [bytesOf "dir"])) :=
  deleteFiles_names (fun p : List Nat => p) demo [bytesOf "dir"] rfl (by decide) (by decide)
    demo_dirOK


/-! ## What deletion does to the file, the offsets and the sizes -/

/-- C2: on a well-formed archive whose local data start at file offset 0 and
tile the first `m_archive_size` bytes of the file at pairwise distinct offsets
(in whatever order the directory lists them), with the file stream sound,
after `deleteFiles` the bytes of every surviving entry are found unchanged at
its old offset minus the total local-data length of the deleted entries that
physically precede it. -/
theorem deleteFiles_bytes {P : Type} (norm : P → List Nat) (s : Zip) (names : List P)
    (hmode : s.openMode_ = OpenMode.Update) (hne : names ≠ [])
    (hvalid : ∀ p ∈ names, norm p ≠ [])
    (hok : DirOK s.zip_.tomz_zip_archive) (hl : LocalOK s.zip_.tomz_zip_archive)
    (hzero : physOfs s.zip_.tomz_zip_archive 0 = 0)
    (hfile : s.file_.failed = false) (hsize : s.zip_.m_archive_size ≤ s.file_.bytes.length) :
    ∃ s1, s.deleteFiles norm names = some (.ok (), s1) ∧
      ∀ k, k < s.zip_.m_total_files →
        physSel s.zip_.tomz_zip_archive (names.map norm) k = false →
        slice s1.file_.bytes
            (physOfs s.zip_.tomz_zip_archive k
              - goneLen (physSel s.zip_.tomz_zip_archive (names.map norm))
                  (physLen s.zip_.tomz_zip_archive) k)
            (physLen s.zip_.tomz_zip_archive k)
          = slice s.file_.bytes (physOfs s.zip_.tomz_zip_archive k)
              (physLen s.zip_.tomz_zip_archive k) := by
  obtain ⟨hcmd, hnum⟩ := entryCmdOf_spec s.zip_.tomz_zip_archive (names.map norm)
  rw [deleteFiles_eq norm s names hmode hne hvalid]
  by_cases hn : s.zip_.m_total_files = 0
  · rw [if_pos hn]
    exact ⟨s, rfl, fun k hk => by omega⟩
  rw [if_neg hn]
  by_cases hd : (entryCmdOf s.zip_.tomz_zip_archive (names.map norm)).2 = 0
  · rw [if_pos hd]
    rw [hnum] at hd
    have hnone : ∀ e, e < s.zip_.m_total_files →
        selectedEntry s.zip_.tomz_zip_archive (names.map norm) e = false := by
      intro e he
      have := List.countP_eq_zero.1 hd e (List.mem_range.2 he)
      simpa using this
    refine ⟨s, rfl, ?_⟩
    intro k hk _
    have hg : goneLen (physSel s.zip_.tomz_zip_archive (names.map norm))
        (physLen s.zip_.tomz_zip_archive) k = 0 :=
      goneLen_of_none _ _ k (fun j hj => hnone _ (physOrder_lt _ j (by omega)))
    rw [hg]
    rfl
  · rw [if_neg hd]
    have hn' : 0 < s.zip_.m_total_files := by omega
    obtain ⟨st1, st2, s1, hs1, hfile1, _, _, _, _, _, hlf, hidx1, _, _, _⟩ :=
      compact_strong s (names.map norm) hok hl hn'
    rw [hs1]
    refine ⟨s1, rfl, ?_⟩
    intro k hk hsel
    have htot := physOfs_total _ hl hn'
    obtain ⟨_, _, hsumN⟩ := lf_sums s (names.map norm) hl hn' _ (Nat.le_refl _)
    have hF := hlf.fok hfile (by
      show sumTo _ _ ≤ s.file_.bytes.length
      rw [hsumN]; omega)
    obtain ⟨_, hkeptk, hsumk⟩ := lf_sums s (names.map norm) hl hn' k (by omega)
    have htile := physOfs_tile _ hl k hk
    have hkg := kept_add_gone (physSel s.zip_.tomz_zip_archive (names.map norm))
      (physLen s.zip_.tomz_zip_archive) k
    have hdelk : lfDelAt (physOrder s.zip_.tomz_zip_archive)
        (entryCmdOf s.zip_.tomz_zip_archive (names.map norm)).1 k = false := by
      rw [lfDelAt_eq _ _ k hk]; exact hsel
    apply slice_eq_of_getElem?
    intro i hi
    have h1 := hF.kept k (by rw [hidx1]; exact hk) hdelk i
      (by rw [(derived_lf s hl hn' k hk).2]; exact hi)
    rw [hkeptk, hsumk] at h1
    rw [hfile1]
    have e1 : physOfs s.zip_.tomz_zip_archive k
        - goneLen (physSel s.zip_.tomz_zip_archive (names.map norm))
            (physLen s.zip_.tomz_zip_archive) k
        = keptLen (physSel s.zip_.tomz_zip_archive (names.map norm))
            (physLen s.zip_.tomz_zip_archive) k := by omega
    have e2 : physOfs s.zip_.tomz_zip_archive k
        = sumTo (physLen s.zip_.tomz_zip_archive) k := by omega
    rw [e1, h1]
    show s.file_.bytes[_]? = _
    rw [← e2]

/-- Witness for C2: in the second sample archive, whose directory order is the
reverse of the physical order, deleting `a` leaves the bytes of `b`. -/
theorem deleteFiles_bytes_witness :
    ∃ s1, demo2.deleteFiles (fun p : List Nat => p) [bytesOf "a"] = some (.ok (), s1) ∧
      ∀ k, k < demo2.zip_.m_total_files →
        physSel demo2.zip_.tomz_zip_archive [bytesOf "a"] k = false →
        slice s1.file_.bytes
            (physOfs demo2.zip_.tomz_zip_archive k
              - goneLen (physSel demo2.zip_.tomz_zip_archive [bytesOf "a"])
                  (physLen demo2.zip_.tomz_zip_archive) k)
            (physLen demo2.zip_.tomz_zip_archive k)
          = slice demo2.file_.bytes (physOfs demo2.zip_.tomz_zip_archive k)
              (physLen demo2.zip_.tomz_zip_archive k) :=
  deleteFiles_bytes (fun p : List Nat => p) demo2 [bytesOf "a"] rfl (by decide) (by decide)
    demo2_dirOK demo2_localOK demo2_physOfs_zero rfl (by decide)

/-- C3: on a well-formed archive whose local data start at file offset 0 and
tile the first `m_archive_size` bytes of the file at pairwise distinct
local-header offsets below 2^32, with the file stream sound, after
`deleteFiles` the directory record of every surviving entry (found at the
entry's new index, with its name unchanged) stores as local-header offset the
old offset minus the total local-data length of the deleted entries physically
before it, and that is where the entry's local data now are: the bytes of the
file from the stored offset on are the bytes the entry had at its old offset.
For an entry with no deleted entry physically before it the field is
unchanged. -/
theorem deleteFiles_offsets {P : Type} (norm : P → List Nat) (s : Zip) (names : List P)
    (hmode : s.openMode_ = OpenMode.Update) (hne : names ≠ [])
    (hvalid : ∀ p ∈ names, norm p ≠ [])
    (hok : DirOK s.zip_.tomz_zip_archive) (hl : LocalOK s.zip_.tomz_zip_archive)
    (h32 : ∀ i, i < s.zip_.m_total_files → dirLfOfs s.zip_.tomz_zip_archive i < U32)
    (hzero : physOfs s.zip_.tomz_zip_archive 0 = 0)
    (hfile : s.file_.failed = false) (hsize : s.zip_.m_archive_size ≤ s.file_.bytes.length) :
    ∃ s1, s.deleteFiles norm names = some (.ok (), s1) ∧
      ∀ k, k < s.zip_.m_total_files →
        physSel s.zip_.tomz_zip_archive (names.map norm) k = false →
        dirName s1.zip_.tomz_zip_archive
            (keptCount (selectedEntry s.zip_.tomz_zip_archive (names.map norm))
              ((physOrder s.zip_.tomz_zip_archive).getD k 0))
          = dirName s.zip_.tomz_zip_archive ((physOrder s.zip_.tomz_zip_archive).getD k 0) ∧
        dirLfOfs s1.zip_.tomz_zip_archive
            (keptCount (selectedEntry s.zip_.tomz_zip_archive (names.map norm))
              ((physOrder s.zip_.tomz_zip_archive).getD k 0))
          = physOfs s.zip_.tomz_zip_archive k
            - goneLen (physSel s.zip_.tomz_zip_archive (names.map norm))
                (physLen s.zip_.tomz_zip_archive) k ∧
        slice s1.file_.bytes
            (dirLfOfs s1.zip_.tomz_zip_archive
              (keptCount (selectedEntry s.zip_.tomz_zip_archive (names.map norm))
                ((physOrder s.zip_.tomz_zip_archive).getD k 0)))
            (physLen s.zip_.tomz_zip_archive k)
          = slice s.file_.bytes (physOfs s.zip_.tomz_zip_archive k)
              (physLen s.zip_.tomz_zip_archive k) ∧
        ((∀ j, j < k → physSel s.zip_.tomz_zip_archive (names.map norm) j = false) →
          dirLfOfs s1.zip_.tomz_zip_archive
              (keptCount (selectedEntry s.zip_.tomz_zip_archive (names.map norm))
                ((physOrder s.zip_.tomz_zip_archive).getD k 0))
            = dirLfOfs s.zip_.tomz_zip_archive
                ((physOrder s.zip_.tomz_zip_archive).getD k 0)) := by
  obtain ⟨s1, h1, hA⟩ := offsets_after_delete norm s names hmode hne hvalid hok hl h32
  obtain ⟨s2, h2, hB⟩ := bytes_after_delete norm s names hmode hne hvalid hok hl hzero
    hfile hsize
  have he : s2 = s1 := by
    rw [h1] at h2
    simp only [Option.some.injEq, Prod.mk.injEq, true_and] at h2
    exact h2.symm
  subst he
  refine ⟨s2, h1, ?_⟩
  intro k hk hsel
  obtain ⟨hn, hf, hu⟩ := hA k hk hsel
  refine ⟨hn, hf, ?_, hu⟩
  rw [hf]
  exact hB k hk hsel

/-- Witness for C3: in the second sample archive, deleting `a` (physically
first) patches the record of `b`, whose bytes are found at the new offset. -/
theorem deleteFiles_offsets_witness :
    ∃ s1, demo2.deleteFiles (fun p : List Nat => p) [bytesOf "a"] = some (.ok (), s1) ∧
      ∀ k, k < demo2.zip_.m_total_files →
        physSel demo2.zip_.tomz_zip_archive [bytesOf "a"] k = false →
        dirName s1.zip_.tomz_zip_archive
            (keptCount (selectedEntry demo2.zip_.tomz_zip_archive [bytesOf "a"])
              ((physOrder demo2.zip_.tomz_zip_archive).getD k 0))
          = dirName demo2.zip_.tomz_zip_archive
              ((physOrder demo2.zip_.tomz_zip_archive).getD k 0) ∧
        dirLfOfs s1.zip_.tomz_zip_archive
            (keptCount (selectedEntry demo2.zip_.tomz_zip_archive [bytesOf "a"])
              ((physOrder demo2.zip_.tomz_zip_archive).getD k 0))
          = physOfs demo2.zip_.tomz_zip_archive k
            - goneLen (physSel demo2.zip_.tomz_zip_archive [bytesOf "a"])
                (physLen demo2.zip_.tomz_zip_archive) k ∧
        slice s1.file_.bytes
            (dirLfOfs s1.zip_.tomz_zip_archive
              (keptCount (selectedEntry demo2.zip_.tomz_zip_archive [bytesOf "a"])
                ((physOrder demo2.zip_.tomz_zip_archive).getD k 0)))
            (physLen demo2.zip_.tomz_zip_archive k)
          = slice demo2.file_.bytes (physOfs demo2.zip_.tomz_zip_archive k)
              (physLen demo2.zip_.tomz_zip_archive k) ∧
        ((∀ j, j < k → physSel demo2.zip_.tomz_zip_archive [bytesOf "a"] j = false) →
          dirLfOfs s1.zip_.tomz_zip_archive
              (keptCount (selectedEntry demo2.zip_.tomz_zip_archive [bytesOf "a"])
                ((physOrder demo2.zip_.tomz_zip_archive).getD k 0))
            = dirLfOfs demo2.zip_.tomz_zip_archive
                ((physOrder demo2.zip_.tomz_zip_archive).getD k 0)) :=
  deleteFiles_offsets (fun p : List Nat => p) demo2 [bytesOf "a"] rfl (by decide) (by decide)
    demo2_dirOK demo2_localOK demo2_ofs32 demo2_physOfs_zero rfl (by decide)

/-- Counterexample for C3 as stated, with offsets below 2^32 as its only
precondition, on two well-formed archives.  In the third sample archive `b`
and `c` share offset 4; deleting `a` and `c` ends the local-data pass at the
zero-length run of `b`, so the surviving entry `d` (physical position 3, new
index 1) keeps offset field 10, while its old offset minus the lengths of the
deleted entries before it is 0, and the recorded archive size becomes 12.  In
the fourth sample archive the offsets are distinct but the local data start
at offset 2; deleting `a` gives the surviving entry `b` (physical position 1,
new index 0) the field 5 - 3 = 2, but the four bytes found there are not the
bytes `b` had at offset 5. -/
theorem deleteFiles_offsets_failures :
    (∃ s1, demo3.deleteFiles (fun p : List Nat => p) [bytesOf "a", bytesOf "c"]
        = some (.ok (), s1) ∧
      DirOK demo3.zip_.tomz_zip_archive ∧
      (∀ i, i < demo3.zip_.m_total_files →
        dirLfOfs demo3.zip_.tomz_zip_archive i ≤ demo3.zip_.m_archive_size) ∧
      (∀ i, i < demo3.zip_.m_total_files → dirLfOfs demo3.zip_.tomz_zip_archive i < U32) ∧
      physSel demo3.zip_.tomz_zip_archive [bytesOf "a", bytesOf "c"] 3 = false ∧
      (physOrder demo3.zip_.tomz_zip_archive).getD 3 0 = 3 ∧
      keptCount (selectedEntry demo3.zip_.tomz_zip_archive [bytesOf "a", bytesOf "c"]) 3 = 1 ∧
      dirName demo3.zip_.tomz_zip_archive 3 = bytesOf "d" ∧
      dirLfOfs demo3.zip_.tomz_zip_archive 3 = 10 ∧
      physOfs demo3.zip_.tomz_zip_archive 3
        - goneLen (physSel demo3.zip_.tomz_zip_archive [bytesOf "a", bytesOf "c"])
            (physLen demo3.zip_.tomz_zip_archive) 3 = 0 ∧
      s1.zip_.m_total_files = 2 ∧
      dirName s1.zip_.tomz_zip_archive 1 = bytesOf "d" ∧
      dirLfOfs s1.zip_.tomz_zip_archive 1 = 10 ∧
      s1.zip_.m_archive_size = 12) ∧
    (∃ s1, demo4.deleteFiles (fun p : List Nat => p) [bytesOf "a"] = some (.ok (), s1) ∧
      DirOK demo4.zip_.tomz_zip_archive ∧ LocalOK demo4.zip_.tomz_zip_archive ∧
      (∀ i, i < demo4.zip_.m_total_files → dirLfOfs demo4.zip_.tomz_zip_archive i < U32) ∧
      demo4.file_.failed = false ∧
      demo4.zip_.m_archive_size ≤ demo4.file_.bytes.length ∧
      physOfs demo4.zip_.tomz_zip_archive 0 = 2 ∧
      physSel demo4.zip_.tomz_zip_archive [bytesOf "a"] 1 = false ∧
      (physOrder demo4.zip_.tomz_zip_archive).getD 1 0 = 1 ∧
      keptCount (selectedEntry demo4.zip_.tomz_zip_archive [bytesOf "a"]) 1 = 0 ∧
      physOfs demo4.zip_.tomz_zip_archive 1
        - goneLen (physSel demo4.zip_.tomz_zip_archive [bytesOf "a"])
            (physLen demo4.zip_.tomz_zip_archive) 1 = 2 ∧
      physLen demo4.zip_.tomz_zip_archive 1 = 4 ∧
      dirName s1.zip_.tomz_zip_archive 0 = bytesOf "b" ∧
      dirLfOfs s1.zip_.tomz_zip_archive 0 = 2 ∧
      slice s1.file_.bytes (dirLfOfs s1.zip_.tomz_zip_archive 0) 4 = [20, 21, 12, 20] ∧
      slice demo4.file_.bytes (physOfs demo4.zip_.tomz_zip_archive 1) 4
        = [20, 21, 22, 23]) := by
  constructor
  · have k1 : (demo3.deleteFiles (fun p : List Nat => p) [bytesOf "a", bytesOf "c"]).map
        (fun r => r.1.toBool) = some true := by decide!
    have k2 : (demo3.deleteFiles (fun p : List Nat => p) [bytesOf "a", bytesOf "c"]).map
        (fun r => r.2.zip_.m_total_files) = some 2 := by decide!
    have k3 : (demo3.deleteFiles (fun p : List Nat => p) [bytesOf "a", bytesOf "c"]).map
        (fun r => dirName r.2.zip_.tomz_zip_archive 1) = some (bytesOf "d") := by decide!
    have k4 : (demo3.deleteFiles (fun p : List Nat => p) [bytesOf "a", bytesOf "c"]).map
        (fun r => dirLfOfs r.2.zip_.tomz_zip_archive 1) = some 10 := by decide!
    have k5 : (demo3.deleteFiles (fun p : List Nat => p) [bytesOf "a", bytesOf "c"]).map
        (fun r => r.2.zip_.m_archive_size) = some 12 := by decide!
    obtain ⟨r, hr⟩ :
        ∃ r, demo3.deleteFiles (fun p : List Nat => p) [bytesOf "a", bytesOf "c"] = r :=
      ⟨_, rfl⟩
    rw [hr] at k1 k2 k3 k4 k5
    rw [hr]
    rcases r with _ | ⟨e | u, s1⟩
    · cases k1
    · cases k1
    · simp only [Option.map_some', Option.some.injEq] at k2 k3 k4 k5
      exact ⟨s1, rfl, demo3_dirOK, by decide!, by decide!, by decide!, by decide!, by decide!,
        by decide!, by decide!, by decide!, k2, k3, k4, k5⟩
  · have k1 : (demo4.deleteFiles (fun p : List Nat => p) [bytesOf "a"]).map
        (fun r => r.1.toBool) = some true := by decide!
    have k3 : (demo4.deleteFiles (fun p : List Nat => p) [bytesOf "a"]).map
        (fun r => dirName r.2.zip_.tomz_zip_archive 0) = some (bytesOf "b") := by decide!
    have k4 : (demo4.deleteFiles (fun p : List Nat => p) [bytesOf "a"]).map
        (fun r => dirLfOfs r.2.zip_.tomz_zip_archive 0) = some 2 := by decide!
    have k5 : (demo4.deleteFiles (fun p : List Nat => p) [bytesOf "a"]).map
        (fun r => slice r.2.file_.bytes 2 4) = some [20, 21, 12, 20] := by decide!
    obtain ⟨r, hr⟩ : ∃ r, demo4.deleteFiles (fun p : List Nat => p) [bytesOf "a"] = r :=
      ⟨_, rfl⟩
    rw [hr] at k1 k3 k4 k5
    rw [hr]
    rcases r with _ | ⟨e | u, s1⟩
    · cases k1
    · cases k1
    · simp only [Option.map_some', Option.some.injEq] at k3 k4 k5
      refine ⟨s1, rfl, demo4_dirOK, demo4_localOK, by decide!, rfl, by decide!, by decide!,
        by decide!, by decide!, by decide!, by decide!, by decide!, k3, k4, ?_, by decide!⟩
      rw [k4]
      exact k5

/-- C4: on a well-formed archive with pairwise distinct local-header offsets, a
valid selection that matches at least one entry makes `deleteFiles` reduce the
recorded archive size by exactly the local-data lengths of the deleted entries
and the recorded directory size by exactly their directory-record lengths; the
combined size becomes strictly smaller. -/
theorem deleteFiles_sizes {P : Type} (norm : P → List Nat) (s : Zip) (names : List P)
    (hmode : s.openMode_ = OpenMode.Update) (hne : names ≠ [])
    (hvalid : ∀ p ∈ names, norm p ≠ [])
    (hok : DirOK s.zip_.tomz_zip_archive) (hl : LocalOK s.zip_.tomz_zip_archive)
    (hmatch : ∃ e, e < s.zip_.m_total_files ∧
      selectedEntry s.zip_.tomz_zip_archive (names.map norm) e = true) :
    ∃ s1, s.deleteFiles norm names = some (.ok (), s1) ∧
      s1.zip_.m_archive_size
        + goneLen (physSel s.zip_.tomz_zip_archive (names.map norm))
            (physLen s.zip_.tomz_zip_archive) s.zip_.m_total_files
        = s.zip_.m_archive_size ∧
      s1.zip_.m_central_dir.m_size
        + goneLen (selectedEntry s.zip_.tomz_zip_archive (names.map norm))
            (cdLen s.zip_.tomz_zip_archive) s.zip_.m_total_files
        = s.zip_.m_central_dir.m_size ∧
      s1.zip_.m_archive_size + s1.zip_.m_central_dir.m_size
        < s.zip_.m_archive_size + s.zip_.m_central_dir.m_size := by
  obtain ⟨e, he, hsel⟩ := hmatch
  have hn : 0 < s.zip_.m_total_files := by omega
  obtain ⟨_, hnum⟩ := entryCmdOf_spec s.zip_.tomz_zip_archive (names.map norm)
  have hnd : (entryCmdOf s.zip_.tomz_zip_archive (names.map norm)).2 ≠ 0 := by
    rw [hnum]
    have : 0 < (List.range s.zip_.m_total_files).countP
        (selectedEntry s.zip_.tomz_zip_archive (names.map norm)) :=
      List.countP_pos_iff.2 ⟨e, List.mem_range.2 he, hsel⟩
    omega
  obtain ⟨st1, st2, s1, hs1, _, _, hA, _, _, hdir, hlf, hidx1, hcd, hidx2, _⟩ :=
    compact_strong s (names.map norm) hok hl hn
  have hU : U32 < U64 := by decide
  refine ⟨s1, ?_, ?_, ?_, ?_⟩
  · rw [deleteFiles_eq norm s names hmode hne hvalid, if_neg (by omega), if_neg hnd, hs1]
  all_goals
    have hdl1 := hlf.dl
    rw [hidx1, (lf_sums s (names.map norm) hl hn _ (Nat.le_refl _)).1] at hdl1
    have hkg := kept_add_gone (physSel s.zip_.tomz_zip_archive (names.map norm))
      (physLen s.zip_.tomz_zip_archive) s.zip_.m_total_files
    have htot := physOfs_total _ hl hn
    have hsz := hl.size_lt
    have hdl2 := hcd.dl
    rw [hidx2, (cd_sums _ (names.map norm) _ (Nat.le_refl _)).1] at hdl2
    have hkg2 := kept_add_gone (selectedEntry s.zip_.tomz_zip_archive (names.map norm))
      (cdLen s.zip_.tomz_zip_archive) s.zip_.m_total_files
    have htot2 := sumTo_cdLen_total _ hok hn
    have hsz2 := hok.size_lt
    have hpos := goneLen_ge (selectedEntry s.zip_.tomz_zip_archive (names.map norm))
      (cdLen s.zip_.tomz_zip_archive) _ e he hsel
    have hce := cdLen_ge _ hok e he
    have hrs := recordSpan_ge s.zip_.tomz_zip_archive e
    have hA' : s1.zip_.m_archive_size = s.zip_.m_archive_size
        - goneLen (physSel s.zip_.tomz_zip_archive (names.map norm))
            (physLen s.zip_.tomz_zip_archive) s.zip_.m_total_files := by
      rw [hA, hdl1, sub64_eq _ _ (by omega) (by omega)]
    have hC' : s1.zip_.m_central_dir.m_size = s.zip_.m_central_dir.m_size
        - goneLen (selectedEntry s.zip_.tomz_zip_archive (names.map norm))
            (cdLen s.zip_.tomz_zip_archive) s.zip_.m_total_files := by
      rw [hdir]
      show sub64 _ _ = _
      rw [hdl2, sub64_eq _ _ (by omega) (by omega)]
    omega

/-- Witness for C4: deleting `a` from the second sample archive. -/
theorem deleteFiles_sizes_witness :
    ∃ s1, demo2.deleteFiles (fun p : List Nat => p) [bytesOf "a"] = some (.ok (), s1) ∧
      s1.zip_.m_archive_size
        + goneLen (physSel demo2.zip_.tomz_zip_archive [bytesOf "a"])
            (physLen demo2.zip_.tomz_zip_archive) demo2.zip_.m_total_files
        = demo2.zip_.m_archive_size ∧
      s1.zip_.m_central_dir.m_size
        + goneLen (selectedEntry demo2.zip_.tomz_zip_archive [bytesOf "a"])
            (cdLen demo2.zip_.tomz_zip_archive) demo2.zip_.m_total_files
        = demo2.zip_.m_central_dir.m_size ∧
      s1.zip_.m_archive_size + s1.zip_.m_central_dir.m_size
        < demo2.zip_.m_archive_size + demo2.zip_.m_central_dir.m_size :=
  deleteFiles_sizes (fun p : List Nat => p) demo2 [bytesOf "a"] rfl (by decide) (by decide)
    demo2_dirOK demo2_localOK demo2_match_a


/-! ## Deletion that deletes nothing, and argument validation -/

/-- C5: in `Update` mode a valid selection that matches none of the entries the
directory lists (in particular any valid selection on an archive without
entries) makes `deleteFiles` return normally with the session state unchanged:
entry count, recorded sizes, directory buffer, offset index and file bytes. -/
theorem deleteFiles_no_match_unchanged {P : Type} (norm : P → List Nat) (s : Zip)
    (names : List P) (hmode : s.openMode_ = OpenMode.Update) (hne : names ≠ [])
    (hvalid : ∀ p ∈ names, norm p ≠ [])
    (hnone : ∀ entries, s.listEntries = .ok entries →
      ∀ e ∈ entries, isSelected (names.map norm) e = false) :
    s.deleteFiles norm names = some (.ok (), s) := by
  have hread : notReadable s.openMode_ = false := by rw [hmode]; rfl
  have hsel : ∀ i, i < s.zip_.m_total_files →
      isSelected (names.map norm) (dirName s.zip_.tomz_zip_archive i) = false := by
    intro i hi
    apply hnone _ (listEntries_eq s hread)
    exact List.mem_map.2 ⟨i, List.mem_range.2 hi, rfl⟩
  unfold Zip.deleteFiles
  have h1 : ¬ s.openMode_ ≠ OpenMode.Update := by simp [hmode]
  have h2 : ¬ names.length = 0 := by
    intro h; exact hne (List.length_eq_zero.1 h)
  have h3 : (names.any fun p => (norm p).isEmpty) = false := by
    rw [List.any_eq_false]
    intro p hp
    have := hvalid p hp
    simpa [List.isEmpty_iff] using this
  rw [if_neg h1, if_neg h2, h3]
  simp only [Bool.false_eq_true, if_false]
  by_cases hn : s.zip_.m_total_files = 0
  · rw [if_pos hn]
  · rw [if_neg hn, snapshot_eq _ _ (Nat.le_refl _)]
    simp only
    have hnd := sortByKey_nodup
      (fun i => (snapshotPos s.zip_.tomz_zip_archive s.zip_.m_total_files i).lf_ofs_)
      s.zip_.m_total_files
    have hc := (classify_spec
      ((List.range s.zip_.m_total_files).map (dirName s.zip_.tomz_zip_archive))
      (names.map norm) _ hnd s.zip_.m_total_files
      (by rw [sortByKey_length, List.length_range])).1
    rw [hc, delCount, sumTo_eq_zero, if_pos rfl]
    intro j hj
    have hlt := sortByKey_getD_lt
      (fun i => (snapshotPos s.zip_.tomz_zip_archive s.zip_.m_total_files i).lf_ofs_)
      s.zip_.m_total_files j hj
    have hs := hsel _ hlt
    rw [← getD_map_range (dirName s.zip_.tomz_zip_archive) _ _ hlt] at hs
    simp only [selAt, hs]
    simp

/-- Witness for C5: selecting `x` in the sample archive (entries `x.txt`,
`dir/y.txt`, `dir/z.txt`) matches nothing and changes nothing. -/
theorem deleteFiles_no_match_unchanged_witness :
    demo.deleteFiles (fun p : List Nat => p) [bytesOf "x"] = some (.ok (), demo) :=
  deleteFiles_no_match_unchanged (fun p : List Nat => p) demo [bytesOf "x"] rfl
    (by decide) (by decide)
    (by
      intro entries h
      have h0 : demo.listEntries
          = .ok [bytesOf "x.txt", bytesOf "dir/y.txt", bytesOf "dir/z.txt"] := by rfl
      rw [h0] at h
      cases h
      decide)

/-- C6: the match test holds exactly when the entry name equals the selected
name or continues it with `'/'`; so `a/b` matches `a/b` and `a/b/c` but not
`a/bc`; an entry is selected iff some selected name matches it, and the
classification tags an entry `Delete` iff it is selected. -/
theorem nameMatches_spec :
    (∀ e s : List Nat,
      nameMatches e s = true ↔ (e = s ∨ ∃ rest, e = s ++ slash :: rest)) ∧
    nameMatches (bytesOf "a/b") (bytesOf "a/b") = true ∧
    nameMatches (bytesOf "a/b/c") (bytesOf "a/b") = true ∧
    nameMatches (bytesOf "a/bc") (bytesOf "a/b") = false ∧
    (∀ (sel : List (List Nat)) (e : List Nat),
      isSelected sel e = true ↔ ∃ s ∈ sel, (e = s ∨ ∃ rest, e = s ++ slash :: rest)) ∧
    (∀ (entryNames sel : List (List Nat)) (indices : List Nat), indices.Nodup →
      ∀ k, k ≤ indices.length → ∀ j, j < k →
        ((classify entryNames sel indices k).1 (indices.getD j 0) = EntryCommand.Delete ↔
          ∃ s ∈ sel, (entryNames.getD (indices.getD j 0) [] = s ∨
            ∃ rest, entryNames.getD (indices.getD j 0) [] = s ++ slash :: rest))) := by
  have hsel : ∀ (sel : List (List Nat)) (e : List Nat),
      isSelected sel e = true ↔ ∃ s ∈ sel, (e = s ∨ ∃ rest, e = s ++ slash :: rest) := by
    intro sel e
    unfold isSelected
    rw [List.any_eq_true]
    constructor
    · rintro ⟨s, hs, h⟩; exact ⟨s, hs, (nameMatches_iff e s).1 h⟩
    · rintro ⟨s, hs, h⟩; exact ⟨s, hs, (nameMatches_iff e s).2 h⟩
  refine ⟨nameMatches_iff, by decide, by decide, by decide, hsel, ?_⟩
  intro entryNames sel indices hnd k hk j hj
  rw [(classify_spec entryNames sel indices hnd k hk).2 j hj, ← hsel]
  unfold physCmd selAt
  generalize isSelected sel (entryNames.getD (indices.getD j 0) []) = b
  cases b
  · simp only [Bool.false_eq_true, if_false]
    split <;> simp
  · simp

/-- Witness for C6: in the sample archive with selection `dir`, the entry at
physical position 1 (`dir/y.txt`) is tagged `Delete`. -/
theorem nameMatches_spec_witness :
    (classify [bytesOf "x.txt", bytesOf "dir/y.txt", bytesOf "dir/z.txt"] [bytesOf "dir"]
        [0, 1, 2] 3).1 ([0, 1, 2].getD 1 0) = EntryCommand.Delete := by
  refine (nameMatches_spec.2.2.2.2.2
    [bytesOf "x.txt", bytesOf "dir/y.txt", bytesOf "dir/z.txt"] [bytesOf "dir"] [0, 1, 2]
    (by decide) 3 (by decide) 1 (by decide)).2 ?_
  exact ⟨bytesOf "dir", by simp, Or.inr ⟨bytesOf "y.txt", by decide⟩⟩

/-- C7: `deleteFiles` raises `invalid_operation` whenever the mode is not
`Update`, whatever the selection; in `Update` mode it raises
`invalid_parameter` when the selection is empty or some name normalizes to the
empty path; in each case the session state is unchanged. -/
theorem deleteFiles_validation {P : Type} (norm : P → List Nat) (s : Zip) (names : List P) :
    (s.openMode_ ≠ OpenMode.Update →
      s.deleteFiles norm names = some (.error Error.invalid_operation, s)) ∧
    (s.openMode_ = OpenMode.Update → (names = [] ∨ ∃ p ∈ names, norm p = []) →
      s.deleteFiles norm names = some (.error Error.invalid_parameter, s)) := by
  constructor
  · intro h
    unfold Zip.deleteFiles
    rw [if_pos h]
  · intro hmode h
    unfold Zip.deleteFiles
    have h1 : ¬ s.openMode_ ≠ OpenMode.Update := by simp [hmode]
    rw [if_neg h1]
    rcases h with h | ⟨p, hp, hpe⟩
    · subst h; simp
    · have h2 : ¬ names.length = 0 := by
        intro h; rw [List.length_eq_zero.1 h] at hp; simp at hp
      have h3 : (names.any fun p => (norm p).isEmpty) = true := by
        rw [List.any_eq_true]
        exact ⟨p, hp, by simp [hpe]⟩
      rw [if_neg h2, if_pos h3]

/-- Witness for C7: a closed session rejects the call as an invalid operation,
the sample session rejects a selection containing an empty name. -/
theorem deleteFiles_validation_witness :
    Zip.init.deleteFiles (fun p : List Nat => p) [bytesOf "x.txt"]
      = some (.error Error.invalid_operation, Zip.init) ∧
    demo.deleteFiles (fun p : List Nat => p) [bytesOf "x.txt", []]
      = some (.error Error.invalid_parameter, demo) :=
  ⟨(deleteFiles_validation (fun p : List Nat => p) Zip.init [bytesOf "x.txt"]).1 (by decide),
   (deleteFiles_validation (fun p : List Nat => p) demo [bytesOf "x.txt", []]).2 rfl
     (Or.inr ⟨[], by simp, rfl⟩)⟩

/-! ## Session lifecycle -/

/-- C8: `close` always ends with mode `None`; on a session that satisfies the
class invariant (a session whose mode is `None` has an empty file name and a
zero recorded size) it ends in the Closed state; on a session whose mode is
`None` it changes nothing; hence closing twice is the same as closing once. -/
theorem close_idempotent (cx : Codec) (s : Zip) (hinv : ClosedInv s) :
    ((s.close cx).openMode_ = OpenMode.None ∧ (s.close cx).filename_ = "" ∧
      (s.close cx).zip_.m_orig_archive_size = 0) ∧
    (s.openMode_ = OpenMode.None → s.close cx = s) ∧
    (s.close cx).close cx = s.close cx := by
  have hnone : ∀ t : Zip, t.openMode_ = OpenMode.None → t.close cx = t := by
    intro t ht
    simp [Zip.close, closeCodec, ht]
  have hmode : (s.close cx).openMode_ = OpenMode.None := close_mode cx s
  refine ⟨⟨hmode, ?_, ?_⟩, hnone s, hnone _ hmode⟩
  · exact (closedInv_close cx s hinv hmode).1
  · exact (closedInv_close cx s hinv hmode).2

/-- Witness for C8 on the sample session. -/
theorem close_idempotent_witness :
    (demo.close demoCodec).openMode_ = OpenMode.None ∧
    (demo.close demoCodec).close demoCodec = demo.close demoCodec :=
  ⟨(close_idempotent demoCodec demo (by decide)).1.1,
   (close_idempotent demoCodec demo (by decide)).2.2⟩

/-- C10: each read-side operation raises `invalid_operation` when the mode is
neither `ReadOnly` nor `Update` (that is, `None`, `Create` or `Create64`),
whatever its argument, and never raises it in `ReadOnly` or `Update` mode. -/
theorem read_side_guard {P : Type} (cx : Codec) (norm : P → List Nat) (s : Zip) (name : P) :
    ((s.openMode_ ≠ OpenMode.ReadOnly ∧ s.openMode_ ≠ OpenMode.Update) ↔
      (s.openMode_ = OpenMode.None ∨ s.openMode_ = OpenMode.Create ∨
        s.openMode_ = OpenMode.Create64)) ∧
    ((s.openMode_ ≠ OpenMode.ReadOnly ∧ s.openMode_ ≠ OpenMode.Update) →
      s.isZip64 = .error Error.invalid_operation ∧
      s.countEntries = .error Error.invalid_operation ∧
      s.listEntries = .error Error.invalid_operation ∧
      s.hasEntry cx norm name = .error Error.invalid_operation ∧
      s.entrySize cx norm name = .error Error.invalid_operation ∧
      s.extractFileToStream cx norm name = .error Error.invalid_operation) ∧
    ((s.openMode_ = OpenMode.ReadOnly ∨ s.openMode_ = OpenMode.Update) →
      s.isZip64 ≠ .error Error.invalid_operation ∧
      s.countEntries ≠ .error Error.invalid_operation ∧
      s.listEntries ≠ .error Error.invalid_operation ∧
      s.hasEntry cx norm name ≠ .error Error.invalid_operation ∧
      s.entrySize cx norm name ≠ .error Error.invalid_operation ∧
      s.extractFileToStream cx norm name ≠ .error Error.invalid_operation) := by
  refine ⟨?_, ?_, ?_⟩
  · cases s.openMode_ <;> simp
  · rintro ⟨h1, h2⟩
    have hn : notReadable s.openMode_ = true := by
      simp [notReadable, h1, h2]
    simp [Zip.isZip64, Zip.countEntries, Zip.listEntries, Zip.hasEntry, Zip.entrySize,
      Zip.extractFileToStream, hn]
  · intro h
    have hn : notReadable s.openMode_ = false := by
      rcases h with h | h <;> rw [h] <;> rfl
    refine ⟨?_, ?_, ?_, ?_, ?_, ?_⟩
    · simp [Zip.isZip64, hn]
    · simp [Zip.countEntries, hn]
    · rw [listEntries_eq s hn]; simp
    · simp only [Zip.hasEntry, hn, Bool.false_eq_true, if_false]
      split <;> simp
    · simp only [Zip.entrySize, hn, Bool.false_eq_true, if_false]
      repeat' split
      all_goals simp
    · simp only [Zip.extractFileToStream, hn, Bool.false_eq_true, if_false]
      repeat' split
      all_goals simp

/-- Witness for C10: a closed session refuses `countEntries`, the sample session
(mode `Update`) does not. -/
theorem read_side_guard_witness :
    Zip.init.countEntries = .error Error.invalid_operation ∧
    demo.countEntries ≠ .error Error.invalid_operation :=
  ⟨((read_side_guard demoCodec (fun p : List Nat => p) Zip.init []).2.1
      ⟨by decide, by decide⟩).2.1,
   ((read_side_guard demoCodec (fun p : List Nat => p) demo []).2.2
      (Or.inr rfl)).2.1⟩


/-! ## Insertion and opening -/

/-- C11: `addFileFromStream` and `addFolder` raise `invalid_operation`, leaving
the session unchanged, whenever the mode is `None` or `ReadOnly`, whatever the
name, the source and the time; in `Update`, `Create` and `Create64` neither
raises `invalid_operation`. -/
theorem add_mode_guard {P : Type} (cw : CodecWriter) (norm : P → List Nat) (s : Zip)
    (name : P) (src : IStream) (modifiedTime : Nat) :
    ((s.openMode_ = OpenMode.None ∨ s.openMode_ = OpenMode.ReadOnly) →
      s.addFileFromStream cw norm name src modifiedTime = (.error Error.invalid_operation, s) ∧
      s.addFolder cw norm name = (.error Error.invalid_operation, s)) ∧
    ((s.openMode_ = OpenMode.Update ∨ s.openMode_ = OpenMode.Create
        ∨ s.openMode_ = OpenMode.Create64) →
      (s.addFileFromStream cw norm name src modifiedTime).1 ≠ .error Error.invalid_operation ∧
      (s.addFolder cw norm name).1 ≠ .error Error.invalid_operation) := by
  constructor
  · intro h
    have hn : notWritable s.openMode_ = true := by
      rcases h with h | h <;> rw [h] <;> rfl
    simp only [Zip.addFileFromStream, Zip.addFolder, hn, if_true, and_self]
  · intro h
    have hn : notWritable s.openMode_ = false := by
      rcases h with h | h | h <;> rw [h] <;> rfl
    simp only [Zip.addFileFromStream, Zip.addFolder, hn, Bool.false_eq_true, if_false]
    constructor
    · repeat' split
      all_goals simp
    · repeat' split
      all_goals simp

/-- Witness for C11: a closed session rejects both insertions, whatever the
arguments, and the sample session in `Update` mode accepts them. -/
theorem add_mode_guard_witness :
    (Zip.init.addFileFromStream demoWriter (fun p : List Nat => p) [] ⟨[], false⟩ 0
        = (.error Error.invalid_operation, Zip.init) ∧
      Zip.init.addFolder demoWriter (fun p : List Nat => p) []
        = (.error Error.invalid_operation, Zip.init)) ∧
    ((demo.addFileFromStream demoWriter (fun p : List Nat => p) (bytesOf "n.txt") ⟨[7], true⟩ 0).1
        ≠ .error Error.invalid_operation ∧
      (demo.addFolder demoWriter (fun p : List Nat => p) (bytesOf "n/")).1
        ≠ .error Error.invalid_operation) :=
  ⟨(add_mode_guard demoWriter (fun p : List Nat => p) Zip.init [] ⟨[], false⟩ 0).1
      (Or.inl rfl),
   (add_mode_guard demoWriter (fun p : List Nat => p) demo (bytesOf "n.txt") ⟨[7], true⟩ 0).2
      (Or.inl rfl) |>.1,
   (add_mode_guard demoWriter (fun p : List Nat => p) demo (bytesOf "n/") ⟨[], false⟩ 0).2
      (Or.inl rfl) |>.2⟩

/-- C12: `open` with mode `None` raises `invalid_parameter` whatever the path
and the file system hold, its outcome being that of `close` alone (the backing
file is not consulted), and leaves the mode `None`; when `open` succeeds the
mode passed is one of the four lifecycle modes and becomes the mode of the
session, together with the file name. -/
theorem open_mode (cx : Codec) (fsys : FileSystem) (s : Zip) (filename : String) :
    s.open cx fsys filename OpenMode.None = (.error Error.invalid_parameter, s.close cx) ∧
    (s.open cx fsys filename OpenMode.None).2.openMode_ = OpenMode.None ∧
    ∀ m, (s.open cx fsys filename m).1 = .ok () →
      (s.open cx fsys filename m).2.openMode_ = m ∧
      (s.open cx fsys filename m).2.filename_ = filename ∧
      (m = OpenMode.ReadOnly ∨ m = OpenMode.Update ∨ m = OpenMode.Create
        ∨ m = OpenMode.Create64) := by
  refine ⟨rfl, close_mode cx s, ?_⟩
  intro m h
  have hm : m = OpenMode.ReadOnly ∨ m = OpenMode.Update ∨ m = OpenMode.Create
      ∨ m = OpenMode.Create64 := by
    cases m with
    | None => cases h
    | ReadOnly => exact Or.inl rfl
    | Update => exact Or.inr (Or.inl rfl)
    | Create => exact Or.inr (Or.inr (Or.inl rfl))
    | Create64 => exact Or.inr (Or.inr (Or.inr rfl))
  refine ⟨?_, ?_, hm⟩
  all_goals
    cases hio : iosModeOf m with
    | none => simp only [Zip.open, hio] at h; cases h
    | some md =>
      cases hf : fsys filename md with
      | none => simp only [Zip.open, hio, hf] at h; cases h
      | some bytes =>
        by_cases hr : (openCodec cx (s.close cx).zip_.tomz_zip_archive ⟨bytes, false⟩ m).1 = true
        · simp only [Zip.open, hio, hf, hr, if_true]
        · simp only [Zip.open, hio, hf, hr, if_false] at h; cases h

/-- Witness for C12: opening with mode `None` from the sample session, and a
successful `ReadOnly` open of an existing file from a fresh session. -/
theorem open_mode_witness :
    (demo.open demoCodec (fun _ _ => some [1, 2, 3]) "b.zip" OpenMode.None).2.openMode_
        = OpenMode.None ∧
    (Zip.init.open demoCodec (fun _ _ => some [1, 2, 3]) "b.zip" OpenMode.ReadOnly).2.openMode_
        = OpenMode.ReadOnly :=
  ⟨(open_mode demoCodec (fun _ _ => some [1, 2, 3]) demo "b.zip").2.1,
   ((open_mode demoCodec (fun _ _ => some [1, 2, 3]) Zip.init "b.zip").2.2
      OpenMode.ReadOnly rfl).1⟩

/-! ## The block-wise copy -/

/-- C13: on a stream that has not failed, with `dst ≤ src` and `src + len`
inside the stream, `iosmove` behaves as an overlap-safe `memmove`: the stream
has not failed and keeps its length, byte `dst + i` is the original byte
`src + i` for every `i < len`, and every byte outside `[dst, dst + len)` is
unchanged; this for every `len` and every gap `src - dst`. -/
theorem iosmove_memmove (ios : FStream) (dst src len : Nat) (hf : ios.failed = false)
    (hds : dst ≤ src) (hlen : src + len ≤ ios.bytes.length) :
    (iosmove ios dst src len).failed = false ∧
    (iosmove ios dst src len).bytes.length = ios.bytes.length ∧
    (∀ i, i < len → (iosmove ios dst src len).bytes[dst + i]? = ios.bytes[src + i]?) ∧
    (∀ q, q < dst ∨ dst + len ≤ q →
      (iosmove ios dst src len).bytes[q]? = ios.bytes[q]?) := by
  rw [iosmove_eq ios dst src len hf hds hlen]
  refine ⟨rfl, length_memmove _ _ _ _ (by omega) (by omega), ?_, ?_⟩
  · intro i hi
    show (memmove ios.bytes dst src len)[dst + i]? = _
    rw [getElem?_memmove _ _ _ _ hlen (by omega), if_pos (by omega)]
    congr 1
    omega
  · intro q hq
    show (memmove ios.bytes dst src len)[q]? = _
    rw [getElem?_memmove _ _ _ _ hlen (by omega), if_neg (by omega)]

/-- Witness for C13: 45 bytes (two pages and a remainder of 5) moved left by 3,
less than a page, in a stream of 50 bytes. -/
theorem iosmove_memmove_witness :
    (iosmove ⟨List.range 50, false⟩ 2 5 45).failed = false ∧
    (iosmove ⟨List.range 50, false⟩ 2 5 45).bytes.length = (List.range 50).length ∧
    (∀ i, i < 45 → (iosmove ⟨List.range 50, false⟩ 2 5 45).bytes[2 + i]?
      = (List.range 50)[5 + i]?) ∧
    (∀ q, q < 2 ∨ 2 + 45 ≤ q →
      (iosmove ⟨List.range 50, false⟩ 2 5 45).bytes[q]? = (List.range 50)[q]?) :=
  iosmove_memmove ⟨List.range 50, false⟩ 2 5 45 rfl (by decide) (by decide)

/-- C14: the buffer `iosmove` allocates has `min len 20` bytes, hence 20 bytes
for every `len ≥ 20`; the instrumented function computes what `iosmove`
computes; it makes `len / 20` full-page reads and writes and one read and one
write of the remainder, and each of them passes a count that is at most the
size of the buffer. -/
theorem iosmove_buffer_bound (ios : FStream) (dst src len : Nat) :
    iosmoveBufSize len = min len 20 ∧
    (20 ≤ len → iosmoveBufSize len = 20) ∧
    (iosmoveLog ios dst src len).1 = iosmove ios dst src len ∧
    (iosmoveLog ios dst src len).2
      = List.replicate (2 * (len / 20)) 20 ++ [len % 20, len % 20] ∧
    ∀ n ∈ (iosmoveLog ios dst src len).2, n ≤ iosmoveBufSize len := by
  have hb : iosmoveBufSize len = min len 20 := by
    unfold iosmoveBufSize pageSize
    split <;> omega
  have hlog : (iosmoveLog ios dst src len).2
      = List.replicate (2 * (len / 20)) 20 ++ [len % 20, len % 20] := by
    unfold iosmoveLog
    simp only [iosmovePagesLog_snd]
    rfl
  refine ⟨hb, fun h => by rw [hb]; omega, iosmoveLog_fst ios dst src len, hlog, ?_⟩
  intro n hn
  rw [hlog] at hn
  rw [hb]
  simp only [List.mem_append, List.mem_replicate, List.mem_cons, List.mem_singleton,
    List.not_mem_nil, or_false, or_self] at hn
  rcases hn with ⟨h0, rfl⟩ | rfl
  · omega
  · omega

/-- Witness for C14: a move of 45 bytes uses a buffer of 20 bytes. -/
theorem iosmove_buffer_bound_witness : iosmoveBufSize 45 = 20 :=
  (iosmove_buffer_bound ⟨List.range 50, false⟩ 2 5 45).2.1 (by decide)

/-! ## Inside the compaction -/

/-- C15: on a well-formed directory, when the selection matches at least one
entry, after `deleteFiles` the recorded directory size is the old size minus the
record lengths of the deleted entries, and the first that many bytes of the
directory buffer are the concatenation, in directory order, of the records of
the surviving entries as the local-data pass left them (`patched`: the old
buffer except inside offset fields); the rebuilt offset index has one element
per survivor, the sum of the record lengths of the survivors before it; and the
recorded entry count is the number of elements of the index. -/
theorem deleteFiles_directory {P : Type} (norm : P → List Nat) (s : Zip) (names : List P)
    (hmode : s.openMode_ = OpenMode.Update) (hne : names ≠ [])
    (hvalid : ∀ p ∈ names, norm p ≠ []) (hok : DirOK s.zip_.tomz_zip_archive)
    (hmatch : ∃ e, e < s.zip_.m_total_files ∧
      selectedEntry s.zip_.tomz_zip_archive (names.map norm) e = true) :
    ∃ s1 patched, s.deleteFiles norm names = some (.ok (), s1) ∧
      patched.length = s.zip_.m_central_dir.m_p.length ∧
      (∀ q, (∀ e, e < s.zip_.m_total_files →
          ¬ (dirOfs s.zip_.tomz_zip_archive e + 42 ≤ q ∧
            q < dirOfs s.zip_.tomz_zip_archive e + 46)) →
        patched[q]? = s.zip_.m_central_dir.m_p[q]?) ∧
      s1.zip_.m_central_dir.m_size
        + goneLen (selectedEntry s.zip_.tomz_zip_archive (names.map norm))
            (cdLen s.zip_.tomz_zip_archive) s.zip_.m_total_files
        = s.zip_.m_central_dir.m_size ∧
      s1.zip_.m_central_dir.m_p.take s1.zip_.m_central_dir.m_size
        = (((List.range s.zip_.m_total_files).filter
              (fun e => !selectedEntry s.zip_.tomz_zip_archive (names.map norm) e)).map
            (fun e => slice patched (dirOfs s.zip_.tomz_zip_archive e)
              (cdLen s.zip_.tomz_zip_archive e))).flatten ∧
      s1.zip_.m_central_dir_offsets.m_p.take s1.zip_.m_central_dir_offsets.m_size
        = ((List.range s.zip_.m_total_files).filter
              (fun e => !selectedEntry s.zip_.tomz_zip_archive (names.map norm) e)).map
            (keptLen (selectedEntry s.zip_.tomz_zip_archive (names.map norm))
              (cdLen s.zip_.tomz_zip_archive)) ∧
      s1.zip_.m_central_dir_offsets.m_size
        = ((List.range s.zip_.m_total_files).filter
            (fun e => !selectedEntry s.zip_.tomz_zip_archive (names.map norm) e)).length ∧
      s1.zip_.m_total_files = s1.zip_.m_central_dir_offsets.m_size := by
  obtain ⟨e0, he0, hsel0⟩ := hmatch
  have hn : 0 < s.zip_.m_total_files := by omega
  obtain ⟨hcmd, hnum⟩ := entryCmdOf_spec s.zip_.tomz_zip_archive (names.map norm)
  have hnd : (entryCmdOf s.zip_.tomz_zip_archive (names.map norm)).2 ≠ 0 := by
    rw [hnum]
    have : 0 < (List.range s.zip_.m_total_files).countP
        (selectedEntry s.zip_.tomz_zip_archive (names.map norm)) :=
      List.countP_pos_iff.2 ⟨e0, List.mem_range.2 he0, hsel0⟩
    omega
  obtain ⟨st1, st2, s1, _, _, hs1, _, _, _, _, _, _, htot, hofs, hdir, hlen1, hout,
    hinv, hidx⟩ := compact_weak s (entryCmdOf s.zip_.tomz_zip_archive (names.map norm)).1
      (entryCmdOf s.zip_.tomz_zip_archive (names.map norm)).2 hok hn
  obtain ⟨hg, hk, hc⟩ := cd_sums s.zip_.tomz_zip_archive (names.map norm) s.zip_.m_total_files
    (Nat.le_refl _)
  have hfilter : (List.range s.zip_.m_total_files).filter
      (fun e => !((entryCmdOf s.zip_.tomz_zip_archive (names.map norm)).1 e
        == EntryCommand.Delete))
      = (List.range s.zip_.m_total_files).filter
        (fun e => !selectedEntry s.zip_.tomz_zip_archive (names.map norm) e) := by
    apply List.filter_congr
    intro e he
    rw [hcmd e (List.mem_range.1 he)]
  have hU : U32 < U64 := by decide
  have hsum := sumTo_cdLen_total _ hok hn
  have hkg := kept_add_gone (selectedEntry s.zip_.tomz_zip_archive (names.map norm))
    (cdLen s.zip_.tomz_zip_archive) s.zip_.m_total_files
  have hszlt := hok.size_lt
  have hdl : st2.delLen = goneLen (selectedEntry s.zip_.tomz_zip_archive (names.map norm))
      (cdLen s.zip_.tomz_zip_archive) s.zip_.m_total_files := by
    rw [hinv.dl, hidx, hg]
  have hsize : s1.zip_.m_central_dir.m_size
      = keptLen (selectedEntry s.zip_.tomz_zip_archive (names.map norm))
          (cdLen s.zip_.tomz_zip_archive) s.zip_.m_total_files := by
    rw [hdir]
    show sub64 _ _ = _
    rw [hdl, sub64_eq _ _ (by omega) (by omega)]
    omega
  have hosz : s1.zip_.m_central_dir_offsets.m_size
      = keptCount (selectedEntry s.zip_.tomz_zip_archive (names.map norm))
          s.zip_.m_total_files := by
    rw [hofs, hinv.osz, hidx, hc]
  have hcountlen : keptCount (selectedEntry s.zip_.tomz_zip_archive (names.map norm))
      s.zip_.m_total_files
      = ((List.range s.zip_.m_total_files).filter
          (fun e => !selectedEntry s.zip_.tomz_zip_archive (names.map norm) e)).length := by
    rw [← length_keptOfs _ (cdLen s.zip_.tomz_zip_archive), keptOfs_eq_map, List.length_map]
  refine ⟨s1, st1.cdir, ?_, hlen1, hout, ?_, ?_, ?_, ?_, ?_⟩
  · rw [deleteFiles_eq norm s names hmode hne hvalid, if_neg (by omega), if_neg hnd, hs1]
  · rw [hsize]; omega
  · rw [hsize, ← hk, ← hfilter]
    have hmp : s1.zip_.m_central_dir.m_p = st2.cdir := by rw [hdir]
    rw [hmp]
    refine take_keptLen st2.cdir st1.cdir _ _ _ s.zip_.m_total_files ?_ _ (Nat.le_refl _)
    intro j hj hdel i hi
    have h1 := hinv.kept j (by rw [hidx]; exact hj) hdel i hi
    rw [← dirOfs_eq_sumTo _ hok j hj] at h1
    exact h1
  · rw [hosz, ← keptOfs_eq_map, ← hc]
    have hl := length_keptOfs
      (fun j => (entryCmdOf s.zip_.tomz_zip_archive (names.map norm)).1 j
        == EntryCommand.Delete) (cdLen s.zip_.tomz_zip_archive) s.zip_.m_total_files
    rw [← hl, hofs]
    have ht := take_eq_of_getElem? st2.cdirOfs.m_p
      (keptOfs (fun j => (entryCmdOf s.zip_.tomz_zip_archive (names.map norm)).1 j
        == EntryCommand.Delete) (cdLen s.zip_.tomz_zip_archive) s.zip_.m_total_files)
      (by
        intro r hr
        rw [hl] at hr
        have := hinv.ofs r (by rw [hidx]; exact hr)
        rw [hidx] at this
        exact this)
    rw [ht, keptOfs_eq_map, keptOfs_eq_map, hfilter]
    apply List.map_congr_left
    intro e he
    have he' : e < s.zip_.m_total_files := List.mem_range.1 (List.mem_filter.1 he).1
    exact ((cd_sums s.zip_.tomz_zip_archive (names.map norm) e (by omega)).2.1).symm ▸ rfl
  · rw [hosz, hcountlen]
  · rw [hosz, htot, hnum]
    have hkc := keptCount_add (selectedEntry s.zip_.tomz_zip_archive (names.map norm))
      s.zip_.m_total_files
    rw [sub32_eq _ _ (by omega) hok.count_lt]
    omega

/-- Witness for C15: deleting `dir/y.txt` from the sample archive. -/
theorem deleteFiles_directory_witness :
    ∃ s1, demo.deleteFiles (fun p : List Nat => p) [bytesOf "dir/y.txt"] = some (.ok (), s1) ∧
      s1.zip_.m_central_dir.m_size
        + goneLen (selectedEntry demo.zip_.tomz_zip_archive [bytesOf "dir/y.txt"])
            (cdLen demo.zip_.tomz_zip_archive) demo.zip_.m_total_files
        = demo.zip_.m_central_dir.m_size ∧
      s1.zip_.m_total_files = s1.zip_.m_central_dir_offsets.m_size := by
  obtain ⟨s1, _, h1, _, _, h2, _, _, _, h3⟩ :=
    deleteFiles_directory (fun p : List Nat => p) demo [bytesOf "dir/y.txt"] rfl (by decide)
      (by decide) demo_dirOK ⟨1, by decide, by decide⟩
  exact ⟨s1, h1, h2, h3⟩

/-- C16: the entries are taken in ascending order of local-header offset, every
entry having a place in that order; there an entry that the selection matches
is tagged `Delete`, a non-matching entry with no matching entry before it is
tagged `Keep`, and a non-matching entry with a matching entry before it is
tagged `Move`; so no `Keep` follows a `Delete` or a `Move`, and the deletion
counter is the number of `Delete` tags. -/
theorem classify_tags (z : mz_zip_archive) (sel : List (List Nat)) :
    (∀ i j, i < j → j < z.m_total_files → physOfs z i ≤ physOfs z j) ∧
    (∀ e, e < z.m_total_files → ∃ k, k < z.m_total_files ∧ (physOrder z).getD k 0 = e) ∧
    (∀ k, k < z.m_total_files →
      (physSel z sel k = true →
        (entryCmdOf z sel).1 ((physOrder z).getD k 0) = EntryCommand.Delete) ∧
      (physSel z sel k = false → (∀ j, j < k → physSel z sel j = false) →
        (entryCmdOf z sel).1 ((physOrder z).getD k 0) = EntryCommand.Keep) ∧
      (physSel z sel k = false → (∃ j, j < k ∧ physSel z sel j = true) →
        (entryCmdOf z sel).1 ((physOrder z).getD k 0) = EntryCommand.Move)) ∧
    (∀ j k, j < k → k < z.m_total_files →
      (entryCmdOf z sel).1 ((physOrder z).getD k 0) = EntryCommand.Keep →
      (entryCmdOf z sel).1 ((physOrder z).getD j 0) = EntryCommand.Keep) ∧
    (entryCmdOf z sel).2
      = (List.range z.m_total_files).countP
          (fun e => (entryCmdOf z sel).1 e == EntryCommand.Delete) := by
  refine ⟨fun i j hij hj => physOfs_le z hij hj, physOrder_surj z, ?_, ?_, ?_⟩
  · intro k hk
    rw [entryCmdOf_phys z sel k hk]
    refine ⟨?_, ?_, ?_⟩
    · intro h; rw [h]; rfl
    · intro h hall
      rw [h]
      simp only [Bool.false_eq_true, if_false]
      rw [if_neg]
      rintro ⟨j, hj, hs⟩
      rw [hall j hj] at hs
      cases hs
    · intro h hex
      rw [h]
      simp only [Bool.false_eq_true, if_false]
      rw [if_pos hex]
  · intro j k hjk hk hkeep
    rw [entryCmdOf_phys z sel k hk] at hkeep
    rw [entryCmdOf_phys z sel j (by omega)]
    cases hs : physSel z sel k
    · rw [hs] at hkeep
      simp only [Bool.false_eq_true, if_false] at hkeep
      by_cases hex : ∃ i, i < k ∧ physSel z sel i = true
      · rw [if_pos hex] at hkeep; cases hkeep
      · have hj : physSel z sel j = false := by
          cases hsj : physSel z sel j
          · rfl
          · exact absurd ⟨j, hjk, hsj⟩ hex
        rw [hj]
        simp only [Bool.false_eq_true, if_false]
        rw [if_neg]
        rintro ⟨i, hi, hsi⟩
        exact hex ⟨i, by omega, hsi⟩
    · rw [hs] at hkeep
      simp at hkeep
  · rw [(entryCmdOf_spec z sel).2]
    apply List.countP_congr
    intro e he
    rw [(entryCmdOf_spec z sel).1 e (List.mem_range.1 he)]

/-- Witness for C16: in the sample archive with selection `dir/y.txt` the
entries at physical positions 0, 1 and 2 are tagged `Keep`, `Delete` and
`Move`. -/
theorem classify_tags_witness :
    (entryCmdOf demo.zip_.tomz_zip_archive [bytesOf "dir/y.txt"]).1
        ((physOrder demo.zip_.tomz_zip_archive).getD 0 0) = EntryCommand.Keep ∧
    (entryCmdOf demo.zip_.tomz_zip_archive [bytesOf "dir/y.txt"]).1
        ((physOrder demo.zip_.tomz_zip_archive).getD 1 0) = EntryCommand.Delete ∧
    (entryCmdOf demo.zip_.tomz_zip_archive [bytesOf "dir/y.txt"]).1
        ((physOrder demo.zip_.tomz_zip_archive).getD 2 0) = EntryCommand.Move :=
  ⟨((classify_tags demo.zip_.tomz_zip_archive [bytesOf "dir/y.txt"]).2.2.1 0 (by decide)).2.1
      (by decide) (by decide),
   ((classify_tags demo.zip_.tomz_zip_archive [bytesOf "dir/y.txt"]).2.2.1 1 (by decide)).1
      (by decide),
   ((classify_tags demo.zip_.tomz_zip_archive [bytesOf "dir/y.txt"]).2.2.1 2 (by decide)).2.2
      (by decide) ⟨1, by decide, by decide⟩⟩

/-- C17: the local-data pass starts its cursors at 0, not at the first entry's
offset.  The fourth sample archive is well formed with distinct offsets, its
first entry `a` lies at offset 2 and `b` at offset 5 with 4 bytes; deleting `a`
patches the offset of `b` to 2, but the four bytes found there afterwards are
not the bytes of `b`: the copy went from position 3 to position 0. -/
theorem deleteFiles_leading_bytes :
    ∃ s1, demo4.deleteFiles (fun p : List Nat => p) [bytesOf "a"] = some (.ok (), s1) ∧
      DirOK demo4.zip_.tomz_zip_archive ∧ LocalOK demo4.zip_.tomz_zip_archive ∧
      physOfs demo4.zip_.tomz_zip_archive 0 = 2 ∧
      physSel demo4.zip_.tomz_zip_archive [bytesOf "a"] 0 = true ∧
      physSel demo4.zip_.tomz_zip_archive [bytesOf "a"] 1 = false ∧
      physOfs demo4.zip_.tomz_zip_archive 1 = 5 ∧
      physLen demo4.zip_.tomz_zip_archive 1 = 4 ∧
      slice demo4.file_.bytes 5 4 = [20, 21, 22, 23] ∧
      s1.zip_.m_total_files = 1 ∧
      dirName s1.zip_.tomz_zip_archive 0 = bytesOf "b" ∧
      dirLfOfs s1.zip_.tomz_zip_archive 0 = 2 ∧
      slice s1.file_.bytes 2 4 = [20, 21, 12, 20] ∧
      slice s1.file_.bytes 2 4 ≠ slice demo4.file_.bytes 5 4 := by
  have k1 : (demo4.deleteFiles (fun p : List Nat => p) [bytesOf "a"]).map
      (fun r => r.1.toBool) = some true := by decide!
  have k2 : (demo4.deleteFiles (fun p : List Nat => p) [bytesOf "a"]).map
      (fun r => r.2.zip_.m_total_files) = some 1 := by decide!
  have k3 : (demo4.deleteFiles (fun p : List Nat => p) [bytesOf "a"]).map
      (fun r => dirName r.2.zip_.tomz_zip_archive 0) = some (bytesOf "b") := by decide!
  have k4 : (demo4.deleteFiles (fun p : List Nat => p) [bytesOf "a"]).map
      (fun r => dirLfOfs r.2.zip_.tomz_zip_archive 0) = some 2 := by decide!
  have k5 : (demo4.deleteFiles (fun p : List Nat => p) [bytesOf "a"]).map
      (fun r => slice r.2.file_.bytes 2 4) = some [20, 21, 12, 20] := by decide!
  obtain ⟨r, hr⟩ : ∃ r, demo4.deleteFiles (fun p : List Nat => p) [bytesOf "a"] = r :=
    ⟨_, rfl⟩
  rw [hr] at k1 k2 k3 k4 k5
  rw [hr]
  rcases r with _ | ⟨e | u, s1⟩
  · cases k1
  · cases k1
  · simp only [Option.map_some', Option.some.injEq] at k2 k3 k4 k5
    refine ⟨s1, rfl, demo4_dirOK, demo4_localOK, by decide!, by decide!, by decide!, by decide!,
      by decide!, by decide!, k2, k3, k4, k5, ?_⟩
    rw [k5]
    decide

/-- C18: a selected name `s` does not match an entry name `s ++ rest` when
`rest` is non-empty and does not begin with `'/'`, which is the case of every
entry below a selected name that itself ends in `'/'`; it matches the entry
named exactly `s`.  So with the selection `[s]` such an entry `s ++ rest` is not
tagged `Delete`, while an entry named `s` is. -/
theorem trailing_slash_no_cascade (s rest : List Nat) (hrest : rest ≠ [])
    (hhead : rest.head? ≠ some slash) :
    nameMatches (s ++ rest) s = false ∧
    nameMatches s s = true ∧
    isSelected [s] (s ++ rest) = false ∧
    isSelected [s] s = true ∧
    ∀ (z : mz_zip_archive) (e : Nat), e < z.m_total_files →
      (dirName z e = s ++ rest → (entryCmdOf z [s]).1 e ≠ EntryCommand.Delete) ∧
      (dirName z e = s → (entryCmdOf z [s]).1 e = EntryCommand.Delete) := by
  have h1 : nameMatches (s ++ rest) s = false := by
    cases hm : nameMatches (s ++ rest) s
    · rfl
    · exfalso
      rcases (nameMatches_iff _ _).1 hm with h | ⟨r, h⟩
      · have : rest = [] := by
          have := congrArg List.length h
          simp at this
          exact this
        exact hrest this
      · have := List.append_cancel_left h
        rw [this] at hhead
        simp at hhead
  have h2 : nameMatches s s = true := (nameMatches_iff _ _).2 (Or.inl rfl)
  have h3 : isSelected [s] (s ++ rest) = false := by simp [isSelected, h1]
  have h4 : isSelected [s] s = true := by simp [isSelected, h2]
  refine ⟨h1, h2, h3, h4, ?_⟩
  intro z e he
  have hc := (entryCmdOf_spec z [s]).1 e he
  unfold selectedEntry at hc
  constructor
  · intro hn hd
    rw [hn, h3, hd] at hc
    simp at hc
  · intro hn
    rw [hn, h4] at hc
    simpa using hc

/-- Witness for C18: the selection `dir/` does not match `dir/y.txt`, and in
the sample archive the entry `dir/y.txt` is not tagged `Delete` for it. -/
theorem trailing_slash_no_cascade_witness :
    nameMatches (bytesOf "dir/" ++ bytesOf "y.txt") (bytesOf "dir/") = false ∧
    nameMatches (bytesOf "dir/") (bytesOf "dir/") = true ∧
    (entryCmdOf demo.zip_.tomz_zip_archive [bytesOf "dir/"]).1 1 ≠ EntryCommand.Delete :=
  ⟨(trailing_slash_no_cascade (bytesOf "dir/") (bytesOf "y.txt") (by decide) (by decide)).1,
   (trailing_slash_no_cascade (bytesOf "dir/") (bytesOf "y.txt") (by decide) (by decide)).2.1,
   ((trailing_slash_no_cascade (bytesOf "dir/") (bytesOf "y.txt") (by decide)
      (by decide)).2.2.2.2 demo.zip_.tomz_zip_archive 1 (by decide)).1 (by decide)⟩

/-- C19: the step that patches a moved entry shifts its offset by the deleted
length so far and stores it in the four bytes at record offset + 42 truncated
to 32 bits: they decode to the new offset modulo 2^32, which is the new offset
iff that is below 2^32.  The step that rebuilds the offset index stores the new
directory offset modulo 2^32.  On a well-formed archive, after `deleteFiles`
the field of every moved entry decodes to its old offset minus the deleted
length before it, modulo 2^32. -/
theorem patch_is_32bit {P : Type} (norm : P → List Nat) (s : Zip) (names : List P)
    (indices : List Nat) (st : LoopState) :
    ((st.entryPos (indices.getD st.index 0)).cd_ofs_ + 46 ≤ st.cdir.length →
      ((lfMoveStep indices st).entryPos (indices.getD st.index 0)).lf_ofs_
        = sub64 (st.entryPos (indices.getD st.index 0)).lf_ofs_ st.delLen ∧
      MZ_READ_LE32 (lfMoveStep indices st).cdir
          ((st.entryPos (indices.getD st.index 0)).cd_ofs_ + 42)
        = sub64 (st.entryPos (indices.getD st.index 0)).lf_ofs_ st.delLen % U32 ∧
      (MZ_READ_LE32 (lfMoveStep indices st).cdir
          ((st.entryPos (indices.getD st.index 0)).cd_ofs_ + 42)
        = ((lfMoveStep indices st).entryPos (indices.getD st.index 0)).lf_ofs_
        ↔ ((lfMoveStep indices st).entryPos (indices.getD st.index 0)).lf_ofs_ < U32)) ∧
    (st.cdirOfs.m_size < st.cdirOfs.m_p.length →
      ((cdMoveStep st).entryPos st.index).cd_ofs_
        = sub64 (st.entryPos st.index).cd_ofs_ st.delLen ∧
      (cdMoveStep st).cdirOfs.m_p[st.cdirOfs.m_size]?
        = some (sub64 (st.entryPos st.index).cd_ofs_ st.delLen % U32)) ∧
    (s.openMode_ = OpenMode.Update → names ≠ [] → (∀ p ∈ names, norm p ≠ []) →
      DirOK s.zip_.tomz_zip_archive → LocalOK s.zip_.tomz_zip_archive →
      ∃ s1, s.deleteFiles norm names = some (.ok (), s1) ∧
        ∀ k, k < s.zip_.m_total_files →
          (entryCmdOf s.zip_.tomz_zip_archive (names.map norm)).1
            ((physOrder s.zip_.tomz_zip_archive).getD k 0) = EntryCommand.Move →
          dirLfOfs s1.zip_.tomz_zip_archive
              (keptCount (selectedEntry s.zip_.tomz_zip_archive (names.map norm))
                ((physOrder s.zip_.tomz_zip_archive).getD k 0))
            = (physOfs s.zip_.tomz_zip_archive k
                - goneLen (physSel s.zip_.tomz_zip_archive (names.map norm))
                    (physLen s.zip_.tomz_zip_archive) k) % U32) :=
  ⟨fun hwin => ⟨(step_is_32bit indices st hwin).1, (step_is_32bit indices st hwin).2.1,
      (step_is_32bit indices st hwin).2.2.1⟩,
   fun hs => by
      constructor
      · simp [cdMoveStep]
      · simp [cdMoveStep, u32, List.getElem?_set, hs],
   fun hmode hne hvalid hok hl => moved_field norm s names hmode hne hvalid hok hl⟩

/-- Witness for C19: a moved entry whose offset is 2^32 + 100, with 10 bytes
deleted before it, gets the field 90; and in the second sample archive the
moved entry `b` gets the field 0. -/
theorem patch_is_32bit_witness :
    MZ_READ_LE32 (lfMoveStep [0]
        { index := 0, wrPos := 0, rdPos := 10, delLen := 10, movLen := 0
          entryPos := fun _ => ⟨4294967396, 5, 0, 47⟩
          cdir := cdRecord (bytesOf "a") 100, cdirOfs := ⟨[0], 0⟩
          file := ⟨[], false⟩ }).cdir (0 + 42) = 4294967386 % U32 :=
  ((patch_is_32bit (fun p : List Nat => p) demo2 [bytesOf "a"] [0]
    { index := 0, wrPos := 0, rdPos := 10, delLen := 10, movLen := 0
      entryPos := fun _ => ⟨4294967396, 5, 0, 47⟩
      cdir := cdRecord (bytesOf "a") 100, cdirOfs := ⟨[0], 0⟩
      file := ⟨[], false⟩ }).1 (by decide)).2.1

/-! ## Opening over an open session -/

/-- C20: `open` closes the session before anything else, so whenever it raises
(mode `None`, the file cannot be opened, or the codec engine fails to
initialise) the mode afterwards is `None`, whatever it was before, with file
name and recorded original size as `close` left them; with mode `None` the
state is exactly the closed one. -/
theorem open_failure_closed (cx : Codec) (fsys : FileSystem) (s : Zip) (filename : String)
    (m : OpenMode) :
    (∀ e, (s.open cx fsys filename m).1 = .error e →
      (s.open cx fsys filename m).2.openMode_ = OpenMode.None ∧
      (s.open cx fsys filename m).2.filename_ = (s.close cx).filename_ ∧
      (s.open cx fsys filename m).2.zip_.m_orig_archive_size
        = (s.close cx).zip_.m_orig_archive_size) ∧
    (m = OpenMode.None →
      s.open cx fsys filename m = (.error Error.invalid_parameter, s.close cx)) ∧
    (∀ md, iosModeOf m = some md → fsys filename md = none →
      (s.open cx fsys filename m).1 = .error Error.io_error) ∧
    (∀ md bytes, iosModeOf m = some md → fsys filename md = some bytes →
      (openCodec cx (s.close cx).zip_.tomz_zip_archive ⟨bytes, false⟩ m).1 = false →
      (s.open cx fsys filename m).1 = .error Error.miniz) := by
  refine ⟨?_, ?_, ?_, ?_⟩
  · intro e h
    cases hio : iosModeOf m with
    | none => simp [Zip.open, hio, close_mode]
    | some md =>
      cases hf : fsys filename md with
      | none => simp [Zip.open, hio, hf, close_mode]
      | some bytes =>
        by_cases hr : (openCodec cx (s.close cx).zip_.tomz_zip_archive ⟨bytes, false⟩ m).1 = true
        · simp only [Zip.open, hio, hf, hr, if_true] at h; cases h
        · simp [Zip.open, hio, hf, hr, close_mode]
  · intro h
    rw [h]
    rfl
  · intro md hmd hf
    unfold Zip.open
    simp only [hmd, hf]
  · intro md bytes hmd hf hc
    unfold Zip.open
    simp only [hmd, hf, hc]
    simp

/-- Witness for C20: the sample session, in `Update` mode, is asked to open a
file that cannot be opened: the call raises and the mode is `None`. -/
theorem open_failure_closed_witness :
    (demo.open demoCodec (fun _ _ => none) "b.zip" OpenMode.ReadOnly).2.openMode_
        = OpenMode.None :=
  ((open_failure_closed demoCodec (fun _ _ => none) demo "b.zip" OpenMode.ReadOnly).1
    Error.io_error rfl).1

/-! ## Termination of the compaction -/

/-- C21: both compaction passes of `deleteFiles` return for every entry count,
every classification and every table of lengths, with the index at most the
entry count, and so `deleteFiles` itself returns in every state.  An iteration
of the first outer loop entered with `movLen` zero returns, and either leaves
through the `movLen == 0` break or has advanced the index; an iteration of the
second returns and advances the index whenever an entry is left; in both the
index stays at most the entry count, and the size of the rebuilt offset index
stays at most the index.  Each of the five inner loops is a `while` loop whose
body, where the tables are read at `index`, is entered only with the index
below the entry count; and the order of the entries holds only indices below
the entry count. -/
theorem compaction_terminates {P : Type} (norm : P → List Nat) (n : Nat) (indices : List Nat)
    (cmd : Nat → EntryCommand) :
    (∀ (entryPos : Nat → EntryPosition) (cdir : List Nat) (cdirOfs : mz_zip_array)
        (file : FStream),
      ∃ st1, compactLocal n indices cmd entryPos cdir cdirOfs file = some st1 ∧
        st1.index ≤ n ∧ st1.movLen = 0) ∧
    (∀ st : LoopState, ∃ st2, compactDir n cmd st = some st2 ∧ st2.index ≤ n ∧
      st2.cdirOfs.m_size ≤ st2.index) ∧
    (∀ (s : Zip) (numDel : Nat) (entryPos : Nat → EntryPosition),
      ∃ s1, compact s n indices cmd numDel entryPos = some s1) ∧
    (∀ (s : Zip) (names : List P), ∃ r, s.deleteFiles norm names = some r) ∧
    (∀ st : LoopState, st.index ≤ n → st.movLen = 0 →
      ∃ st1 b, lfBody n indices cmd st = some (st1, b) ∧ st.index ≤ st1.index ∧
        st1.index ≤ n ∧ st1.movLen = 0 ∧ (b = false → st.index < st1.index)) ∧
    (∀ st : LoopState, st.index ≤ n → st.cdirOfs.m_size ≤ st.index →
      ∃ st1 b, cdBody n cmd st = some (st1, b) ∧ st.index ≤ st1.index ∧ st1.index ≤ n ∧
        st1.cdirOfs.m_size ≤ st1.index ∧ (b = true → st1.movLen = 0) ∧
        (st.index < n → st.index < st1.index)) ∧
    (∀ st : LoopState,
      lfKeepRun n indices cmd st = whileLoop
        (fun st : LoopState => decide (st.index < n)
          && (cmd (indices.getD st.index 0) == EntryCommand.Keep))
        (fun st => { st with
          wrPos := add64 st.wrPos (st.entryPos (indices.getD st.index 0)).lf_len_
          index := st.index + 1 }) (n + 1) st ∧
      ∀ v ∈ whileVisits
        (fun st : LoopState => decide (st.index < n)
          && (cmd (indices.getD st.index 0) == EntryCommand.Keep))
        (fun st => { st with
          wrPos := add64 st.wrPos (st.entryPos (indices.getD st.index 0)).lf_len_
          index := st.index + 1 }) (n + 1) st, v.index < n) ∧
    (∀ st : LoopState,
      lfDeleteRun n indices cmd st = whileLoop
        (fun st : LoopState => decide (st.index < n)
          && (cmd (indices.getD st.index 0) == EntryCommand.Delete))
        (fun st => { st with
          rdPos := add64 st.rdPos (st.entryPos (indices.getD st.index 0)).lf_len_
          index := st.index + 1 }) (n + 1) st ∧
      ∀ v ∈ whileVisits
        (fun st : LoopState => decide (st.index < n)
          && (cmd (indices.getD st.index 0) == EntryCommand.Delete))
        (fun st => { st with
          rdPos := add64 st.rdPos (st.entryPos (indices.getD st.index 0)).lf_len_
          index := st.index + 1 }) (n + 1) st, v.index < n) ∧
    (∀ st : LoopState,
      lfMoveRun n indices cmd st = whileLoop
        (fun st : LoopState => decide (st.index < n)
          && (cmd (indices.getD st.index 0) == EntryCommand.Move))
        (lfMoveStep indices) (n + 1) st ∧
      ∀ v ∈ whileVisits
        (fun st : LoopState => decide (st.index < n)
          && (cmd (indices.getD st.index 0) == EntryCommand.Move))
        (lfMoveStep indices) (n + 1) st, v.index < n) ∧
    (∀ st : LoopState,
      cdDeleteRun n cmd st = whileLoop
        (fun st : LoopState => decide (st.index < n)
          && (cmd st.index == EntryCommand.Delete))
        (fun st => { st with
          rdPos := add64 st.rdPos (st.entryPos st.index).cd_len_
          index := st.index + 1 }) (n + 1) st ∧
      ∀ v ∈ whileVisits
        (fun st : LoopState => decide (st.index < n)
          && (cmd st.index == EntryCommand.Delete))
        (fun st => { st with
          rdPos := add64 st.rdPos (st.entryPos st.index).cd_len_
          index := st.index + 1 }) (n + 1) st, v.index < n) ∧
    (∀ st : LoopState,
      cdMoveRun n cmd st = whileLoop
        (fun st : LoopState => decide (st.index < n)
          && (cmd st.index != EntryCommand.Delete))
        cdMoveStep (n + 1) st ∧
      ∀ v ∈ whileVisits
        (fun st : LoopState => decide (st.index < n)
          && (cmd st.index != EntryCommand.Delete))
        cdMoveStep (n + 1) st, v.index < n) ∧
    (∀ (z : mz_zip_archive) (j : Nat), j < z.m_total_files →
      (physOrder z).getD j 0 < z.m_total_files) :=
  ⟨compactLocal_idx n indices cmd,
   compactDir_idx n cmd,
   fun s numDel entryPos => compact_total s n indices cmd numDel entryPos,
   fun s names => deleteFiles_total norm s names,
   lfBody_idx n indices cmd,
   cdBody_idx n cmd,
   fun st => ⟨rfl, whileVisits_index n _ _ (n + 1) st⟩,
   fun st => ⟨rfl, whileVisits_index n _ _ (n + 1) st⟩,
   fun st => ⟨rfl, whileVisits_index n _ _ (n + 1) st⟩,
   fun st => ⟨rfl, whileVisits_index n _ _ (n + 1) st⟩,
   fun st => ⟨rfl, whileVisits_index n _ _ (n + 1) st⟩,
   fun z j hj => physOrder_lt z j hj⟩

/-- Witness for C21: an iteration of the first outer loop on three entries
tagged `Keep`, `Delete`, `Move`, entered at index 1 with `movLen` zero. -/
theorem compaction_terminates_witness :
    ∃ st1 b, lfBody 3 [0, 1, 2]
        (fun e => if e = 1 then EntryCommand.Delete
          else if e = 2 then EntryCommand.Move else EntryCommand.Keep)
        { index := 1, wrPos := 3, rdPos := 3, delLen := 0, movLen := 0
          entryPos := fun e => ⟨3 * e, 3, 47 * e, 47⟩
          cdir := List.replicate 141 0, cdirOfs := ⟨[0, 47, 94], 3⟩
          file := ⟨List.replicate 9 1, false⟩ } = some (st1, b) ∧
      1 ≤ st1.index ∧ st1.index ≤ 3 ∧ st1.movLen = 0 ∧ (b = false → 1 < st1.index) :=
  (compaction_terminates (fun p : List Nat => p) 3 [0, 1, 2]
    (fun e => if e = 1 then EntryCommand.Delete
      else if e = 2 then EntryCommand.Move else EntryCommand.Keep)).2.2.2.2.1
    { index := 1, wrPos := 3, rdPos := 3, delLen := 0, movLen := 0
      entryPos := fun e => ⟨3 * e, 3, 47 * e, 47⟩
      cdir := List.replicate 141 0, cdirOfs := ⟨[0, 47, 94], 3⟩
      file := ⟨List.replicate 9 1, false⟩ } (by decide) rfl
end minidocx
